import Mathlib

/-!
wachat: a verification development.

A shallow embedding of the chat-export converter `wachat` (Go) and proofs
about it.  Go strings are modelled as lists of characters (`Str`), and as
lists of bytes where the code slices or measures them, slices as lists,
`(T, bool)` and `(T, error)` results as `Option` / `Except`.

The file has three parts.

* Definitions.  They follow the packages of the repository: `domain`
  (chat.go, message.go), `adapter/parser` (whatsapp.go), `adapter/renderer`
  (text.go), `app` (service.go) and `cmd` (init.go).  The library functions
  the code calls (`time.Parse`, `Time.Format`, `regexp`, `strings`,
  `bufio`, `path/filepath`) are embedded as far as the program uses them.  The last
  section of the definitions states the wording of the specification.
* Lemmas about the definitions.
* The claims C1 to C12, in order, each with its theorem and, where there
  is one, its counterexample and a concrete instance.
-/

namespace Wachat

/-- Go strings, as sequences of characters. -/
abbrev Str := List Char

/-! ## package strings, unicode (library) -/

/-- `strings.HasPrefix`. -/
def HasPrefix (s p : Str) : Bool := p.isPrefixOf s

/-- `strings.HasSuffix`. -/
def HasSuffix (s p : Str) : Bool := p.isSuffixOf s

/-- `strings.Contains`: `sub` occurs in `s` at some position. -/
def Contains : Str → Str → Bool
  | [], sub => sub.isEmpty
  | c :: cs, sub => sub.isPrefixOf (c :: cs) || Contains cs sub

/-- `unicode.ToUpper` on the characters that matter for a comparison with
an ASCII text: the ASCII letters, and the two other characters whose upper
case is an ASCII letter (U+0131 dotless i, U+017F long s).  Every other
character has a non-ASCII upper case and is left as it is. -/
def toUpperRune (c : Char) : Char :=
  if 'a' ≤ c ∧ c ≤ 'z' then Char.ofNat (c.toNat - 32)
  else if c = Char.ofNat 0x131 then 'I'
  else if c = Char.ofNat 0x17F then 'S'
  else c

/-- `unicode.ToLower` on the characters that matter for a comparison with
an ASCII text: the ASCII letters, and the two other characters whose lower
case is an ASCII letter (U+0130 dotted I, U+212A Kelvin sign). -/
def toLowerRune (c : Char) : Char :=
  if 'A' ≤ c ∧ c ≤ 'Z' then Char.ofNat (c.toNat + 32)
  else if c = Char.ofNat 0x130 then 'i'
  else if c = Char.ofNat 0x212A then 'k'
  else c

/-- `strings.ToUpper`. -/
def ToUpper (s : Str) : Str := s.map toUpperRune

/-- `strings.ToLower`. -/
def ToLower (s : Str) : Str := s.map toLowerRune

/-- `unicode.IsSpace`: the white space of `strings.TrimSpace`. -/
def isSpace (c : Char) : Bool :=
  c == '\t' || c == '\n' || c == Char.ofNat 0x0B || c == Char.ofNat 0x0C || c == '\r'
    || c == ' ' || c == Char.ofNat 0x85 || c == Char.ofNat 0xA0 || c == Char.ofNat 0x1680
    || (0x2000 ≤ c.toNat && c.toNat ≤ 0x200A)
    || c == Char.ofNat 0x2028 || c == Char.ofNat 0x2029 || c == Char.ofNat 0x202F
    || c == Char.ofNat 0x205F || c == Char.ofNat 0x3000

/-- `strings.TrimSpace`: white space removed at both ends. -/
def TrimSpace (s : Str) : Str :=
  ((s.dropWhile isSpace).reverse.dropWhile isSpace).reverse

/-! ## Strings as bytes (language) -/

/-- The bytes of a Go string.  Indexing and slicing a string count bytes,
and a slice of a text need not be a text again. -/
abbrev Bytes := List Nat

/-- The UTF-8 encoding of one character (`utf8.AppendRune`). -/
def encodeRune (c : Char) : Bytes :=
  let r := c.toNat
  if r < 0x80 then [r]
  else if r < 0x800 then [0xC0 + r / 64, 0x80 + r % 64]
  else if r < 0x10000 then [0xE0 + r / 4096, 0x80 + r / 64 % 64, 0x80 + r % 64]
  else [0xF0 + r / 262144, 0x80 + r / 4096 % 64, 0x80 + r / 64 % 64, 0x80 + r % 64]

/-- The bytes of a text. -/
def utf8 (s : Str) : Bytes := s.flatMap encodeRune

/-- A number in decimal, as the run time prints it in a panic message. -/
def decimal (x : Int) : Str :=
  (if x < 0 then ['-'] else []) ++ Nat.toDigits 10 x.natAbs

/-- The slice expression `s[:hi]` on a string: its first `hi` bytes, or the
run-time panic when `hi` is beyond the length. -/
def sliceTo (s : Bytes) (hi : Nat) : Except Str Bytes :=
  if hi ≤ s.length then .ok (s.take hi)
  else .error ("runtime error: slice bounds out of range [:".toList ++ decimal hi
    ++ "] with length ".toList ++ decimal s.length)

/-- The slice expression `s[lo:]` on a string, for an `int` `lo`: the bytes
from position `lo` on, or the run-time panic when `lo` is negative or
beyond the length. -/
def sliceFrom (s : Bytes) (lo : Int) : Except Str Bytes :=
  if lo < 0 then
    .error ("runtime error: slice bounds out of range [".toList ++ decimal lo ++ ":]".toList)
  else if (s.length : Int) < lo then
    .error ("runtime error: slice bounds out of range [".toList ++ decimal lo ++ ":".toList
      ++ decimal s.length ++ "]".toList)
  else .ok (s.drop lo.toNat)

/-- The orbit of a character under `unicode.SimpleFold`, named by its
lower-case member, for the orbits that hold an ASCII letter: `A`..`Z` with
`a`..`z`, the Kelvin sign with `k`, the long s with `s`.  Other characters
stand for themselves. -/
def foldRune (c : Char) : Char :=
  if 'A' ≤ c ∧ c ≤ 'Z' then Char.ofNat (c.toNat + 32)
  else if c = Char.ofNat 0x212A then 'k'
  else if c = Char.ofNat 0x17F then 's'
  else c

/-- `strings.EqualFold`, exact when one of the two texts is ASCII: the texts
have the same characters up to simple case folding. -/
def EqualFold (s t : Str) : Bool := s.map foldRune == t.map foldRune

/-! ## package regexp (library): a backtracking matcher

The patterns of whatsapp.go use literals, character classes, grouping,
alternation, repetition of a single character class, and the anchors `^`
and `$`.  `Re` is that fragment; `Re.run` is a backtracking matcher in
continuation-passing style that tries the alternatives in the order of
preference of the pattern (greedy repetition first), which is the
leftmost-first match of Go's `regexp`. -/

/-- Regular expressions, as far as the patterns of the program need them. -/
inductive Re where
  /-- one character of a class -/
  | cls (p : Char → Bool)
  /-- `ab` -/
  | cat (a b : Re)
  /-- `a|b`, preferring `a` -/
  | alt (a b : Re)
  /-- `x*`, greedy, for a one-character expression `x` -/
  | many (p : Char → Bool)
  /-- capturing group number `i` -/
  | cap (i : Nat) (a : Re)
  /-- `^`: at the beginning of the text -/
  | bot
  /-- `$`: at the end of the text -/
  | eot
  /-- the empty expression -/
  | eps

/-- A literal character. -/
def Re.chr (c : Char) : Re := Re.cls (fun x => x == c)

/-- A literal text. -/
def Re.str : Str → Re
  | [] => Re.eps
  | c :: cs => Re.cat (Re.chr c) (Re.str cs)

/-- `a?`, greedy. -/
def Re.opt (a : Re) : Re := Re.alt a Re.eps

/-- `x+`, greedy, for a one-character expression. -/
def Re.plus (p : Char → Bool) : Re := Re.cat (Re.cls p) (Re.many p)

/-- Concatenation of a list of expressions. -/
def Re.seq : List Re → Re
  | [] => Re.eps
  | [a] => a
  | a :: as => Re.cat a (Re.seq as)

/-- `\d`: an ASCII digit. -/
def reDigit (c : Char) : Bool := decide ('0' ≤ c) && decide (c ≤ '9')

/-- `\s`: `[\t\n\f\r ]`. -/
def reSpace (c : Char) : Bool :=
  c == '\t' || c == '\n' || c == Char.ofNat 0x0C || c == '\r' || c == ' '

/-- `.`: any character but a line break. -/
def reDot (c : Char) : Bool := c != '\n'

/-- `[^:]`. -/
def reNotColon (c : Char) : Bool := c != ':'

/-- The submatches of a match: entry `i` is the text of group `i`, entry 0
the whole match. -/
abbrev Caps := List Str

/-- Greedy repetition of a character class on the text `s`: the
continuation `k` gets the characters consumed and the rest; the longest
repetition is tried first. -/
def manyRun {α : Type} (p : Char → Bool) : Str → (Str → Str → Option α) → Option α
  | [], k => k [] []
  | c :: cs, k =>
    if p c then
      match manyRun p cs (fun m r => k (c :: m) r) with
      | some x => some x
      | none => k [] (c :: cs)
    else k [] (c :: cs)

/-- The matcher.  `n` is the length of the whole text (for `^`), `s` the
text from the current position, `caps` the groups so far; the continuation
gets the characters consumed, the rest of the text and the groups. -/
def Re.run {α : Type} (n : Nat) : Re → Str → Caps → (Str → Str → Caps → Option α) → Option α
  | .cls _, [], _, _ => none
  | .cls p, c :: cs, caps, k => if p c then k [c] cs caps else none
  | .cat a b, s, caps, k =>
    a.run n s caps (fun m₁ s₁ caps₁ => b.run n s₁ caps₁ (fun m₂ s₂ caps₂ => k (m₁ ++ m₂) s₂ caps₂))
  | .alt a b, s, caps, k =>
    match a.run n s caps k with
    | some x => some x
    | none => b.run n s caps k
  | .many p, s, caps, k => manyRun p s (fun m r => k m r caps)
  | .cap i a, s, caps, k => a.run n s caps (fun m s₁ caps₁ => k m s₁ (caps₁.set i m))
  | .bot, s, caps, k => if s.length = n then k [] s caps else none
  | .eot, s, caps, k => if s.isEmpty then k [] s caps else none
  | .eps, s, caps, k => k [] s caps

/-- A match of `re` that starts at the current position `s` of a text of
length `n`: the text matched, the rest, and the `g + 1` submatches. -/
def Re.matchAt (re : Re) (g n : Nat) (s : Str) : Option (Str × Str × Caps) :=
  re.run n s (List.replicate (g + 1) []) (fun m r caps => some (m, r, caps.set 0 m))

/-- The leftmost match of `re` at or after the current position `s`: the
text skipped before the match, the text matched, the rest, the submatches. -/
def Re.findFrom (re : Re) (g n : Nat) : Str → Option (Str × Str × Str × Caps)
  | [] => (re.matchAt g n []).map (fun x => ([], x))
  | c :: cs =>
    match re.matchAt g n (c :: cs) with
    | some x => some ([], x)
    | none => (re.findFrom g n cs).map (fun x => (c :: x.1, x.2))

/-- `re.FindStringSubmatch(s)` for a pattern with `g` groups: the
submatches of the leftmost match, `none` for Go's `nil`. -/
def Re.FindStringSubmatch (re : Re) (g : Nat) (s : Str) : Option Caps :=
  (re.findFrom g s.length s).map (fun x => x.2.2.2)

/-- The loop of `re.ReplaceAllString(src, repl)` for a replacement without
`$` references.  `t` is the text from the search position, `pending` the
text between the end of the last match and the search position, `first`
says that the search position is 0; an empty match directly after a match
is not replaced; the search advances by at least one character. -/
def Re.replaceLoop (re : Re) (n : Nat) (repl : Str) : Nat → Bool → Str → Str → Str
  | 0, _, pending, t => pending ++ t
  | fuel + 1, first, pending, t =>
    match re.findFrom 0 n t with
    | none => pending ++ t
    | some (before, m, rest, _) =>
      let out := pending ++ before ++
        (if !m.isEmpty || !(pending ++ before).isEmpty || first then repl else [])
      if !m.isEmpty then out ++ re.replaceLoop n repl fuel false [] rest
      else
        match rest with
        | [] => out
        | c :: rest₁ => out ++ re.replaceLoop n repl fuel false [c] rest₁

/-- `re.ReplaceAllString(src, repl)`. -/
def Re.ReplaceAllString (re : Re) (src repl : Str) : Str :=
  re.replaceLoop src.length repl (src.length + 1) true [] src

/-! ## package time (library): instants, civil dates -/

/-- A `time.Time` in UTC: an instant, counted in nanoseconds since the Unix
epoch.  Every time value of the program comes from `time.Parse` with a
layout that has no zone, hence is in UTC. -/
structure Time where
  nanos : Int
  deriving DecidableEq, Repr

/-- `t.Before(u)`: the instant `t` is strictly earlier than `u`. -/
def Time.Before (t u : Time) : Bool := decide (t.nanos < u.nanos)

/-- `t.After(u)`: the instant `t` is strictly later than `u`. -/
def Time.After (t u : Time) : Bool := decide (u.nanos < t.nanos)

/-- Leap years of the proleptic Gregorian calendar (`time.isLeap`). -/
def isLeap (year : Int) : Bool :=
  year % 4 == 0 && (year % 100 != 0 || year % 400 == 0)

/-- Number of days of a month (`time.daysIn`). -/
def daysIn (month : Nat) (year : Int) : Nat :=
  if month == 2 then (if isLeap year then 29 else 28)
  else if month == 4 || month == 6 || month == 9 || month == 11 then 30
  else 31

/-- Days from 1970-01-01 to the civil date `year-month-day`
(proleptic Gregorian calendar). -/
def daysFromCivil (year : Int) (month day : Nat) : Int :=
  let y : Int := if month ≤ 2 then year - 1 else year
  let era : Int := y / 400
  let yoe : Int := y - era * 400
  let mp : Int := if month > 2 then (month : Int) - 3 else (month : Int) + 9
  let doy : Int := (153 * mp + 2) / 5 + (day : Int) - 1
  let doe : Int := yoe * 365 + yoe / 4 - yoe / 100 + doy
  era * 146097 + doe - 719468

/-- The civil date `(year, month, day)` of a day number counted from
1970-01-01; inverse of `daysFromCivil`. -/
def civilFromDays (days : Int) : Int × Nat × Nat :=
  let z : Int := days + 719468
  let era : Int := z / 146097
  let doe : Int := z - era * 146097
  let yoe : Int := (doe - doe / 1460 + doe / 36524 - doe / 146096) / 365
  let doy : Int := doe - (365 * yoe + yoe / 4 - yoe / 100)
  let mp : Int := (5 * doy + 2) / 153
  let d : Int := doy - (153 * mp + 2) / 5 + 1
  let m : Int := if mp < 10 then mp + 3 else mp - 9
  let y : Int := yoe + era * 400
  (if m ≤ 2 then y + 1 else y, m.toNat, d.toNat)

/-- `time.Date(year, month, day, hour, min, sec, nsec, time.UTC)` for field
values that are in range (which `time.Parse` has checked before it calls
`Date`). -/
def Date (year : Int) (month day hour min sec nsec : Nat) : Time :=
  ⟨(daysFromCivil year month day * 86400 + (hour : Int) * 3600 + (min : Int) * 60 + (sec : Int))
      * 1000000000 + (nsec : Int)⟩

/-- Unix seconds of an instant (rounded towards minus infinity). -/
def Time.unix (t : Time) : Int := t.nanos / 1000000000

def Time.Year (t : Time) : Int := (civilFromDays (t.unix / 86400)).1
def Time.Month (t : Time) : Nat := (civilFromDays (t.unix / 86400)).2.1
def Time.Day (t : Time) : Nat := (civilFromDays (t.unix / 86400)).2.2
def Time.Hour (t : Time) : Nat := ((t.unix % 86400) / 3600).toNat
def Time.Minute (t : Time) : Nat := (((t.unix % 86400) % 3600) / 60).toNat
def Time.Second (t : Time) : Nat := ((t.unix % 86400) % 60).toNat

/-- One element of a layout of package time, after `nextStdChunk` has cut
the layout text: the standard elements the layouts of the program use, and
literal text. -/
inductive Std where
  /-- `02` -/
  | ZeroDay
  /-- `01` -/
  | ZeroMonth
  /-- `06` -/
  | Year
  /-- `2006` -/
  | LongYear
  /-- `15` -/
  | Hour
  /-- `04` -/
  | ZeroMinute
  /-- `05` -/
  | ZeroSecond
  /-- text between the standard elements -/
  | Lit (s : Str)
  deriving DecidableEq, Repr

/-- The layout `"02.01.06, 15:04:05"`. -/
def layoutShortSec : List Std :=
  [.ZeroDay, .Lit ".".toList, .ZeroMonth, .Lit ".".toList, .Year, .Lit ", ".toList,
   .Hour, .Lit ":".toList, .ZeroMinute, .Lit ":".toList, .ZeroSecond]

/-- The layout `"02.01.2006, 15:04:05"`. -/
def layoutLongSec : List Std :=
  [.ZeroDay, .Lit ".".toList, .ZeroMonth, .Lit ".".toList, .LongYear, .Lit ", ".toList,
   .Hour, .Lit ":".toList, .ZeroMinute, .Lit ":".toList, .ZeroSecond]

/-- The layout `"02.01.06, 15:04"`. -/
def layoutShortMin : List Std :=
  [.ZeroDay, .Lit ".".toList, .ZeroMonth, .Lit ".".toList, .Year, .Lit ", ".toList,
   .Hour, .Lit ":".toList, .ZeroMinute]

/-- The layout `"02.01.2006 15:04"` of the renderer. -/
def layoutRender : List Std :=
  [.ZeroDay, .Lit ".".toList, .ZeroMonth, .Lit ".".toList, .LongYear, .Lit " ".toList,
   .Hour, .Lit ":".toList, .ZeroMinute]

/-- The value of a digit character. -/
def digitVal (c : Char) : Nat := c.toNat - 48

/-- `time.isDigit(s, 0)` on the first character of `s`. -/
def isDigit0 : Str → Bool
  | [] => false
  | c :: _ => reDigit c

/-- `time.leadingInt`: the number written by the leading digits, and the
rest (the overflow check of the original is for numbers beyond 2^63). -/
def leadingInt : Str → Nat → Nat × Str
  | [], x => (x, [])
  | c :: cs, x => if reDigit c then leadingInt cs (x * 10 + digitVal c) else (x, c :: cs)

/-- `time.atoi`: an optional sign, then digits only. -/
def atoi (s : Str) : Option Int :=
  let neg := s.head? == some '-'
  let s₁ := if s.head? == some '-' || s.head? == some '+' then s.tail else s
  match leadingInt s₁ 0 with
  | (q, []) => some (if neg then -(q : Int) else (q : Int))
  | (_, _ :: _) => none

/-- `time.getnum`: one or two digits (two when `fixed`). -/
def getnum (s : Str) (fixed : Bool) : Option (Nat × Str) :=
  match s with
  | [] => none
  | c₀ :: s₁ =>
    if !reDigit c₀ then none
    else if !isDigit0 s₁ then (if fixed then none else some (digitVal c₀, s₁))
    else
      match s₁ with
      | [] => none
      | c₁ :: s₂ => some (digitVal c₀ * 10 + digitVal c₁, s₂)

/-- `time.cutspace`. -/
def cutspace (s : Str) : Str := s.dropWhile (fun c => c == ' ')

/-- `time.skip`: removes the literal `pre` from the front of `value`; a
blank of the layout stands for blanks of the value. -/
def skip : Nat → Str → Str → Option Str
  | 0, _, _ => none
  | _ + 1, value, [] => some value
  | fuel + 1, value, p :: pre =>
    if p = ' ' then
      match value with
      | v :: _ => if v ≠ ' ' then none else skip fuel (cutspace value) (cutspace (p :: pre))
      | [] => skip fuel (cutspace value) (cutspace (p :: pre))
    else
      match value with
      | [] => none
      | v :: vs => if v ≠ p then none else skip fuel vs pre

/-- The fields `time.Parse` collects. -/
structure Fields where
  year : Int := 0
  month : Option Nat := none
  day : Option Nat := none
  hour : Nat := 0
  min : Nat := 0
  sec : Nat := 0
  nsec : Nat := 0
  deriving DecidableEq, Repr

/-- `time.parseNanoseconds(value, nbytes)`, reached for a fraction of a
second in the value that the layout does not have. -/
def parseNanoseconds (value : Str) (nbytes : Nat) : Option Nat :=
  let nb := min nbytes 10
  match atoi ((value.take nb).drop 1) with
  | some ns => if ns < 0 then none else some (ns.toNat * 10 ^ (10 - nb))
  | none => none

/-- One standard element of the layout, read from the value: the cases of
the `switch` in `time.parse`, with their range checks. -/
def parseStd (std : Std) (value : Str) (f : Fields) : Option (Fields × Str) :=
  match std with
  | .Lit pre => (skip (pre.length + 1) value pre).map (fun v => (f, v))
  | .Year =>
    if value.length < 2 then none
    else
      match atoi (value.take 2) with
      | none => none
      | some y => some ({ f with year := if y ≥ 69 then y + 1900 else y + 2000 }, value.drop 2)
  | .LongYear =>
    if value.length < 4 || !isDigit0 value then none
    else
      match atoi (value.take 4) with
      | none => none
      | some y => some ({ f with year := y }, value.drop 4)
  | .ZeroMonth =>
    match getnum value true with
    | none => none
    | some (m, v) => if m = 0 ∨ 12 < m then none else some ({ f with month := some m }, v)
  | .ZeroDay =>
    match getnum value true with
    | none => none
    | some (d, v) => some ({ f with day := some d }, v)
  | .Hour =>
    match getnum value false with
    | none => none
    | some (h, v) => if 24 ≤ h then none else some ({ f with hour := h }, v)
  | .ZeroMinute =>
    match getnum value true with
    | none => none
    | some (m, v) => if 60 ≤ m then none else some ({ f with min := m }, v)
  | .ZeroSecond =>
    match getnum value true with
    | none => none
    | some (s, v) =>
      if 60 ≤ s then none
      else
        match v with
        | c :: d :: _ =>
          if (c == '.' || c == ',') && reDigit d then
            let n := 1 + ((v.drop 1).takeWhile reDigit).length
            match parseNanoseconds v n with
            | none => none
            | some ns => some ({ f with sec := s, nsec := ns }, v.drop n)
          else some ({ f with sec := s }, v)
        | _ => some ({ f with sec := s }, v)

/-- The loop of `time.parse` over the elements of the layout. -/
def parseLoop : List Std → Str → Fields → Option (Fields × Str)
  | [], value, f => some (f, value)
  | std :: layout, value, f =>
    match parseStd std value f with
    | none => none
    | some (f₁, v₁) => parseLoop layout v₁ f₁

/-- `time.Parse(layout, value)`: the fields are read by `parseLoop`, text
left over is an error, a missing month or day is 1, the day is checked
against the month, and the result is the date in UTC. -/
def timeParse (layout : List Std) (value : Str) : Option Time :=
  match parseLoop layout value {} with
  | none => none
  | some (f, rest) =>
    if !rest.isEmpty then none
    else
      let month := f.month.getD 1
      let day := f.day.getD 1
      if day < 1 || day > daysIn month f.year then none
      else some (Date f.year month day f.hour f.min f.sec f.nsec)

/-- `appendInt(b, x, width)` of package time: the decimal digits of `x`,
padded with zeros to `width`, after a minus sign if `x` is negative. -/
def appendInt (x : Int) (width : Nat) : Str :=
  let ds := Nat.toDigits 10 x.natAbs
  (if x < 0 then ['-'] else []) ++ List.replicate (width - ds.length) '0' ++ ds

/-- One element of a layout, formatted (`Time.appendFormat`). -/
def formatStd (t : Time) : Std → Str
  | .ZeroDay => appendInt t.Day 2
  | .ZeroMonth => appendInt t.Month 2
  | .Year => appendInt (t.Year.natAbs % 100 : Nat) 2
  | .LongYear => appendInt t.Year 4
  | .Hour => appendInt t.Hour 2
  | .ZeroMinute => appendInt t.Minute 2
  | .ZeroSecond => appendInt t.Second 2
  | .Lit s => s

/-- `t.Format(layout)`. -/
def Time.Format (t : Time) (layout : List Std) : Str :=
  (layout.map (formatStd t)).flatten

/-! ## package path/filepath (library, Unix) -/

/-- The elements of a path: the texts between its separators. -/
def splitSlash : Str → List Str
  | [] => [[]]
  | c :: cs =>
    if c = '/' then [] :: splitSlash cs
    else
      match splitSlash cs with
      | [] => [[c]]
      | e :: es => (c :: e) :: es

/-- The inner loop of the `..` case of `Clean`: from index `w`, the write
index moves back to the last separator, not below `dotdot`. -/
def backtrack (out : Str) (dotdot : Nat) : Nat → Nat
  | 0 => 0
  | w + 1 => if w + 1 > dotdot ∧ out.get? (w + 1) ≠ some '/' then backtrack out dotdot w else w + 1

/-- One turn of the loop of `filepath.Clean`, on the next element of the
path; the state is the buffer `out` and the index `dotdot` where `..` must
stop. -/
def cleanStep (rooted : Bool) (st : Str × Nat) (elem : Str) : Str × Nat :=
  if elem = [] ∨ elem = ['.'] then st
  else if elem = ['.', '.'] then
    if st.1.length > st.2 then
      (st.1.take (backtrack st.1 st.2 (st.1.length - 1)), st.2)
    else if !rooted then
      let out₁ := (if st.1.length > 0 then st.1 ++ ['/'] else st.1) ++ ['.', '.']
      (out₁, out₁.length)
    else st
  else
    ((if (rooted && st.1.length != 1) || (!rooted && st.1.length != 0) then st.1 ++ ['/']
      else st.1) ++ elem, st.2)

/-- `filepath.Clean`. -/
def Clean (path : Str) : Str :=
  if path = [] then ['.']
  else
    let rooted := path.head? == some '/'
    let init : Str × Nat := if rooted then (['/'], 1) else ([], 0)
    let out := ((splitSlash path).foldl (cleanStep rooted) init).1
    if out = [] then ['.'] else out

/-- `filepath.Join`: the elements from the first non-empty one on, joined
by separators and cleaned. -/
def Join : List Str → Str
  | [] => []
  | e :: es => if e = [] then Join es else Clean (List.intercalate ['/'] (e :: es))

/-- `filepath.Dir`: all but the last element of the path, cleaned. -/
def Dir (path : Str) : Str :=
  Clean ((path.reverse.dropWhile (fun c => c != '/')).reverse)

/-! ## package domain -/

/-- The message kinds of message.go (`MessageType`, an `iota` enumeration). -/
inductive MessageType where
  | TextMessage
  | VoiceMessage
  | ImageMessage
  | VideoMessage
  | DocumentMessage
  | SystemMessage
  deriving DecidableEq, Repr

open MessageType

/-- The record `Message` of message.go. -/
structure Message where
  Timestamp : Time
  Sender : Str
  Content : Str
  Typ : MessageType
  MediaRef : Str
  deriving DecidableEq, Repr

/-- The record `Chat` of chat.go. -/
structure Chat where
  Messages : List Message
  deriving DecidableEq, Repr

/-- One iteration of the loop of `Chat.Filter`: the two `continue` guards
(`from != nil && msg.Timestamp.Before(*from)` and
`to != nil && msg.Timestamp.After(*to)`), then the `append`. -/
def Chat.filterStep (frm til : Option Time) (filtered : Chat) (msg : Message) : Chat :=
  if (match frm with
      | some f => msg.Timestamp.Before f
      | none => false) then filtered
  else if (match til with
      | some t => msg.Timestamp.After t
      | none => false) then filtered
  else ⟨filtered.Messages ++ [msg]⟩

/-- `Chat.Filter` of chat.go: a fresh chat, filled by a loop over the
messages of `c`; `none` stands for a nil bound. -/
def Chat.Filter (c : Chat) (frm til : Option Time) : Chat :=
  c.Messages.foldl (Chat.filterStep frm til) ⟨[]⟩

/-- The window of the specification: `frm ≤ timestamp ≤ to`, each bound
only when present. -/
def inWindow (frm til : Option Time) (m : Message) : Prop :=
  (match frm with
    | some f => f.nanos ≤ m.Timestamp.nanos
    | none => True) ∧
  (match til with
    | some t => m.Timestamp.nanos ≤ t.nanos
    | none => True)

instance (frm til : Option Time) (m : Message) : Decidable (inWindow frm til m) := by
  unfold inWindow
  cases frm <;> cases til <;> exact inferInstance

/-! ## package parser (whatsapp.go) -/

/-- `\d{2}`. -/
def reD2 : Re := Re.cat (Re.cls reDigit) (Re.cls reDigit)

/-- `\d{2,4}`. -/
def reD2to4 : Re :=
  Re.cat (Re.cls reDigit)
    (Re.cat (Re.cls reDigit) (Re.opt (Re.cat (Re.cls reDigit) (Re.opt (Re.cls reDigit)))))

/-- `\d{2}\.\d{2}\.\d{2,4}`. -/
def reDateIOS : Re :=
  Re.seq [reD2, Re.chr '.', reD2, Re.chr '.', reD2to4]

/-- `\d{2}\.\d{2}\.\d{2}`. -/
def reDateAndroid : Re :=
  Re.seq [reD2, Re.chr '.', reD2, Re.chr '.', reD2]

/-- `\d{2}:\d{2}:\d{2}`. -/
def reTimeIOS : Re :=
  Re.seq [reD2, Re.chr ':', reD2, Re.chr ':', reD2]

/-- `\d{2}:\d{2}`. -/
def reTimeAndroid : Re :=
  Re.seq [reD2, Re.chr ':', reD2]

/-- The pattern
`^\[(\d{2}\.\d{2}\.\d{2,4}), (\d{2}:\d{2}:\d{2})\] ([^:]+): (.*)$`. -/
def iosRe : Re :=
  Re.seq [Re.bot, Re.chr '[', Re.cap 1 reDateIOS, Re.str ", ".toList, Re.cap 2 reTimeIOS,
    Re.str "] ".toList, Re.cap 3 (Re.plus reNotColon), Re.str ": ".toList,
    Re.cap 4 (Re.many reDot), Re.eot]

/-- The pattern `^(\d{2}\.\d{2}\.\d{2}), (\d{2}:\d{2}) - ([^:]+): (.*)$`. -/
def androidRe : Re :=
  Re.seq [Re.bot, Re.cap 1 reDateAndroid, Re.str ", ".toList, Re.cap 2 reTimeAndroid,
    Re.str " - ".toList, Re.cap 3 (Re.plus reNotColon), Re.str ": ".toList,
    Re.cap 4 (Re.many reDot), Re.eot]

/-- The pattern `^\[(\d{2}\.\d{2}\.\d{2,4}), (\d{2}:\d{2}:\d{2})\] (.*)$`. -/
def iosSystemRe : Re :=
  Re.seq [Re.bot, Re.chr '[', Re.cap 1 reDateIOS, Re.str ", ".toList, Re.cap 2 reTimeIOS,
    Re.str "] ".toList, Re.cap 3 (Re.many reDot), Re.eot]

/-- The pattern `^(\d{2}\.\d{2}\.\d{2}), (\d{2}:\d{2}) - (.*)$`. -/
def androidSystemRe : Re :=
  Re.seq [Re.bot, Re.cap 1 reDateAndroid, Re.str ", ".toList, Re.cap 2 reTimeAndroid,
    Re.str " - ".toList, Re.cap 3 (Re.many reDot), Re.eot]

/-- The pattern `\s*\(Datei angehängt\)\s*$|\s*\(file attached\)\s*$`. -/
def attachedRe : Re :=
  Re.alt
    (Re.seq [Re.many reSpace, Re.str "(Datei angehängt)".toList, Re.many reSpace, Re.eot])
    (Re.seq [Re.many reSpace, Re.str "(file attached)".toList, Re.many reSpace, Re.eot])

/-- The pattern `^<(?:Anhang|attached|Media omitted): (.+)>$`. -/
def anhangRe : Re :=
  Re.seq [Re.bot, Re.chr '<',
    Re.alt (Re.str "Anhang".toList)
      (Re.alt (Re.str "attached".toList) (Re.str "Media omitted".toList)),
    Re.str ": ".toList, Re.cap 1 (Re.plus reDot), Re.chr '>', Re.eot]

/-- Entry `i` of a submatch slice `m`. -/
def sub (m : Caps) (i : Nat) : Str := m.getD i []

/-- `stripInvisible`: the six formatting characters are dropped. -/
def stripInvisible (s : Str) : Str :=
  s.filter (fun r =>
    !(r == Char.ofNat 0x200E || r == Char.ofNat 0x200F
      || r == Char.ofNat 0x200B || r == Char.ofNat 0x200C || r == Char.ofNat 0x200D
      || r == Char.ofNat 0xFEFF))

/-- `isVoiceMessage`. -/
def isVoiceMessage (s : Str) : Bool :=
  let upper := ToUpper s
  let lower := ToLower s
  HasPrefix upper "PTT-".toList ||
    HasPrefix upper "AUD-".toList ||
    Contains upper "-AUDIO-".toList ||
    HasSuffix lower ".opus".toList ||
    HasSuffix lower ".m4a".toList ||
    HasSuffix lower ".ogg".toList

/-- `isImageMessage`. -/
def isImageMessage (s : Str) : Bool :=
  let upper := ToUpper s
  HasPrefix upper "IMG-".toList ||
    HasPrefix upper "PHOTO-".toList ||
    Contains upper "-PHOTO-".toList

/-- `isVideoMessage`. -/
def isVideoMessage (s : Str) : Bool :=
  let upper := ToUpper s
  HasPrefix upper "VID-".toList ||
    HasPrefix upper "VIDEO-".toList ||
    Contains upper "-VIDEO-".toList

/-- `classifyMediaFile`: content, kind, media reference. -/
def classifyMediaFile (filename : Str) : Str × MessageType × Str :=
  if isVoiceMessage filename then (filename, VoiceMessage, filename)
  else if isImageMessage filename then (filename, ImageMessage, filename)
  else if isVideoMessage filename then (filename, VideoMessage, filename)
  else (filename, DocumentMessage, filename)

/-- `classifyContent`: content, kind, media reference. -/
def classifyContent (content : Str) : Str × MessageType × Str :=
  match anhangRe.FindStringSubmatch 1 content with
  | some m => classifyMediaFile (sub m 1)
  | none =>
    let cleaned := TrimSpace (attachedRe.ReplaceAllString content [])
    if cleaned ≠ TrimSpace content then classifyMediaFile cleaned
    else (content, TextMessage, [])

/-- `parseIOSTimestamp`: the two-digit year first, then the four-digit
year. -/
def parseIOSTimestamp (datePart timePart : Str) : Option Time :=
  match timeParse layoutShortSec (datePart ++ ", ".toList ++ timePart) with
  | some ts => some ts
  | none => timeParse layoutLongSec (datePart ++ ", ".toList ++ timePart)

/-- `parseMessageLine`: `none` stands for the result `false`. -/
def parseMessageLine (line : Str) : Option Message :=
  match iosRe.FindStringSubmatch 4 line with
  | some m =>
    match parseIOSTimestamp (sub m 1) (sub m 2) with
    | none => none
    | some ts =>
      let c := classifyContent (sub m 4)
      some { Timestamp := ts, Sender := sub m 3, Content := c.1, Typ := c.2.1, MediaRef := c.2.2 }
  | none =>
  match androidRe.FindStringSubmatch 4 line with
  | some m =>
    match timeParse layoutShortMin (sub m 1 ++ ", ".toList ++ sub m 2) with
    | none => none
    | some ts =>
      let c := classifyContent (sub m 4)
      some { Timestamp := ts, Sender := sub m 3, Content := c.1, Typ := c.2.1, MediaRef := c.2.2 }
  | none =>
  match iosSystemRe.FindStringSubmatch 3 line with
  | some m =>
    match parseIOSTimestamp (sub m 1) (sub m 2) with
    | none => none
    | some ts =>
      some { Timestamp := ts, Sender := [], Content := sub m 3, Typ := SystemMessage,
             MediaRef := [] }
  | none =>
  match androidSystemRe.FindStringSubmatch 3 line with
  | some m =>
    match timeParse layoutShortMin (sub m 1 ++ ", ".toList ++ sub m 2) with
    | none => none
    | some ts =>
      some { Timestamp := ts, Sender := [], Content := sub m 3, Typ := SystemMessage,
             MediaRef := [] }
  | none => none

/-- `messages[len(messages)-1].Content += "\n" + line`. -/
def appendToLast (line : Str) : List Message → List Message
  | [] => []
  | [m] => [{ m with Content := m.Content ++ ('\n' :: line) }]
  | m :: m₁ :: ms => m :: appendToLast line (m₁ :: ms)

/-- One turn of the loop of `parseTextFile`, on the next line of the
scanner. -/
def parseTextStep (messages : List Message) (text : Str) : List Message :=
  let line := stripInvisible text
  match parseMessageLine line with
  | some msg => messages ++ [msg]
  | none => if messages.length > 0 then appendToLast line messages else messages

/-- The largest token of the scanner of `parseTextFile`, in bytes:
`scanner.Buffer(make([]byte, 0, 1024*1024), 1024*1024)`. -/
def maxTokenSize : Nat := 1024 * 1024

/-- `bufio.ErrTooLong`. -/
def ErrTooLong : Str := "bufio.Scanner: token too long".toList

/-- `dropCR` of package bufio: one carriage return at the end is dropped. -/
def dropCR (data : Str) : Str :=
  if data.getLast? = some '\r' then data.dropLast else data

/-- One call of `scanner.Scan()` with the split function `bufio.ScanLines`,
on the next line of the file (its text up to the next line feed, or to the
end of the file): the token `scanner.Text()`, which is the line without its
carriage return.  The scan fails with `ErrTooLong` when the buffer of
`maxTokenSize` bytes is full before the line feed is seen: when the line,
its carriage return included, has `maxTokenSize` bytes or more. -/
def scanLine (line : Str) : Except Str Str :=
  if maxTokenSize ≤ (utf8 line).length then .error ErrTooLong else .ok (dropCR line)

/-- The loop `for scanner.Scan()` of `parseTextFile` with the check of
`scanner.Err()` after it: a failed scan ends the loop, and the error is
returned in place of the messages. -/
def parseTextLoop (messages : List Message) : List Str → Except Str (List Message)
  | [] => .ok messages
  | line :: rest =>
    match scanLine line with
    | .error err => .error err
    | .ok text => parseTextLoop (parseTextStep messages text) rest

/-- `parseTextFile`, on a chat file that is opened and read without an
input error, given as the list of its lines (the texts between its line
feeds). -/
def parseTextFile (lines : List Str) : Except Str (List Message) :=
  parseTextLoop [] lines

/-- A loop `for i := range xs` whose body changes the state. -/
def forRange {σ : Type} (n : Nat) (body : Nat → σ → σ) (init : σ) : σ :=
  (List.range n).foldl (fun s i => body i s) init

/-- The body of the loop of `Parse` over the messages: a non-empty media
reference is joined to the extraction directory. -/
def setFullPath (tempDir : Str) (i : Nat) (messages : List Message) : List Message :=
  match messages.get? i with
  | none => messages
  | some m =>
    if m.MediaRef ≠ [] then messages.set i { m with MediaRef := Join [tempDir, m.MediaRef] }
    else messages

/-- `WhatsAppParser.Parse`, from the point where the archive is extracted
to `tempDir` and the chat file is found; `lines` are the lines of the chat
file. -/
def Parse (tempDir : Str) (lines : List Str) : Except Str Chat :=
  match parseTextFile lines with
  | .error err => .error ("parsing chat file: ".toList ++ err)
  | .ok messages => .ok ⟨forRange messages.length (setFullPath tempDir) messages⟩

/-- An entry of the archive (`zip.File`): its name, whether it is a
directory, and its uncompressed bytes. -/
structure ZipFile where
  Name : Str
  IsDir : Bool
  Data : List UInt8
  deriving DecidableEq, Repr

/-- The effects of the extraction on the file system. -/
inductive FsOp where
  /-- `os.MkdirAll(path, 0o750)` -/
  | MkdirAll (path : Str)
  /-- `extractZipFile`: `os.Create(path)` and the copy of the bytes -/
  | WriteFile (path : Str) (data : List UInt8)
  deriving DecidableEq, Repr

/-- The size limit of `extractZipFile`, `1 << 30`. -/
def maxSize : Nat := 1073741824

/-- The loop of `extractZip` over the entries `r.File` of the opened
archive.  `fs` tells which file-system operations succeed; the result is
the operations carried out, in order, and whether `extractZip` returned
`nil`. -/
def extractZip (fs : FsOp → Bool) (destDir : Str) : List ZipFile → List FsOp × Bool
  | [] => ([], true)
  | f :: files =>
    let name := Clean f.Name
    if Contains name "..".toList then extractZip fs destDir files
    else
      let destPath := Join [destDir, name]
      if f.IsDir then
        if !fs (.MkdirAll destPath) then ([], false)
        else
          let r := extractZip fs destDir files
          (.MkdirAll destPath :: r.1, r.2)
      else if !fs (.MkdirAll (Dir destPath)) then ([], false)
      else if !fs (.WriteFile destPath (f.Data.take maxSize)) then
        ([.MkdirAll (Dir destPath)], false)
      else
        let r := extractZip fs destDir files
        (.MkdirAll (Dir destPath) :: .WriteFile destPath (f.Data.take maxSize) :: r.1, r.2)

/-! ## package renderer (text.go) -/

/-- `TextRenderer.formatMessage`; `markdown` is the field `r.Markdown`. -/
def formatMessage (markdown : Bool) (msg : Message) : Str :=
  let ts := msg.Timestamp.Format layoutRender
  match msg.Typ with
  | SystemMessage =>
    if markdown then "*[".toList ++ ts ++ "] ".toList ++ msg.Content ++ "*".toList
    else "*** [".toList ++ ts ++ "] ".toList ++ msg.Content
  | VoiceMessage =>
    let pre := "[Sprachnachricht]".toList
    let content := if msg.Content = [] ∨ msg.Content = msg.MediaRef then msg.MediaRef
      else msg.Content
    "[".toList ++ ts ++ "] ".toList ++ msg.Sender ++ ": ".toList ++ pre ++ " ".toList ++ content
  | ImageMessage =>
    "[".toList ++ ts ++ "] ".toList ++ msg.Sender ++ ": [Bild] ".toList ++ msg.MediaRef
  | VideoMessage =>
    "[".toList ++ ts ++ "] ".toList ++ msg.Sender ++ ": [Video] ".toList ++ msg.MediaRef
  | DocumentMessage =>
    "[".toList ++ ts ++ "] ".toList ++ msg.Sender ++ ": [Dokument] ".toList ++ msg.MediaRef
  | TextMessage =>
    "[".toList ++ ts ++ "] ".toList ++ msg.Sender ++ ": ".toList ++ msg.Content

/-- An `io.Writer`: the text it has accepted, the number of further
writes it accepts (`none`: every write), and the error it returns when it
accepts no more. -/
structure Writer where
  buf : Str
  room : Option Nat
  err : Str
  deriving DecidableEq, Repr

/-- `fmt.Fprintln(w, line)`: one write of the line and a line terminator;
the writer afterwards, or the error of the writer. -/
def Fprintln (w : Writer) (line : Str) : Except Str Writer :=
  match w.room with
  | none => .ok { w with buf := w.buf ++ line ++ ['\n'] }
  | some 0 => .error w.err
  | some (k + 1) => .ok { w with buf := w.buf ++ line ++ ['\n'], room := some k }

/-- The loop of `TextRenderer.Render` over the messages: the writer after
the writes, and the error returned (`none` for `nil`). -/
def renderLoop (markdown : Bool) (w : Writer) : List Message → Writer × Option Str
  | [] => (w, none)
  | msg :: msgs =>
    match Fprintln w (formatMessage markdown msg) with
    | .error e => (w, some e)
    | .ok w₁ => renderLoop markdown w₁ msgs

/-- `TextRenderer.Render`. -/
def Render (markdown : Bool) (w : Writer) (chat : Chat) : Writer × Option Str :=
  renderLoop markdown w chat.Messages

/-! ## package app (service.go) -/

/-- The body of the transcription loop of `Process`, on message `i`: the
state is the messages and the warnings written to the diagnostic stream. -/
def transcribeStep (transcribe : Str → Except Str Str) (i : Nat)
    (st : List Message × List Str) : List Message × List Str :=
  match st.1.get? i with
  | none => st
  | some m =>
    if m.Typ ≠ VoiceMessage then st
    else
      match transcribe m.MediaRef with
      | .error err =>
        (st.1, st.2 ++ ["Warning: transcription failed for ".toList ++ m.MediaRef
          ++ ": ".toList ++ err ++ ['\n']])
      | .ok text => (st.1.set i { m with Content := text }, st.2)

/-- `ChatService.Process`.  `parsed` is the result of `s.parser.Parse`,
`transcribe` the transcriber, `render` the renderer (any implementation of
`ChatRenderer`, with result type `ρ` for the state of its writer), `w`
the writer.  The result is the warnings on the diagnostic stream, what the
renderer did, and the error returned (`none` for `nil`). -/
def Process {ρ : Type} (parsed : Except Str Chat) (transcribe : Str → Except Str Str)
    (render : Writer → Chat → ρ × Option Str) (frm til : Option Time) (w : Writer) :
    List Str × Option ρ × Option Str :=
  match parsed with
  | .error err => ([], none, some ("parsing export: ".toList ++ err))
  | .ok chat =>
    let chat₁ := if frm.isSome || til.isSome then chat.Filter frm til else chat
    let st := forRange chat₁.Messages.length (transcribeStep transcribe) (chat₁.Messages, [])
    let r := render w ⟨st.1⟩
    (st.2, some r.1, r.2)

/-! ## package cmd (init.go) -/

/-- What `runInit` meets outside the program: the configuration directory
(`configDir()`), the file system, the JSON codec, the answers that
successive `fmt.Scanln` calls store, and the check of a key against the
service (`validateAPIKey`).  An operation that returns an `error` returns
`none` for `nil`. -/
structure InitWorld where
  dir : Str
  stat : Str → Bool
  readFile : Str → Except Str Bytes
  unmarshal : Bytes → Except Str (List (Str × Str))
  stdin : List Str
  validateAPIKey : Str → Option Str
  mkdirAll : Str → Option Str
  marshalIndent : List (Str × Str) → Except Str Bytes
  writeFile : Str → Bytes → Option Str

/-- How a call of `runInit` ends: it returns its `error` (`none` for `nil`),
or the program panics. -/
inductive Outcome where
  | returned (err : Option Str)
  | panicked (msg : Str)
  deriving DecidableEq

/-- `cfg[key]` on a `map[string]string`: the value, or the empty string. -/
def mapIndex (cfg : List (Str × Str)) (key : Str) : Str := (cfg.lookup key).getD []

/-- `readExistingKey`. -/
def readExistingKey (w : InitWorld) (path : Str) : Str × Option Str :=
  match w.readFile path with
  | .error err => ([], some err)
  | .ok data =>
    match w.unmarshal data with
    | .error err => ([], some err)
    | .ok cfg => (mapIndex cfg "openai_api_key".toList, none)

/-- `fmt.Scanln(&v)` with the error dropped: the next answer is stored, or
the variable keeps its empty value when there is none. -/
def Scanln : List Str → Str × List Str
  | [] => ([], [])
  | a :: rest => (a, rest)

/-- The expression `existingKey[:7] + "***" + existingKey[len(existingKey)-3:]`
of `runInit`, its operands evaluated from left to right. -/
def maskedHint (existingKey : Str) : Except Str Bytes :=
  match sliceTo (utf8 existingKey) 7 with
  | .error p => .error p
  | .ok first =>
    match sliceFrom (utf8 existingKey) ((utf8 existingKey).length - 3) with
    | .error p => .error p
    | .ok last => .ok (first ++ utf8 "***".toList ++ last)

/-- The prompt of `runInit` for the key. -/
def keyPrompt (existingKey : Str) : Except Str Bytes :=
  if existingKey ≠ [] then
    match maskedHint existingKey with
    | .error p => .error p
    | .ok masked => .ok (utf8 "OpenAI API Key [".toList ++ masked ++ utf8 "]: ".toList)
  else .ok (utf8 "OpenAI API Key: ".toList)

/-- `runInit`, from the prompt for the key on: what is written to the
output after `out`, and how the call ends. -/
def runInitKey (w : InitWorld) (configPath existingKey : Str) (out : Bytes)
    (stdin : List Str) : Bytes × Outcome :=
  match keyPrompt existingKey with
  | .error p => (out, .panicked p)
  | .ok prompt =>
    let out := out ++ prompt
    let scanned := (Scanln stdin).1
    let apiKey := if scanned = [] ∧ existingKey ≠ [] then existingKey else scanned
    if apiKey = [] then (out, .returned (some "API key must not be empty".toList))
    else
      let out := out ++ utf8 "Validating API key... ".toList
      match w.validateAPIKey apiKey with
      | some err =>
        (out ++ utf8 "FAILED\n".toList, .returned (some ("invalid API key: ".toList ++ err)))
      | none =>
        let out := out ++ utf8 "OK\n".toList
        match w.mkdirAll w.dir with
        | some err => (out, .returned (some ("creating config directory: ".toList ++ err)))
        | none =>
          match w.marshalIndent [("openai_api_key".toList, apiKey)] with
          | .error err => (out, .returned (some ("marshaling config: ".toList ++ err)))
          | .ok data =>
            match w.writeFile configPath (data ++ [10]) with
            | some err => (out, .returned (some ("writing config: ".toList ++ err)))
            | none =>
              (out ++ utf8 ("Config written to ".toList ++ configPath ++ "\n".toList),
                .returned none)

/-- `runInit`: the bytes written to the output, and how the call ends. -/
def runInit (w : InitWorld) : Bytes × Outcome :=
  let configPath := Join [w.dir, "config.json".toList]
  if w.stat configPath then
    let existingKey := (readExistingKey w configPath).1
    let out := utf8 ("Config already exists at ".toList ++ configPath ++ "\n".toList)
      ++ utf8 "Overwrite? [y/N]: ".toList
    let answer := Scanln w.stdin
    if !EqualFold answer.1 "y".toList then (out, .returned none)
    else runInitKey w configPath existingKey out answer.2
  else runInitKey w configPath [] [] w.stdin

/-! ## The wording of the specification, as definitions -/

/-- A line the parser accepts as the start of a message (after
`stripInvisible`). -/
def accepted (text : Str) : Bool := (parseMessageLine (stripInvisible text)).isSome

/-- The continuation text that follows a message line: the rejected
lines up to the next accepted line, each preceded by a line break. -/
def continuation : List Str → Str
  | [] => []
  | l :: ls => if accepted l then [] else ('\n' :: stripInvisible l) ++ continuation ls

/-- The messages of a transcript in the words of the specification: one
message per accepted line, whose content is followed by the continuation
lines after it; rejected lines yield no message of their own. -/
def foldedMessages : List Str → List Message
  | [] => []
  | l :: ls =>
    match parseMessageLine (stripInvisible l) with
    | some m => { m with Content := m.Content ++ continuation ls } :: foldedMessages ls
    | none => foldedMessages ls

/-- The character `d` of a pattern matches the character `c` of a name
without regard to case: `d` is `c` in upper case or in lower case. -/
def sameLetter (c d : Char) : Prop := toUpperRune c = d ∨ toLowerRune c = d

/-- The text `a` is the pattern `p`, without regard to case. -/
def equalsNoCase (a p : Str) : Prop := List.Forall₂ sameLetter a p

/-- The name begins with the pattern, case-insensitively. -/
def beginsNoCase (name p : Str) : Prop := ∃ a b, name = a ++ b ∧ equalsNoCase a p

/-- The name ends with the pattern, case-insensitively. -/
def endsNoCase (name p : Str) : Prop := ∃ a b, name = a ++ b ∧ equalsNoCase b p

/-- The name contains the pattern, case-insensitively. -/
def containsNoCase (name p : Str) : Prop := ∃ a b c, name = a ++ b ++ c ∧ equalsNoCase b p

/-- The voice-note naming conventions of the specification. -/
def voiceName (name : Str) : Prop :=
  beginsNoCase name "PTT-".toList ∨ beginsNoCase name "AUD-".toList ∨
    containsNoCase name "-AUDIO-".toList ∨ endsNoCase name ".opus".toList ∨
    endsNoCase name ".m4a".toList ∨ endsNoCase name ".ogg".toList

/-- The image naming conventions of the specification. -/
def imageName (name : Str) : Prop :=
  beginsNoCase name "IMG-".toList ∨ beginsNoCase name "PHOTO-".toList ∨
    containsNoCase name "-PHOTO-".toList

/-- The video naming conventions of the specification. -/
def videoName (name : Str) : Prop :=
  beginsNoCase name "VID-".toList ∨ beginsNoCase name "VIDEO-".toList ∨
    containsNoCase name "-VIDEO-".toList

/-- A pattern character written in upper case (or not a letter): it is
matched exactly when it is the upper case of the character of the name. -/
def upperPattern (d : Char) : Bool :=
  !(decide (97 ≤ d.toNat) && decide (d.toNat ≤ 122)) && toUpperRune d == d

/-- A pattern character written in lower case (or not a letter). -/
def lowerPattern (d : Char) : Bool :=
  !(decide (65 ≤ d.toNat) && decide (d.toNat ≤ 90)) && toLowerRune d == d

/-- The time stamp of a rendered line, `DD.MM.YYYY HH:MM`: day, month,
year, hour and minute of the timestamp, padded with zeros to 2, 2, 4, 2
and 2 digits; the seconds do not occur. -/
def stamp (t : Time) : Str :=
  appendInt t.Day 2 ++ ".".toList ++ appendInt t.Month 2 ++ ".".toList ++ appendInt t.Year 4
    ++ " ".toList ++ appendInt t.Hour 2 ++ ":".toList ++ appendInt t.Minute 2

/-- What the renderer shows for a voice message: the file name while the
content is empty or still the media reference, the transcribed text
otherwise. -/
def voiceText (msg : Message) : Str :=
  if msg.Content = [] ∨ msg.Content = msg.MediaRef then msg.MediaRef else msg.Content

/-- The line of a message in the words of the specification. -/
def specLine (markdown : Bool) (msg : Message) : Str :=
  let ts := stamp msg.Timestamp
  match msg.Typ, markdown with
  | SystemMessage, true => "*[".toList ++ ts ++ "] ".toList ++ msg.Content ++ "*".toList
  | SystemMessage, false => "*** [".toList ++ ts ++ "] ".toList ++ msg.Content
  | VoiceMessage, _ =>
    "[".toList ++ ts ++ "] ".toList ++ msg.Sender ++ ": [Sprachnachricht] ".toList
      ++ voiceText msg
  | ImageMessage, _ =>
    "[".toList ++ ts ++ "] ".toList ++ msg.Sender ++ ": [Bild] ".toList ++ msg.MediaRef
  | VideoMessage, _ =>
    "[".toList ++ ts ++ "] ".toList ++ msg.Sender ++ ": [Video] ".toList ++ msg.MediaRef
  | DocumentMessage, _ =>
    "[".toList ++ ts ++ "] ".toList ++ msg.Sender ++ ": [Dokument] ".toList ++ msg.MediaRef
  | TextMessage, _ => "[".toList ++ ts ++ "] ".toList ++ msg.Sender ++ ": ".toList ++ msg.Content

/-- What transcription makes of one message, in the words of the
specification: the content of a voice message becomes the text the
transcriber returns; a voice message whose transcription fails and a
message of any other kind stay as they are. -/
def transcribed (transcribe : Str → Except Str Str) (m : Message) : Message :=
  if m.Typ = VoiceMessage then
    match transcribe m.MediaRef with
    | .ok text => { m with Content := text }
    | .error _ => m
  else m

/-- The chat that `Process` works on after the optional filter. -/
def filteredChat (chat : Chat) (frm til : Option Time) : Chat :=
  if frm.isSome || til.isSome then chat.Filter frm til else chat

/-- The text `Render` writes for a chat, in the words of the
specification: for every message, in order, its formatted line and a line
terminator. -/
def renderedText (markdown : Bool) (msgs : List Message) : Str :=
  (msgs.map (fun m => formatMessage markdown m ++ ['\n'])).flatten

/-- No field of the message contains a line break. -/
def singleLine (m : Message) : Prop :=
  '\n' ∉ m.Sender ∧ '\n' ∉ m.Content ∧ '\n' ∉ m.MediaRef

instance (m : Message) : Decidable (singleLine m) := by
  unfold singleLine
  infer_instance

/-- The path has a parent-directory segment: one of its elements is
`..`. -/
def hasParentSegment (path : Str) : Prop := "..".toList ∈ splitSlash path

instance (path : Str) : Decidable (hasParentSegment path) := by
  unfold hasParentSegment
  infer_instance

/-- The entry is extracted, not skipped: its cleaned name does not contain
the text `..`. -/
def extracted (f : ZipFile) : Bool := !Contains (Clean f.Name) "..".toList

/-- What the extraction of one entry does: a directory entry is created at
the destination joined with the cleaned name; for a file entry the parent
directory is created and the bytes (at most `maxSize`) are written
there. -/
def entryOps (destDir : Str) (f : ZipFile) : List FsOp :=
  if f.IsDir then [.MkdirAll (Join [destDir, Clean f.Name])]
  else [.MkdirAll (Dir (Join [destDir, Clean f.Name])),
        .WriteFile (Join [destDir, Clean f.Name]) (f.Data.take maxSize)]

/-- The path `p` is rooted at the directory `dir`: `dir` and a separator
are a proper beginning of `p`. -/
def rootedAt (dir p : Str) : Bool :=
  HasPrefix p (dir ++ ['/']) && decide (dir.length + 1 < p.length)

/-- The three words of an attachment reference `<WORD: FILENAME>`. -/
def anhangWords : List Str := ["Anhang".toList, "attached".toList, "Media omitted".toList]

/-- The text `<WORD: FILENAME>`. -/
def anhangText (word filename : Str) : Str :=
  '<' :: word ++ ": ".toList ++ filename ++ ['>']
/-- The part of `anhangRe` after `^`. -/
def anhangBody : Re :=
  Re.cat (Re.chr '<')
    (Re.cat
      (Re.alt (Re.str "Anhang".toList)
        (Re.alt (Re.str "attached".toList) (Re.str "Media omitted".toList)))
      (Re.cat (Re.str ": ".toList)
        (Re.cat (Re.cap 1 (Re.plus reDot)) (Re.cat (Re.chr '>') Re.eot))))

/-- The two suffixes that mark an attachment. -/
def attachedSuffixes : List Str := ["(Datei angehängt)".toList, "(file attached)".toList]

/-- One alternative of `attachedRe`: `\s*SUFFIX\s*$`. -/
def reSuffix (S : Str) : Re :=
  Re.cat (Re.many reSpace) (Re.cat (Re.str S) (Re.cat (Re.many reSpace) Re.eot))

/-- The text is an attachment suffix surrounded by optional white space
(`\s` of the pattern). -/
def isSuffixText (t : Str) : Prop :=
  ∃ S ∈ attachedSuffixes, ∃ w₁ w₂, (∀ c ∈ w₁, reSpace c = true) ∧ (∀ c ∈ w₂, reSpace c = true)
    ∧ t = w₁ ++ S ++ w₂

/-- The text is exactly `<WORD: F>` for one of the three words and a
non-empty `F`. -/
def isAnhangRef (text F : Str) : Prop :=
  F ≠ [] ∧ ∃ W ∈ anhangWords, text = anhangText W F

/-- The text ends with an attachment suffix, optionally surrounded by
white space; `p` is the text before it. -/
def endsAttached (text p : Str) : Prop := ∃ t, text = p ++ t ∧ isSuffixText t

/-- The text ends with an attachment suffix surrounded by optional white
space, with white space read as that of Unicode (`unicode.IsSpace`, the
white space `strings.TrimSpace` removes); `p` is the text before it. -/
def endsAttachedUnicode (text p : Str) : Prop :=
  ∃ S ∈ attachedSuffixes, ∃ w₁ w₂, (∀ c ∈ w₁, isSpace c = true) ∧ (∀ c ∈ w₂, isSpace c = true)
    ∧ text = p ++ w₁ ++ S ++ w₂

/-- A number below 100, written with two digits. -/
def pad2 (n : Nat) : Str := [Nat.digitChar (n / 10), Nat.digitChar (n % 10)]

/-- A number below 10000, written with four digits. -/
def pad4 (n : Nat) : Str :=
  [Nat.digitChar (n / 1000), Nat.digitChar (n / 100 % 10), Nat.digitChar (n / 10 % 10),
   Nat.digitChar (n % 10)]

/-- The year a two-digit year stands for: 69 to 99 are 1969 to 1999, 0 to
68 are 2000 to 2068. -/
def expandYear (yy : Nat) : Int := if (yy : Int) ≥ 69 then (yy : Int) + 1900 else (yy : Int) + 2000

/-- The end of the two message patterns: `([^:]+): (.*)$`. -/
def reSenderText : Re :=
  Re.seq [Re.cap 3 (Re.plus reNotColon), Re.str ": ".toList, Re.cap 4 (Re.many reDot), Re.eot]

/-- The part of `iosRe` after `^`. -/
def iosBody : Re :=
  Re.seq [Re.chr '[', Re.cap 1 reDateIOS, Re.str ", ".toList, Re.cap 2 reTimeIOS,
    Re.str "] ".toList, reSenderText]

/-- The part of `androidRe` after `^`. -/
def androidBody : Re :=
  Re.seq [Re.cap 1 reDateAndroid, Re.str ", ".toList, Re.cap 2 reTimeAndroid,
    Re.str " - ".toList, reSenderText]


/-- The date `DD.MM.YY`. -/
def dateShort (d m yy : Nat) : Str := pad2 d ++ ".".toList ++ pad2 m ++ ".".toList ++ pad2 yy

/-- The date `DD.MM.YYYY`. -/
def dateLong (d m y : Nat) : Str := pad2 d ++ ".".toList ++ pad2 m ++ ".".toList ++ pad4 y

/-- The time of day `HH:MM:SS`. -/
def timeSec (h mi s : Nat) : Str := pad2 h ++ ":".toList ++ pad2 mi ++ ":".toList ++ pad2 s

/-- The time of day `HH:MM`. -/
def timeMin (h mi : Nat) : Str := pad2 h ++ ":".toList ++ pad2 mi

/-- The iOS line `[DATE, TIME] Sender: Text`. -/
def iosLine (date time sender text : Str) : Str :=
  "[".toList ++ date ++ ", ".toList ++ time ++ "] ".toList ++ sender ++ ": ".toList ++ text

/-- The Android line `DATE, TIME - Sender: Text`. -/
def androidLine (date time sender text : Str) : Str :=
  date ++ ", ".toList ++ time ++ " - ".toList ++ sender ++ ": ".toList ++ text

/-- The text is an attachment reference: it is `<WORD: F>` for a non-empty
`F`, or it ends with an attachment suffix. -/
def attachmentRef (text : Str) : Prop :=
  (∃ F, isAnhangRef text F) ∨ (∃ p, endsAttached text p)

/-- A text message of Alice at minute `mi` past nine on 15 January 2024,
for the examples. -/
def sampleMessage (mi : Nat) : Message :=
  { Timestamp := Date 2024 1 15 9 mi 0 0, Sender := "Alice".toList,
    Content := "Hello".toList, Typ := TextMessage, MediaRef := [] }

/-- A voice message with the given file, for the examples. -/
def sampleVoice (file : Str) : Message :=
  { Timestamp := Date 2024 1 15 9 30 0 0, Sender := "Alice".toList,
    Content := file, Typ := VoiceMessage, MediaRef := file }

/-- A transcriber that fails on the file `/t/b.opus` and answers `text`
otherwise, for the examples. -/
def sampleTranscriber (path : Str) : Except Str Str :=
  if path = "/t/b.opus".toList then .error "unavailable".toList else .ok "text".toList

/-- The image naming conventions exactly as the specification writes them,
in upper case: the name begins with `IMG-` or `PHOTO-`, or contains
`-PHOTO-`. -/
def imageNameExact (name : Str) : Bool :=
  HasPrefix name "IMG-".toList || HasPrefix name "PHOTO-".toList ||
    Contains name "-PHOTO-".toList

/-- The video naming conventions exactly as the specification writes them,
in upper case: the name begins with `VID-` or `VIDEO-`, or contains
`-VIDEO-`. -/
def videoNameExact (name : Str) : Bool :=
  HasPrefix name "VID-".toList || HasPrefix name "VIDEO-".toList ||
    Contains name "-VIDEO-".toList

/-- A world in which the configuration file exists and stores `key` as the
API key, the user types the answers `stdin`, and every operation
succeeds. -/
def storedKeyWorld (key : Str) (stdin : List Str) : InitWorld :=
  { dir := "/home/u/.config/wachat".toList
    stat := fun _ => true
    readFile := fun _ => .ok []
    unmarshal := fun _ => .ok [("openai_api_key".toList, key)]
    stdin := stdin
    validateAPIKey := fun _ => none
    mkdirAll := fun _ => none
    marshalIndent := fun _ => .ok []
    writeFile := fun _ _ => none }

/-- The message of the run-time panic of `s[:7]` on a string of `n` bytes. -/
def shortKeyPanic (n : Nat) : Str :=
  "runtime error: slice bounds out of range [:7] with length ".toList ++ decimal n

/-! # Theorems -/

/-! ## The loop of `Chat.Filter` -/

theorem Chat.filterStep_eq (frm til : Option Time) (acc : Chat) (m : Message) :
    Chat.filterStep frm til acc m
      = if inWindow frm til m then ⟨acc.Messages ++ [m]⟩ else acc := by
  unfold Chat.filterStep inWindow Time.Before Time.After
  cases frm <;> cases til <;> simp <;> split_ifs <;> first | rfl | omega

theorem Chat.foldl_filterStep (frm til : Option Time) (ms : List Message) (acc : Chat) :
    ms.foldl (Chat.filterStep frm til) acc
      = ⟨acc.Messages ++ ms.filter (fun m => decide (inWindow frm til m))⟩ := by
  induction ms generalizing acc with
  | nil => simp
  | cons m ms ih =>
    rw [List.foldl_cons, ih, Chat.filterStep_eq]
    by_cases h : inWindow frm til m <;> simp [h, List.filter_cons]

/-! ## The bytes of a text -/

theorem encodeRune_ascii (c : Char) (h : c.toNat < 128) : encodeRune c = [c.toNat] := by
  unfold encodeRune
  simp only []
  rw [if_pos h]

theorem utf8_ascii (s : Str) (h : ∀ c ∈ s, c.toNat < 128) : utf8 s = s.map Char.toNat := by
  induction s with
  | nil => rfl
  | cons c s ih =>
    have h1 := encodeRune_ascii c (h c (List.mem_cons_self _ _))
    have h2 := ih (fun d hd => h d (List.mem_cons_of_mem _ hd))
    unfold utf8 at h2 ⊢
    rw [List.flatMap_cons, h1, h2]
    rfl

theorem utf8_append (s t : Str) : utf8 (s ++ t) = utf8 s ++ utf8 t := by
  unfold utf8
  exact List.flatMap_append _ _ _

/-! ## The line loop of `parseTextFile` -/

theorem appendToLast_snoc (line : Str) (init : List Message) (m : Message) :
    appendToLast line (init ++ [m])
      = init ++ [{ m with Content := m.Content ++ ('\n' :: line) }] := by
  induction init with
  | nil => rfl
  | cons a init ih =>
    cases init with
    | nil => rfl
    | cons b init => simpa [appendToLast] using ih

theorem foldl_parseTextStep_snoc (lines : List Str) (init : List Message) (m : Message) :
    lines.foldl parseTextStep (init ++ [m])
      = init ++ [{ m with Content := m.Content ++ continuation lines }]
          ++ foldedMessages lines := by
  induction lines generalizing init m with
  | nil => simp [continuation, foldedMessages]
  | cons l ls ih =>
    rw [List.foldl_cons]
    cases h : parseMessageLine (stripInvisible l) with
    | some m₁ =>
      have hs : parseTextStep (init ++ [m]) l = (init ++ [m]) ++ [m₁] := by
        simp [parseTextStep, h]
      rw [hs, ih]
      simp [continuation, foldedMessages, accepted, h]
    | none =>
      have hs : parseTextStep (init ++ [m]) l
          = init ++ [{ m with Content := m.Content ++ ('\n' :: stripInvisible l) }] := by
        simp only [parseTextStep, h]
        rw [if_pos (by simp), appendToLast_snoc]
      rw [hs, ih]
      simp [continuation, foldedMessages, accepted, h]

theorem foldl_parseTextStep_nil (lines : List Str) :
    lines.foldl parseTextStep [] = foldedMessages lines := by
  induction lines with
  | nil => rfl
  | cons l ls ih =>
    rw [List.foldl_cons]
    cases h : parseMessageLine (stripInvisible l) with
    | some m₁ =>
      have hs : parseTextStep [] l = [] ++ [m₁] := by simp [parseTextStep, h]
      rw [hs, foldl_parseTextStep_snoc]
      simp [foldedMessages, h]
    | none =>
      have hs : parseTextStep [] l = [] := by simp [parseTextStep, h]
      rw [hs, ih]
      simp [foldedMessages, h]

theorem parseTextLoop_ok (lines : List Str)
    (h : ∀ l ∈ lines, (utf8 l).length < maxTokenSize) (init : List Message) :
    parseTextLoop init lines = .ok ((lines.map dropCR).foldl parseTextStep init) := by
  induction lines generalizing init with
  | nil => rfl
  | cons l ls ih =>
    have hl := h l (List.mem_cons_self _ _)
    have hs : scanLine l = .ok (dropCR l) := by
      unfold scanLine
      rw [if_neg (by omega)]
    simp only [parseTextLoop, hs, List.map_cons, List.foldl_cons]
    exact ih (fun x hx => h x (List.mem_cons_of_mem _ hx)) _

theorem parseTextLoop_tooLong (lines : List Str)
    (h : ∃ l ∈ lines, maxTokenSize ≤ (utf8 l).length) (init : List Message) :
    parseTextLoop init lines = .error ErrTooLong := by
  induction lines generalizing init with
  | nil =>
    obtain ⟨l, hl, _⟩ := h
    cases hl
  | cons l ls ih =>
    by_cases hl : maxTokenSize ≤ (utf8 l).length
    · have hs : scanLine l = .error ErrTooLong := by
        unfold scanLine
        rw [if_pos hl]
      simp only [parseTextLoop, hs]
    · have hs : scanLine l = .ok (dropCR l) := by
        unfold scanLine
        rw [if_neg hl]
      simp only [parseTextLoop, hs]
      apply ih
      obtain ⟨x, hx, hxl⟩ := h
      rcases List.mem_cons.1 hx with rfl | hx
      · exact absurd hxl hl
      · exact ⟨x, hx, hxl⟩

theorem parseTextFile_ok (lines : List Str)
    (h : ∀ l ∈ lines, (utf8 l).length < maxTokenSize) :
    parseTextFile lines = .ok (foldedMessages (lines.map dropCR)) := by
  unfold parseTextFile
  rw [parseTextLoop_ok lines h, foldl_parseTextStep_nil]

theorem parseTextFile_tooLong (lines : List Str)
    (h : ∃ l ∈ lines, maxTokenSize ≤ (utf8 l).length) :
    parseTextFile lines = .error ErrTooLong :=
  parseTextLoop_tooLong lines h []

theorem Parse_error (tempDir : Str) (lines : List Str) (err : Str)
    (h : parseTextFile lines = .error err) :
    Parse tempDir lines = .error ("parsing chat file: ".toList ++ err) := by
  unfold Parse
  rw [h]

theorem utf8_replicate_ascii (n : Nat) (c : Char) (hc : c.toNat < 128) :
    (utf8 (List.replicate n c)).length = n := by
  rw [utf8_ascii _ (fun d hd => by rw [List.eq_of_mem_replicate hd]; exact hc),
    List.length_map, List.length_replicate]

theorem dropCR_of_no_CR (l : Str) (h : '\r' ∉ l) : dropCR l = l := by
  unfold dropCR
  rw [if_neg]
  intro e
  exact h (List.mem_of_getLast?_eq_some e)

theorem foldedMessages_length (lines : List Str) :
    (foldedMessages lines).length = (lines.filter accepted).length := by
  induction lines with
  | nil => rfl
  | cons l ls ih =>
    cases h : parseMessageLine (stripInvisible l) <;>
      simp [foldedMessages, accepted, h, List.filter_cons, ih]

/-! ## Characters, case, and the classification of media file names -/

theorem char_le_iff (a b : Char) : a ≤ b ↔ a.toNat ≤ b.toNat := by
  rw [Char.le_def]; exact Iff.rfl

theorem char_toNat_inj {a b : Char} (h : a.toNat = b.toNat) : a = b :=
  Char.ext (UInt32.ext h)

theorem char_toNat_ofNat (n : Nat) (h : n < 0xD800) : (Char.ofNat n).toNat = n := by
  have hv : n.isValidChar := Or.inl h
  simp [Char.ofNat, hv, Char.toNat, Char.ofNatAux]
  rfl

/-- A lower-case result of `toLowerRune`, or the character itself. -/
theorem toLowerRune_cases (c : Char) :
    (97 ≤ (toLowerRune c).toNat ∧ (toLowerRune c).toNat ≤ 122)
      ∨ (toLowerRune c = c ∧ ¬ (65 ≤ c.toNat ∧ c.toNat ≤ 90)) := by
  unfold toLowerRune
  by_cases h : 'A' ≤ c ∧ c ≤ 'Z'
  · rw [if_pos h]
    left
    have h1 : 65 ≤ c.toNat := (char_le_iff _ _).1 h.1
    have h2 : c.toNat ≤ 90 := (char_le_iff _ _).1 h.2
    rw [char_toNat_ofNat _ (by omega)]
    omega
  · rw [if_neg h]
    have hn : ¬ (65 ≤ c.toNat ∧ c.toNat ≤ 90) := by
      intro hh
      exact h ⟨(char_le_iff _ _).2 hh.1, (char_le_iff _ _).2 hh.2⟩
    by_cases h1 : c = Char.ofNat 0x130
    · rw [if_pos h1]; left; decide
    · rw [if_neg h1]
      by_cases h2 : c = Char.ofNat 0x212A
      · rw [if_pos h2]; left; decide
      · rw [if_neg h2]; right; exact ⟨rfl, hn⟩

/-- An upper-case result of `toUpperRune`, or the character itself. -/
theorem toUpperRune_cases (c : Char) :
    (65 ≤ (toUpperRune c).toNat ∧ (toUpperRune c).toNat ≤ 90)
      ∨ (toUpperRune c = c ∧ ¬ (97 ≤ c.toNat ∧ c.toNat ≤ 122)) := by
  unfold toUpperRune
  by_cases h : 'a' ≤ c ∧ c ≤ 'z'
  · rw [if_pos h]
    left
    have h1 : 97 ≤ c.toNat := (char_le_iff _ _).1 h.1
    have h2 : c.toNat ≤ 122 := (char_le_iff _ _).1 h.2
    rw [char_toNat_ofNat _ (by omega)]
    omega
  · rw [if_neg h]
    have hn : ¬ (97 ≤ c.toNat ∧ c.toNat ≤ 122) := by
      intro hh
      exact h ⟨(char_le_iff _ _).2 hh.1, (char_le_iff _ _).2 hh.2⟩
    by_cases h1 : c = Char.ofNat 0x131
    · rw [if_pos h1]; left; decide
    · rw [if_neg h1]
      by_cases h2 : c = Char.ofNat 0x17F
      · rw [if_pos h2]; left; decide
      · rw [if_neg h2]; right; exact ⟨rfl, hn⟩

theorem sameLetter_upper (c d : Char) (hd : upperPattern d = true) :
    sameLetter c d ↔ toUpperRune c = d := by
  simp only [upperPattern, Bool.and_eq_true, Bool.not_eq_true', Bool.and_eq_false_iff,
    decide_eq_false_iff_not, beq_iff_eq] at hd
  constructor
  · rintro (h | h)
    · exact h
    · rcases toLowerRune_cases c with hl | ⟨he, _⟩
      · rw [h] at hl; omega
      · rw [he] at h; rw [h]; exact hd.2
  · exact Or.inl

theorem sameLetter_lower (c d : Char) (hd : lowerPattern d = true) :
    sameLetter c d ↔ toLowerRune c = d := by
  simp only [lowerPattern, Bool.and_eq_true, Bool.not_eq_true', Bool.and_eq_false_iff,
    decide_eq_false_iff_not, beq_iff_eq] at hd
  constructor
  · rintro (h | h)
    · rcases toUpperRune_cases c with hl | ⟨he, _⟩
      · rw [h] at hl; omega
      · rw [he] at h; rw [h]; exact hd.2
    · exact h
  · exact Or.inr

theorem equalsNoCase_upper (a p : Str) (hp : p.all upperPattern = true) :
    equalsNoCase a p ↔ ToUpper a = p := by
  unfold equalsNoCase ToUpper
  induction a generalizing p with
  | nil => cases p <;> simp
  | cons c a ih =>
    cases p with
    | nil => simp
    | cons d p =>
      simp only [List.all_cons, Bool.and_eq_true] at hp
      rw [List.forall₂_cons, sameLetter_upper c d hp.1, ih p hp.2]
      simp

theorem equalsNoCase_lower (a p : Str) (hp : p.all lowerPattern = true) :
    equalsNoCase a p ↔ ToLower a = p := by
  unfold equalsNoCase ToLower
  induction a generalizing p with
  | nil => cases p <;> simp
  | cons c a ih =>
    cases p with
    | nil => simp
    | cons d p =>
      simp only [List.all_cons, Bool.and_eq_true] at hp
      rw [List.forall₂_cons, sameLetter_lower c d hp.1, ih p hp.2]
      simp

theorem Contains_iff (s sub : Str) : Contains s sub = true ↔ ∃ a c, s = a ++ sub ++ c := by
  induction s with
  | nil =>
    simp only [Contains, List.isEmpty_iff]
    constructor
    · rintro rfl; exact ⟨[], [], rfl⟩
    · rintro ⟨a, c, h⟩
      have := congrArg List.length h
      simp at this
      exact List.length_eq_zero.1 (by omega)
  | cons x s ih =>
    simp only [Contains, Bool.or_eq_true, ih, List.isPrefixOf_iff_prefix]
    constructor
    · rintro (⟨t, ht⟩ | ⟨a, c, h⟩)
      · exact ⟨[], t, by simpa using ht.symm⟩
      · exact ⟨x :: a, c, by simp [h]⟩
    · rintro ⟨a, c, h⟩
      cases a with
      | nil => left; exact ⟨c, by simpa using h.symm⟩
      | cons y a =>
        right
        simp only [List.cons_append, List.cons.injEq] at h
        exact ⟨a, c, h.2⟩

theorem HasPrefix_upper_iff (name p : Str) (hp : p.all upperPattern = true) :
    HasPrefix (ToUpper name) p = true ↔ beginsNoCase name p := by
  unfold HasPrefix beginsNoCase
  rw [List.isPrefixOf_iff_prefix]
  constructor
  · rintro ⟨t, ht⟩
    have h := ht.symm
    unfold ToUpper at h
    rw [List.map_eq_append_iff] at h
    obtain ⟨a, b, hab, ha, _⟩ := h
    exact ⟨a, b, hab, (equalsNoCase_upper a p hp).2 ha⟩
  · rintro ⟨a, b, hab, ha⟩
    refine ⟨ToUpper b, ?_⟩
    rw [hab, ← (equalsNoCase_upper a p hp).1 ha]
    simp [ToUpper]

theorem HasSuffix_lower_iff (name p : Str) (hp : p.all lowerPattern = true) :
    HasSuffix (ToLower name) p = true ↔ endsNoCase name p := by
  unfold HasSuffix endsNoCase
  rw [List.isSuffixOf_iff_suffix]
  constructor
  · rintro ⟨t, ht⟩
    have h := ht.symm
    unfold ToLower at h
    rw [List.map_eq_append_iff] at h
    obtain ⟨a, b, hab, _, hb⟩ := h
    exact ⟨a, b, hab, (equalsNoCase_lower b p hp).2 hb⟩
  · rintro ⟨a, b, hab, hb⟩
    refine ⟨ToLower a, ?_⟩
    rw [hab, ← (equalsNoCase_lower b p hp).1 hb]
    simp [ToLower]

theorem Contains_upper_iff (name p : Str) (hp : p.all upperPattern = true) :
    Contains (ToUpper name) p = true ↔ containsNoCase name p := by
  rw [Contains_iff]
  unfold containsNoCase
  constructor
  · rintro ⟨x, z, h⟩
    unfold ToUpper at h
    rw [List.map_eq_append_iff] at h
    obtain ⟨ab, c, hn, hab, _⟩ := h
    rw [List.map_eq_append_iff] at hab
    obtain ⟨a, b, hab', _, hb⟩ := hab
    exact ⟨a, b, c, by rw [hn, hab'], (equalsNoCase_upper b p hp).2 hb⟩
  · rintro ⟨a, b, c, hn, hb⟩
    refine ⟨ToUpper a, ToUpper c, ?_⟩
    rw [hn, ← (equalsNoCase_upper b p hp).1 hb]
    simp [ToUpper]

theorem isVoiceMessage_iff (name : Str) : isVoiceMessage name = true ↔ voiceName name := by
  unfold isVoiceMessage voiceName
  simp only [Bool.or_eq_true]
  rw [HasPrefix_upper_iff _ _ (by decide), HasPrefix_upper_iff _ _ (by decide),
    Contains_upper_iff _ _ (by decide), HasSuffix_lower_iff _ _ (by decide),
    HasSuffix_lower_iff _ _ (by decide), HasSuffix_lower_iff _ _ (by decide)]
  tauto

theorem isImageMessage_iff (name : Str) : isImageMessage name = true ↔ imageName name := by
  unfold isImageMessage imageName
  simp only [Bool.or_eq_true]
  rw [HasPrefix_upper_iff _ _ (by decide), HasPrefix_upper_iff _ _ (by decide),
    Contains_upper_iff _ _ (by decide)]
  tauto

theorem isVideoMessage_iff (name : Str) : isVideoMessage name = true ↔ videoName name := by
  unfold isVideoMessage videoName
  simp only [Bool.or_eq_true]
  rw [HasPrefix_upper_iff _ _ (by decide), HasPrefix_upper_iff _ _ (by decide),
    Contains_upper_iff _ _ (by decide)]
  tauto

/-! ## The rendered line of a message -/

theorem Format_layoutRender (t : Time) : t.Format layoutRender = stamp t := by
  simp [Time.Format, layoutRender, formatStd, stamp]

theorem formatMessage_eq_specLine (markdown : Bool) (msg : Message) :
    formatMessage markdown msg = specLine markdown msg := by
  unfold formatMessage specLine voiceText
  rw [Format_layoutRender]
  cases h : msg.Typ <;> cases markdown <;> simp

/-- Two-digit padding: a number below 100 is written with exactly two
digits. -/
theorem appendInt_two (n : Nat) (h : n < 100) :
    appendInt (n : Int) 2 = [Nat.digitChar (n / 10), Nat.digitChar (n % 10)] := by
  interval_cases n <;> decide

/-! ## The transcription loop of `Process` -/

theorem set_get_self {α : Type} (l : List α) (i : Nat) (a : α) (h : l.get? i = some a) :
    l.set i a = l := by
  induction l generalizing i with
  | nil => rfl
  | cons x l ih =>
    cases i with
    | zero => simp at h; simp [h]
    | succ i => simp at h; simp [ih i (by simpa using h)]

theorem transcribeStep_fst (transcribe : Str → Except Str Str) (i : Nat)
    (st : List Message × List Str) :
    (transcribeStep transcribe i st).1
      = (st.1.get? i).elim st.1 (fun m => st.1.set i (transcribed transcribe m)) := by
  unfold transcribeStep
  cases h : st.1.get? i with
  | none => rfl
  | some m =>
    simp only [Option.elim]
    have hset : st.1.set i m = st.1 := set_get_self _ _ _ h
    unfold transcribed
    by_cases hv : m.Typ = VoiceMessage
    · simp only [hv, ne_eq, not_true_eq_false, if_false, if_true]
      cases transcribe m.MediaRef with
      | error e => simp [hset]
      | ok t => simp
    · simp [hv, hset]

/-- A loop over the indices of a list that changes entry `i` in turn `i`
maps the change over the list. -/
theorem foldl_set_range {α σ : Type} (f : α → α) (body : Nat → List α × σ → List α × σ)
    (hbody : ∀ i st, (body i st).1 = (st.1.get? i).elim st.1 (fun a => st.1.set i (f a)))
    (xs : List α) (s : σ) (k : Nat) (hk : k ≤ xs.length) :
    ((List.range k).foldl (fun st i => body i st) (xs, s)).1
      = (xs.take k).map f ++ xs.drop k := by
  induction k with
  | zero => simp
  | succ k ih =>
    rw [List.range_succ, List.foldl_append, List.foldl_cons, List.foldl_nil, hbody,
      ih (by omega)]
    have hlen : ((xs.take k).map f).length = k := by simp; omega
    have hd : xs.drop k = xs[k] :: xs.drop (k + 1) := List.drop_eq_getElem_cons (by omega)
    have hget : ((xs.take k).map f ++ xs.drop k).get? k = some xs[k] := by
      rw [List.get?_eq_getElem?, List.getElem?_append_right (by omega), hlen, Nat.sub_self, hd]
      simp
    have htake : xs.take (k + 1) = xs.take k ++ [xs[k]] := by
      rw [List.take_succ, List.getElem?_eq_getElem (by omega)]
      rfl
    rw [hget, Option.elim, List.set_append_right _ _ (by omega), hlen, Nat.sub_self, hd, htake,
      List.map_append, List.append_assoc]
    rfl

theorem forRange_transcribeStep (transcribe : Str → Except Str Str) (ms : List Message) :
    (forRange ms.length (transcribeStep transcribe) (ms, [])).1
      = ms.map (transcribed transcribe) := by
  unfold forRange
  rw [foldl_set_range (transcribed transcribe) (transcribeStep transcribe)
    (transcribeStep_fst transcribe) ms [] ms.length (le_refl _)]
  simp

/-! ## The output of `Render` -/

theorem digitChar_ne_newline (k : Nat) : Nat.digitChar k ≠ '\n' := by
  by_cases h : k < 16
  · interval_cases k <;> decide
  · have hk : Nat.digitChar k = '*' := by
      unfold Nat.digitChar
      repeat rw [if_neg (by omega)]
    rw [hk]
    decide

theorem toDigitsCore_no_newline (fuel n : Nat) (ds : List Char) (h : '\n' ∉ ds) :
    '\n' ∉ Nat.toDigitsCore 10 fuel n ds := by
  induction fuel generalizing n ds with
  | zero => simpa [Nat.toDigitsCore] using h
  | succ fuel ih =>
    have hd : '\n' ∉ Nat.digitChar (n % 10) :: ds := by
      simp only [List.mem_cons, not_or]
      exact ⟨fun e => digitChar_ne_newline _ e.symm, h⟩
    unfold Nat.toDigitsCore
    simp only []
    split
    · exact hd
    · exact ih _ _ hd

theorem appendInt_no_newline (x : Int) (width : Nat) : '\n' ∉ appendInt x width := by
  unfold appendInt
  have h1 : '\n' ∉ Nat.toDigits 10 x.natAbs := toDigitsCore_no_newline _ _ _ (by simp)
  have h2 : '\n' ∉ (if x < 0 then ['-'] else []) := by
    split <;> simp
  have h3 : ∀ k, '\n' ∉ List.replicate k '0' := by
    intro k hk
    have := List.eq_of_mem_replicate hk
    exact absurd this (by decide)
  simp only [List.mem_append, not_or]
  exact ⟨⟨h2, h3 _⟩, h1⟩

theorem stamp_no_newline (t : Time) : '\n' ∉ stamp t := by
  unfold stamp
  have hc : ∀ s ∈ [".".toList, " ".toList, ":".toList], '\n' ∉ s := by decide
  simp only [List.mem_append, not_or]
  refine ⟨⟨⟨⟨⟨⟨⟨⟨?_, ?_⟩, ?_⟩, ?_⟩, ?_⟩, ?_⟩, ?_⟩, ?_⟩, ?_⟩ <;>
    first
    | exact appendInt_no_newline _ _
    | decide

theorem specLine_no_newline (markdown : Bool) (m : Message) (h : singleLine m) :
    '\n' ∉ specLine markdown m := by
  obtain ⟨hs, hc, hr⟩ := h
  have ht := stamp_no_newline m.Timestamp
  have hv : '\n' ∉ voiceText m := by
    unfold voiceText
    split
    · exact hr
    · exact hc
  have hlit : ∀ s ∈ ["*[".toList, "] ".toList, "*".toList, "*** [".toList, "[".toList,
      ": [Sprachnachricht] ".toList, ": [Bild] ".toList, ": [Video] ".toList,
      ": [Dokument] ".toList, ": ".toList], '\n' ∉ s := by decide
  unfold specLine
  cases m.Typ <;> cases markdown <;> simp only [List.mem_append, not_or] <;>
    simp [hs, hc, hr, ht, hv]

theorem renderLoop_all (markdown : Bool) (buf err : Str) (msgs : List Message) :
    renderLoop markdown ⟨buf, none, err⟩ msgs
      = (⟨buf ++ renderedText markdown msgs, none, err⟩, none) := by
  induction msgs generalizing buf with
  | nil => simp [renderLoop, renderedText]
  | cons m ms ih =>
    simp only [renderLoop, Fprintln]
    rw [ih]
    simp [renderedText]

theorem count_renderedText (markdown : Bool) (msgs : List Message)
    (h : ∀ m ∈ msgs, singleLine m) :
    (renderedText markdown msgs).count '\n' = msgs.length := by
  induction msgs with
  | nil => rfl
  | cons m ms ih =>
    have hm := specLine_no_newline markdown m (h m (List.mem_cons_self _ _))
    rw [← formatMessage_eq_specLine markdown m] at hm
    have ih' := ih (fun x hx => h x (List.mem_cons_of_mem _ hx))
    unfold renderedText at ih' ⊢
    simp only [List.map_cons, List.flatten_cons, List.count_append, ih',
      List.count_eq_zero_of_not_mem hm]
    simp
    omega

/-! ## The extraction of the archive -/

theorem splitSlash_ne_nil (s : Str) : splitSlash s ≠ [] := by
  cases s with
  | nil => simp [splitSlash]
  | cons x s =>
    unfold splitSlash
    split
    · simp
    · split <;> simp

theorem intercalate_cons_cons (sep a b : Str) (l : List Str) :
    List.intercalate sep (a :: b :: l) = a ++ sep ++ List.intercalate sep (b :: l) := by
  simp [List.intercalate, List.intersperse]

theorem intercalate_splitSlash (s : Str) : List.intercalate ['/'] (splitSlash s) = s := by
  induction s with
  | nil => simp [splitSlash, List.intercalate, List.intersperse]
  | cons x s ih =>
    unfold splitSlash
    cases hsp : splitSlash s with
    | nil => exact absurd hsp (splitSlash_ne_nil s)
    | cons e es =>
      rw [hsp] at ih
      by_cases hx : x = '/'
      · rw [if_pos hx, intercalate_cons_cons, ih, hx]
        rfl
      · rw [if_neg hx]
        simp only []
        cases es with
        | nil =>
          simp only [List.intercalate, List.intersperse, List.flatten_cons, List.flatten_nil,
            List.append_nil] at ih ⊢
          rw [ih]
        | cons e₁ es =>
          rw [intercalate_cons_cons] at ih ⊢
          rw [← ih]
          simp

theorem mem_intercalate_infix (sep e : Str) (l : List Str) (h : e ∈ l) :
    ∃ a c, List.intercalate sep l = a ++ e ++ c := by
  induction l with
  | nil => simp at h
  | cons x l ih =>
    cases l with
    | nil =>
      simp only [List.mem_singleton] at h
      exact ⟨[], [], by simp [h, List.intercalate, List.intersperse]⟩
    | cons y l =>
      rw [intercalate_cons_cons]
      rcases List.mem_cons.1 h with rfl | h'
      · exact ⟨[], sep ++ List.intercalate sep (y :: l), by simp⟩
      · obtain ⟨a, c, hs⟩ := ih h'
        exact ⟨x ++ sep ++ a, c, by rw [hs]; simp⟩

theorem splitSlash_mem_infix (s e : Str) (h : e ∈ splitSlash s) : ∃ a c, s = a ++ e ++ c := by
  obtain ⟨a, c, hs⟩ := mem_intercalate_infix ['/'] e _ h
  rw [intercalate_splitSlash] at hs
  exact ⟨a, c, hs⟩

theorem Contains_of_parentSegment (path : Str) (h : hasParentSegment path) :
    Contains path "..".toList = true := by
  obtain ⟨a, c, hs⟩ := splitSlash_mem_infix path _ h
  exact (Contains_iff _ _).2 ⟨a, c, hs⟩

theorem extractZip_ok (fs : FsOp → Bool) (hfs : ∀ op, fs op = true) (destDir : Str)
    (files : List ZipFile) :
    extractZip fs destDir files = ((files.filter extracted).flatMap (entryOps destDir), true) := by
  induction files with
  | nil => rfl
  | cons f files ih =>
    unfold extractZip
    simp only [hfs, Bool.not_true, Bool.false_eq_true, if_false]
    rw [ih, List.filter_cons]
    have he : extracted f = !Contains (Clean f.Name) "..".toList := rfl
    rw [he]
    generalize Contains (Clean f.Name) "..".toList = b
    cases b <;> cases hd : f.IsDir <;> simp [entryOps, hd]

/-! ## The matcher: general lemmas -/

theorem run_cls_cons {α : Type} (n : Nat) (p : Char → Bool) (c : Char) (cs : Str) (caps : Caps)
    (k : Str → Str → Caps → Option α) :
    (Re.cls p).run n (c :: cs) caps k = if p c then k [c] cs caps else none := rfl

theorem run_cls_nil {α : Type} (n : Nat) (p : Char → Bool) (caps : Caps)
    (k : Str → Str → Caps → Option α) : (Re.cls p).run n [] caps k = none := rfl

theorem run_chr_cons {α : Type} (n : Nat) (c d : Char) (cs : Str) (caps : Caps)
    (k : Str → Str → Caps → Option α) :
    (Re.chr c).run n (d :: cs) caps k = if d = c then k [d] cs caps else none := by
  simp [Re.chr, Re.run]

theorem run_chr_nil {α : Type} (n : Nat) (c : Char) (caps : Caps)
    (k : Str → Str → Caps → Option α) : (Re.chr c).run n [] caps k = none := rfl

theorem run_cat {α : Type} (n : Nat) (a b : Re) (s : Str) (caps : Caps)
    (k : Str → Str → Caps → Option α) :
    (Re.cat a b).run n s caps k
      = a.run n s caps (fun m₁ s₁ caps₁ =>
          b.run n s₁ caps₁ (fun m₂ s₂ caps₂ => k (m₁ ++ m₂) s₂ caps₂)) := rfl

theorem run_alt {α : Type} (n : Nat) (a b : Re) (s : Str) (caps : Caps)
    (k : Str → Str → Caps → Option α) :
    (Re.alt a b).run n s caps k
      = match a.run n s caps k with
        | some x => some x
        | none => b.run n s caps k := rfl

theorem run_alt_of_none {α : Type} (n : Nat) (a b : Re) (s : Str) (caps : Caps)
    (k : Str → Str → Caps → Option α) (h : a.run n s caps k = none) :
    (Re.alt a b).run n s caps k = b.run n s caps k := by
  rw [run_alt, h]

theorem run_alt_of_some {α : Type} (n : Nat) (a b : Re) (s : Str) (caps : Caps)
    (k : Str → Str → Caps → Option α) (x : α) (h : a.run n s caps k = some x) :
    (Re.alt a b).run n s caps k = some x := by
  rw [run_alt, h]

theorem run_cap {α : Type} (n i : Nat) (a : Re) (s : Str) (caps : Caps)
    (k : Str → Str → Caps → Option α) :
    (Re.cap i a).run n s caps k = a.run n s caps (fun m s₁ caps₁ => k m s₁ (caps₁.set i m)) :=
  rfl

theorem run_many {α : Type} (n : Nat) (p : Char → Bool) (s : Str) (caps : Caps)
    (k : Str → Str → Caps → Option α) :
    (Re.many p).run n s caps k = manyRun p s (fun m r => k m r caps) := rfl

theorem run_eot {α : Type} (n : Nat) (s : Str) (caps : Caps)
    (k : Str → Str → Caps → Option α) :
    Re.eot.run n s caps k = if s.isEmpty then k [] s caps else none := rfl

theorem run_bot {α : Type} (n : Nat) (s : Str) (caps : Caps)
    (k : Str → Str → Caps → Option α) :
    Re.bot.run n s caps k = if s.length = n then k [] s caps else none := rfl

theorem run_eps {α : Type} (n : Nat) (s : Str) (caps : Caps)
    (k : Str → Str → Caps → Option α) : Re.eps.run n s caps k = k [] s caps := rfl

/-- A literal text matches exactly when it begins the input. -/
theorem run_str {α : Type} (n : Nat) (w s : Str) (caps : Caps)
    (k : Str → Str → Caps → Option α) :
    (Re.str w).run n s caps k = if w.isPrefixOf s then k w (s.drop w.length) caps else none := by
  induction w generalizing s k with
  | nil => simp [Re.str, Re.run]
  | cons c w ih =>
    cases s with
    | nil => simp [Re.str, Re.run, Re.chr]
    | cons d s =>
      simp only [Re.str, run_cat, run_chr_cons, List.isPrefixOf, List.length_cons,
        List.drop_succ_cons, Bool.and_eq_true, beq_iff_eq]
      by_cases hd : d = c
      · subst hd
        simp only [if_true, ih, true_and]
        rfl
      · have hd' : ¬ c = d := fun e => hd e.symm
        simp [hd, hd']

theorem run_str_append {α : Type} (n : Nat) (w t : Str) (caps : Caps)
    (k : Str → Str → Caps → Option α) :
    (Re.str w).run n (w ++ t) caps k = k w t caps := by
  rw [run_str]
  have h : w.isPrefixOf (w ++ t) = true := List.isPrefixOf_iff_prefix.2 (List.prefix_append _ _)
  simp [h]

/-- Greedy repetition fails exactly when the continuation fails after
every repetition. -/
theorem manyRun_eq_none_iff {α : Type} (p : Char → Bool) (s : Str)
    (k : Str → Str → Option α) :
    manyRun p s k = none ↔
      ∀ m r, s = m ++ r → (∀ c ∈ m, p c = true) → k m r = none := by
  induction s generalizing k with
  | nil =>
    simp only [manyRun]
    constructor
    · intro h m r hs _
      have hm : m = [] := (List.append_eq_nil.1 hs.symm).1
      have hr : r = [] := (List.append_eq_nil.1 hs.symm).2
      rw [hm, hr]; exact h
    · intro h
      exact h [] [] rfl (by simp)
  | cons c cs ih =>
    unfold manyRun
    by_cases hp : p c = true
    · rw [if_pos hp]
      constructor
      · intro h m r hs hm
        cases hrec : manyRun p cs (fun m r => k (c :: m) r) with
        | some x => rw [hrec] at h; simp at h
        | none =>
          rw [hrec] at h
          cases m with
          | nil =>
            simp only [List.nil_append] at hs
            rw [← hs]; exact h
          | cons d m =>
            simp only [List.cons_append, List.cons.injEq] at hs
            obtain ⟨rfl, hs⟩ := hs
            exact (ih _).1 hrec m r hs (fun x hx => hm x (List.mem_cons_of_mem _ hx))
      · intro h
        have hrec : manyRun p cs (fun m r => k (c :: m) r) = none := by
          rw [ih]
          intro m r hs hm
          apply h (c :: m) r (by simp [hs])
          intro x hx
          rcases List.mem_cons.1 hx with rfl | hx
          · exact hp
          · exact hm x hx
        rw [hrec]
        exact h [] (c :: cs) rfl (by simp)
    · rw [if_neg hp]
      constructor
      · intro h m r hs hm
        cases m with
        | nil =>
          simp only [List.nil_append] at hs
          rw [← hs]; exact h
        | cons d m =>
          simp only [List.cons_append, List.cons.injEq] at hs
          obtain ⟨rfl, _⟩ := hs
          exact absurd (hm c (List.mem_cons_self _ _)) hp
      · intro h
        exact h [] (c :: cs) rfl (by simp)

/-- Greedy repetition yields the result of the continuation after the
longest repetition for which the continuation succeeds. -/
theorem manyRun_eq_some {α : Type} (p : Char → Bool) (s m r : Str)
    (k : Str → Str → Option α) (x : α) (hs : s = m ++ r) (hm : ∀ c ∈ m, p c = true)
    (hk : k m r = some x)
    (hlong : ∀ m' r', s = m' ++ r' → (∀ c ∈ m', p c = true) → m.length < m'.length →
      k m' r' = none) :
    manyRun p s k = some x := by
  induction s generalizing k m with
  | nil =>
    have hm0 : m = [] := (List.append_eq_nil.1 hs.symm).1
    have hr0 : r = [] := (List.append_eq_nil.1 hs.symm).2
    subst hm0 hr0
    simpa [manyRun] using hk
  | cons c cs ih =>
    unfold manyRun
    cases m with
    | nil =>
      simp only [List.nil_append] at hs
      subst hs
      by_cases hp : p c = true
      · rw [if_pos hp]
        have hrec : manyRun p cs (fun m r => k (c :: m) r) = none := by
          rw [manyRun_eq_none_iff]
          intro m' r' hs' hm'
          apply hlong (c :: m') r' (by simp [hs'])
          · intro y hy
            rcases List.mem_cons.1 hy with rfl | hy
            · exact hp
            · exact hm' y hy
          · simp
        rw [hrec]
        exact hk
      · rw [if_neg hp]
        exact hk
    | cons d m =>
      simp only [List.cons_append, List.cons.injEq] at hs
      obtain ⟨rfl, hs⟩ := hs
      have hp : p c = true := hm c (List.mem_cons_self _ _)
      rw [if_pos hp]
      have hrec : manyRun p cs (fun m r => k (c :: m) r) = some x := by
        apply ih m (fun m r => k (c :: m) r) hs
          (fun y hy => hm y (List.mem_cons_of_mem _ hy)) hk
        intro m' r' hs' hm' hlen
        apply hlong (c :: m') r' (by simp [hs'])
        · intro y hy
          rcases List.mem_cons.1 hy with rfl | hy
          · exact hp
          · exact hm' y hy
        · simpa using hlen
      rw [hrec]

/-- A result of greedy repetition is a result of the continuation after
some repetition. -/
theorem manyRun_some_imp {α : Type} (p : Char → Bool) (s : Str)
    (k : Str → Str → Option α) (x : α) (h : manyRun p s k = some x) :
    ∃ m r, s = m ++ r ∧ (∀ c ∈ m, p c = true) ∧ k m r = some x := by
  induction s generalizing k with
  | nil => exact ⟨[], [], rfl, by simp, by simpa [manyRun] using h⟩
  | cons c cs ih =>
    unfold manyRun at h
    by_cases hp : p c = true
    · rw [if_pos hp] at h
      cases hrec : manyRun p cs (fun m r => k (c :: m) r) with
      | some y =>
        rw [hrec] at h
        have hy : y = x := Option.some.inj h
        subst hy
        obtain ⟨m, r, hs, hm, hk⟩ := ih _ hrec
        refine ⟨c :: m, r, by simp [hs], ?_, hk⟩
        intro z hz
        rcases List.mem_cons.1 hz with rfl | hz
        · exact hp
        · exact hm z hz
      | none =>
        rw [hrec] at h
        exact ⟨[], c :: cs, rfl, by simp, h⟩
    · rw [if_neg hp] at h
      exact ⟨[], c :: cs, rfl, by simp, h⟩

/-- The greedy repetition stops before a character that is not in the
class: when the continuation succeeds there, that is the match. -/
theorem manyRun_stop {α : Type} (p : Char → Bool) (m r : Str) (k : Str → Str → Option α)
    (x : α) (hm : ∀ c ∈ m, p c = true) (hr : ∀ c, r.head? = some c → p c = false)
    (hk : k m r = some x) :
    manyRun p (m ++ r) k = some x := by
  apply manyRun_eq_some p (m ++ r) m r k x rfl hm hk
  intro m' r' hs hm' hlen
  exfalso
  have hpre : m <+: m' := by
    have h1 : m <+: m ++ r := List.prefix_append _ _
    have h2 : m' <+: m ++ r := by rw [hs]; exact List.prefix_append _ _
    exact List.prefix_of_prefix_length_le h1 h2 (by omega)
  obtain ⟨t, ht⟩ := hpre
  subst ht
  rw [List.append_assoc] at hs
  have hr' : r = t ++ r' := List.append_cancel_left hs
  cases t with
  | nil => simp at hlen
  | cons c t =>
    have h1 := hr c (by rw [hr']; rfl)
    have h2 := hm' c (by simp)
    rw [h1] at h2
    exact absurd h2 (by decide)

theorem manyRun_map {α β : Type} (f : α → β) (p : Char → Bool) (s : Str)
    (k : Str → Str → Option α) :
    (manyRun p s k).map f = manyRun p s (fun m r => (k m r).map f) := by
  induction s generalizing k with
  | nil => rfl
  | cons c cs ih =>
    unfold manyRun
    by_cases hp : p c = true
    · rw [if_pos hp, if_pos hp, ← ih]
      cases manyRun p cs (fun m r => k (c :: m) r) <;> rfl
    · rw [if_neg hp, if_neg hp]

/-- Mapping the result of a match is mapping the result of the
continuation. -/
theorem run_map {α β : Type} (f : α → β) (n : Nat) (re : Re) (s : Str) (caps : Caps)
    (k : Str → Str → Caps → Option α) :
    (re.run n s caps k).map f = re.run n s caps (fun m r c => (k m r c).map f) := by
  induction re generalizing s caps k with
  | cls p =>
    cases s with
    | nil => rfl
    | cons c cs =>
      rw [run_cls_cons, run_cls_cons]
      split <;> rfl
  | cat a b iha ihb =>
    rw [run_cat, run_cat, iha]
    congr 1
    funext m₁ s₁ caps₁
    rw [ihb]
  | alt a b iha ihb =>
    rw [run_alt, run_alt, ← iha, ← ihb]
    cases a.run n s caps k <;> rfl
  | many p => rw [run_many, run_many, manyRun_map]
  | cap i a iha => rw [run_cap, run_cap, iha]
  | bot =>
    rw [run_bot, run_bot]
    split <;> rfl
  | eot =>
    rw [run_eot, run_eot]
    split <;> rfl
  | eps => rfl

/-- A pattern that begins with `^` matches at the beginning of the text
only. -/
theorem findFrom_bot_short (r : Re) (g n : Nat) (t : Str) (h : t.length < n) :
    (Re.cat .bot r).findFrom g n t = none := by
  induction t with
  | nil =>
    have hne : ¬ ([] : Str).length = n := by
      intro e; rw [e] at h; exact Nat.lt_irrefl _ h
    simp only [Re.findFrom, Re.matchAt, run_cat, run_bot, if_neg hne]
    rfl
  | cons c cs ih =>
    have hne : ¬ (c :: cs).length = n := by omega
    simp only [Re.findFrom, Re.matchAt, run_cat, run_bot, if_neg hne]
    rw [ih (by simp at h; omega)]
    rfl

/-- `FindStringSubmatch` for a pattern that begins with `^`: the match of
the rest of the pattern on the whole text. -/
theorem FindStringSubmatch_bot (r : Re) (g : Nat) (s : Str) :
    (Re.cat .bot r).FindStringSubmatch g s
      = r.run s.length s (List.replicate (g + 1) []) (fun m _ caps => some (caps.set 0 m)) := by
  have hm : (Re.cat .bot r).matchAt g s.length s
      = r.run s.length s (List.replicate (g + 1) [])
          (fun m r caps => some (m, r, caps.set 0 m)) := by
    simp only [Re.matchAt, run_cat, run_bot, if_true, List.nil_append]
  have hrun : ((Re.cat .bot r).matchAt g s.length s).map (fun x => x.2.2)
      = r.run s.length s (List.replicate (g + 1) []) (fun m _ caps => some (caps.set 0 m)) := by
    rw [hm, run_map]
    rfl
  unfold Re.FindStringSubmatch
  rw [← hrun]
  cases s with
  | nil =>
    simp only [Re.findFrom]
    cases (Re.cat .bot r).matchAt g ([] : Str).length [] <;> rfl
  | cons c cs =>
    simp only [Re.findFrom]
    cases (Re.cat .bot r).matchAt g (c :: cs).length (c :: cs) with
    | some x => rfl
    | none =>
      simp only []
      rw [findFrom_bot_short r g _ cs (by simp)]
      rfl

/-! ## The pattern `anhangRe` -/

theorem reDot_iff (c : Char) : reDot c = true ↔ c ≠ '\n' := by
  simp [reDot]

/-- `(.+)>$`, on a non-empty text without line break that is followed by
`>` and the end. -/
theorem run_plusDot_close {α : Type} (n : Nat) (F : Str) (caps : Caps)
    (k : Str → Str → Caps → Option α) (hF : F ≠ []) (hdot : ∀ c ∈ F, reDot c = true) :
    (Re.cat (Re.cap 1 (Re.plus reDot)) (Re.cat (Re.chr '>') Re.eot)).run n (F ++ ['>']) caps k
      = k (F ++ ['>']) [] (caps.set 1 F) := by
  cases F with
  | nil => exact absurd rfl hF
  | cons c F =>
    have hc : reDot c = true := hdot c (List.mem_cons_self _ _)
    simp only [Re.plus, run_cat, run_cap, List.cons_append, run_cls_cons, hc, if_true, run_many]
    cases hk : k (c :: (F ++ ['>'])) [] (caps.set 1 (c :: F)) with
    | none =>
      rw [manyRun_eq_none_iff]
      intro m r hs hm
      cases r with
      | nil => rfl
      | cons d r =>
        rw [run_chr_cons]
        split
        · rename_i hd
          subst hd
          rw [run_eot]
          cases r with
          | nil =>
            have hmF : m = F := List.append_inj_left' hs.symm rfl
            subst hmF
            simpa using hk
          | cons e r => rfl
        · rfl
    | some x =>
      apply manyRun_eq_some reDot (F ++ ['>']) F ['>'] _ x rfl
        (fun y hy => hdot y (List.mem_cons_of_mem _ hy))
      · simpa [run_chr_cons, run_eot] using hk
      · intro m' r' hs _ hlen
        have hl := congrArg List.length hs
        simp only [List.length_append, List.length_singleton] at hl
        have hr : r' = [] := List.length_eq_zero.1 (by omega)
        subst hr
        rfl

/-- A match of `(.+)>$` is a non-empty text without line break, followed
by `>` and the end. -/
theorem run_plusDot_close_inv {α : Type} (n : Nat) (t : Str) (caps : Caps)
    (k : Str → Str → Caps → Option α) (x : α)
    (h : (Re.cat (Re.cap 1 (Re.plus reDot)) (Re.cat (Re.chr '>') Re.eot)).run n t caps k
      = some x) :
    ∃ F, F ≠ [] ∧ (∀ c ∈ F, reDot c = true) ∧ t = F ++ ['>'] := by
  cases t with
  | nil => simp [Re.plus, run_cat, run_cap, run_cls_nil] at h
  | cons c t =>
    simp only [Re.plus, run_cat, run_cap, run_cls_cons, run_many] at h
    by_cases hc : reDot c = true
    · rw [if_pos hc] at h
      obtain ⟨m, r, hs, hm, hk⟩ := manyRun_some_imp _ _ _ _ h
      cases r with
      | nil => simp [run_chr_nil] at hk
      | cons d r =>
        rw [run_chr_cons] at hk
        by_cases hd : d = '>'
        · rw [if_pos hd, run_eot] at hk
          cases r with
          | nil =>
            refine ⟨c :: m, by simp, ?_, by simp [hs, hd]⟩
            intro y hy
            rcases List.mem_cons.1 hy with rfl | hy
            · exact hc
            · exact hm y hy
          | cons e r => simp at hk
        · rw [if_neg hd] at hk
          exact absurd hk (by simp)
    · rw [if_neg hc] at h
      exact absurd h (by simp)

theorem anhangRe_eq : anhangRe = Re.cat .bot anhangBody := rfl

theorem run_anhangBody {α : Type} (n : Nat) (W F : Str) (caps : Caps)
    (k : Str → Str → Caps → Option α) (x : α) (hW : W ∈ anhangWords) (hF : F ≠ [])
    (hdot : ∀ c ∈ F, reDot c = true)
    (hk : k (anhangText W F) [] (caps.set 1 F) = some x) :
    anhangBody.run n (anhangText W F) caps k = some x := by
  have htail : ∀ (w : Str),
      (Re.str w).run n (w ++ (": ".toList ++ (F ++ ['>']))) caps
        (fun m₁ s₁ caps₁ =>
          (Re.cat (Re.str ": ".toList)
            (Re.cat (Re.cap 1 (Re.plus reDot)) (Re.cat (Re.chr '>') Re.eot))).run n s₁ caps₁
            (fun m₂ s₂ caps₂ => k ([ '<' ] ++ (m₁ ++ m₂)) s₂ caps₂))
      = k (anhangText w F) [] (caps.set 1 F) := by
    intro w
    rw [run_str_append, run_cat, run_str_append, run_plusDot_close n F _ _ hF hdot]
    simp [anhangText]
  have hshape : ∀ w, anhangText w F = '<' :: (w ++ (": ".toList ++ (F ++ ['>']))) := by
    intro w; simp [anhangText]
  unfold anhangBody
  rw [hshape, run_cat, run_chr_cons, if_pos rfl, run_cat]
  simp only [anhangWords, List.mem_cons, List.mem_singleton, List.not_mem_nil, or_false] at hW
  rcases hW with rfl | rfl | rfl
  · apply run_alt_of_some
    rw [htail, hk]
  · rw [run_alt_of_none]
    · apply run_alt_of_some
      rw [htail, hk]
    · rw [run_str]; rfl
  · rw [run_alt_of_none]
    · rw [run_alt_of_none]
      · rw [htail, hk]
      · rw [run_str]; rfl
    · rw [run_str]; rfl

theorem run_anhangBody_inv {α : Type} (n : Nat) (s : Str) (caps : Caps)
    (k : Str → Str → Caps → Option α) (x : α) (h : anhangBody.run n s caps k = some x) :
    ∃ W F, W ∈ anhangWords ∧ F ≠ [] ∧ (∀ c ∈ F, reDot c = true) ∧ s = anhangText W F := by
  have hword : ∀ (w t : Str) (y : α),
      (Re.str w).run n t caps
        (fun m₁ s₁ caps₁ =>
          (Re.cat (Re.str ": ".toList)
            (Re.cat (Re.cap 1 (Re.plus reDot)) (Re.cat (Re.chr '>') Re.eot))).run n s₁ caps₁
            (fun m₂ s₂ caps₂ => k ([ '<' ] ++ (m₁ ++ m₂)) s₂ caps₂)) = some y →
      ∃ F, F ≠ [] ∧ (∀ c ∈ F, reDot c = true) ∧ '<' :: t = anhangText w F := by
    intro w t y hy
    rw [run_str] at hy
    by_cases hp : w.isPrefixOf t = true
    · rw [if_pos hp, run_cat, run_str] at hy
      by_cases hp2 : (": ".toList).isPrefixOf (t.drop w.length) = true
      · rw [if_pos hp2] at hy
        obtain ⟨F, hF, hdot, hs⟩ := run_plusDot_close_inv _ _ _ _ _ hy
        refine ⟨F, hF, hdot, ?_⟩
        obtain ⟨t₁, ht₁⟩ := List.isPrefixOf_iff_prefix.1 hp
        obtain ⟨t₂, ht₂⟩ := List.isPrefixOf_iff_prefix.1 hp2
        subst ht₁
        rw [List.drop_left] at ht₂ hs
        subst ht₂
        rw [List.drop_left' (by rfl)] at hs
        subst hs
        simp [anhangText]
      · rw [if_neg hp2] at hy
        exact absurd hy (by simp)
    · rw [if_neg hp] at hy
      exact absurd hy (by simp)
  unfold anhangBody at h
  cases s with
  | nil => simp [run_cat, run_chr_nil] at h
  | cons c t =>
    rw [run_cat, run_chr_cons] at h
    by_cases hc : c = '<'
    · subst hc
      rw [if_pos rfl, run_cat, run_alt] at h
      split at h
      · rename_i y hy
        obtain ⟨F, hF, hdot, hs⟩ := hword _ _ _ hy
        exact ⟨_, F, by simp [anhangWords], hF, hdot, hs⟩
      · rw [run_alt] at h
        split at h
        · rename_i y hy
          obtain ⟨F, hF, hdot, hs⟩ := hword _ _ _ hy
          exact ⟨_, F, by simp [anhangWords], hF, hdot, hs⟩
        · obtain ⟨F, hF, hdot, hs⟩ := hword _ _ _ h
          exact ⟨_, F, by simp [anhangWords], hF, hdot, hs⟩
    · rw [if_neg hc] at h
      exact absurd h (by simp)

/-- `anhangRe` on an attachment reference `<WORD: FILENAME>` whose file
name is not empty and has no line break: group 1 is the file name. -/
theorem anhangRe_find (W F : Str) (hW : W ∈ anhangWords) (hF : F ≠ [])
    (hdot : ∀ c ∈ F, c ≠ '\n') :
    anhangRe.FindStringSubmatch 1 (anhangText W F) = some [anhangText W F, F] := by
  rw [anhangRe_eq, FindStringSubmatch_bot]
  apply run_anhangBody _ W F _ _ _ hW hF
  · intro c hc; exact (reDot_iff c).2 (hdot c hc)
  · rfl

/-- `anhangRe` matches nothing else. -/
theorem anhangRe_find_inv (s : Str) (m : Caps) (h : anhangRe.FindStringSubmatch 1 s = some m) :
    ∃ W F, W ∈ anhangWords ∧ F ≠ [] ∧ (∀ c ∈ F, c ≠ '\n') ∧ s = anhangText W F
      ∧ m = [s, F] := by
  have h' := h
  rw [anhangRe_eq, FindStringSubmatch_bot] at h'
  obtain ⟨W, F, hW, hF, hdot, hs⟩ := run_anhangBody_inv _ _ _ _ _ h'
  have hd : ∀ c ∈ F, c ≠ '\n' := fun c hc => (reDot_iff c).1 (hdot c hc)
  refine ⟨W, F, hW, hF, hd, hs, ?_⟩
  subst hs
  rw [anhangRe_find W F hW hF hd] at h
  exact (Option.some.inj h).symm

/-! ## The pattern `attachedRe` -/

theorem attachedRe_eq :
    attachedRe = Re.alt (reSuffix "(Datei angehängt)".toList) (reSuffix "(file attached)".toList) :=
  rfl

/-- `\s*SUFFIX\s*$` on white space, the suffix, white space. -/
theorem run_reSuffix {α : Type} (n : Nat) (S w₁ w₂ : Str) (caps : Caps)
    (k : Str → Str → Caps → Option α) (x : α)
    (hS : ∀ c, S.head? = some c → reSpace c = false) (hne : S ≠ [])
    (h₁ : ∀ c ∈ w₁, reSpace c = true) (h₂ : ∀ c ∈ w₂, reSpace c = true)
    (hk : k (w₁ ++ S ++ w₂) [] caps = some x) :
    (reSuffix S).run n (w₁ ++ S ++ w₂) caps k = some x := by
  unfold reSuffix
  rw [run_cat, run_many, List.append_assoc]
  apply manyRun_stop reSpace w₁ (S ++ w₂) _ x h₁
  · intro c hc
    cases S with
    | nil => exact absurd rfl hne
    | cons d S => exact hS c (by simpa using hc)
  · rw [run_cat, run_str_append, run_cat, run_many]
    have hw : w₂ = w₂ ++ [] := by simp
    rw [hw]
    apply manyRun_stop reSpace w₂ [] _ x h₂
    · intro c hc; simp at hc
    · rw [run_eot]
      simpa using hk

/-- A match of `\s*SUFFIX\s*$` is white space, the suffix, white space, up
to the end of the text. -/
theorem run_reSuffix_inv {α : Type} (n : Nat) (S t : Str) (caps : Caps)
    (k : Str → Str → Caps → Option α) (x : α) (h : (reSuffix S).run n t caps k = some x) :
    ∃ w₁ w₂, (∀ c ∈ w₁, reSpace c = true) ∧ (∀ c ∈ w₂, reSpace c = true)
      ∧ t = w₁ ++ S ++ w₂ ∧ k t [] caps = some x := by
  unfold reSuffix at h
  rw [run_cat, run_many] at h
  obtain ⟨w₁, r, hs, h₁, hk⟩ := manyRun_some_imp _ _ _ _ h
  rw [run_cat, run_str] at hk
  by_cases hp : S.isPrefixOf r = true
  · rw [if_pos hp, run_cat, run_many] at hk
    obtain ⟨r₁, hr₁⟩ := List.isPrefixOf_iff_prefix.1 hp
    subst hr₁
    rw [List.drop_left] at hk
    obtain ⟨w₂, r₂, hs₂, h₂, hk₂⟩ := manyRun_some_imp _ _ _ _ hk
    rw [run_eot] at hk₂
    cases r₂ with
    | nil =>
      refine ⟨w₁, w₂, h₁, h₂, ?_, ?_⟩
      · rw [hs, hs₂]; simp
      · rw [hs, hs₂]; simpa using hk₂
    | cons d r₂ => simp at hk₂
  · rw [if_neg hp] at hk
    exact absurd hk (by simp)

theorem attachedSuffix_head (S : Str) (hS : S ∈ attachedSuffixes) :
    S ≠ [] ∧ ∀ c, S.head? = some c → reSpace c = false := by
  simp only [attachedSuffixes, List.mem_cons, List.mem_singleton, List.not_mem_nil,
    or_false] at hS
  rcases hS with rfl | rfl <;> decide

/-- `attachedRe` matches at a position exactly when the text from there
is an attachment suffix in white space; the match is all that text. -/
theorem matchAt_attachedRe (n : Nat) (t : Str) (h : isSuffixText t) :
    attachedRe.matchAt 0 n t = some (t, [], [t]) := by
  obtain ⟨S, hS, w₁, w₂, h₁, h₂, ht⟩ := h
  obtain ⟨hne, hhead⟩ := attachedSuffix_head S hS
  subst ht
  rw [attachedRe_eq]
  unfold Re.matchAt
  simp only [attachedSuffixes, List.mem_cons, List.mem_singleton, List.not_mem_nil,
    or_false] at hS
  rcases hS with rfl | rfl
  · apply run_alt_of_some
    exact run_reSuffix n _ w₁ w₂ _ _ _ hhead hne h₁ h₂ rfl
  · rw [run_alt]
    have h2 := run_reSuffix n "(file attached)".toList w₁ w₂ (List.replicate (0 + 1) [])
      (fun m r caps => some (m, r, caps.set 0 m)) _ hhead hne h₁ h₂ rfl
    cases h1 : (reSuffix "(Datei angehängt)".toList).run n
        (w₁ ++ "(file attached)".toList ++ w₂) (List.replicate (0 + 1) [])
        (fun m r caps => some (m, r, caps.set 0 m)) with
    | none => simpa using h2
    | some y =>
      obtain ⟨_, _, _, _, _, hy⟩ := run_reSuffix_inv _ _ _ _ _ _ h1
      simp only []
      rw [← hy]
      rfl

theorem matchAt_attachedRe_inv (n : Nat) (t : Str) (x : Str × Str × Caps)
    (h : attachedRe.matchAt 0 n t = some x) : isSuffixText t := by
  rw [attachedRe_eq] at h
  unfold Re.matchAt at h
  rw [run_alt] at h
  split at h
  · rename_i y hy
    obtain ⟨w₁, w₂, h₁, h₂, ht, _⟩ := run_reSuffix_inv _ _ _ _ _ _ hy
    exact ⟨_, by simp [attachedSuffixes], w₁, w₂, h₁, h₂, ht⟩
  · obtain ⟨w₁, w₂, h₁, h₂, ht, _⟩ := run_reSuffix_inv _ _ _ _ _ _ h
    exact ⟨_, by simp [attachedSuffixes], w₁, w₂, h₁, h₂, ht⟩

theorem matchAt_attachedRe_none (n : Nat) (t : Str) (h : ¬ isSuffixText t) :
    attachedRe.matchAt 0 n t = none := by
  cases hm : attachedRe.matchAt 0 n t with
  | none => rfl
  | some x => exact absurd (matchAt_attachedRe_inv n t x hm) h

/-- The leftmost match: no match from any position. -/
theorem findFrom_none (re : Re) (g n : Nat) (s : Str)
    (h : ∀ t, t <:+ s → re.matchAt g n t = none) : re.findFrom g n s = none := by
  induction s with
  | nil =>
    simp only [Re.findFrom]
    rw [h [] (List.suffix_refl _)]
    rfl
  | cons c cs ih =>
    simp only [Re.findFrom]
    rw [h (c :: cs) (List.suffix_refl _),
      ih (fun t ht => h t (List.IsSuffix.trans ht (List.suffix_cons _ _)))]
    rfl

/-- The leftmost match: it starts at the first position with a match. -/
theorem findFrom_some (re : Re) (g n : Nat) (s : Str) (h : ∃ t, t <:+ s ∧ (re.matchAt g n t).isSome) :
    ∃ P t x, s = P ++ t ∧ re.matchAt g n t = some x ∧ re.findFrom g n s = some (P, x) := by
  induction s with
  | nil =>
    obtain ⟨t, ht, hm⟩ := h
    have ht0 : t = [] := List.suffix_nil.1 ht
    subst ht0
    obtain ⟨x, hx⟩ := Option.isSome_iff_exists.1 hm
    exact ⟨[], [], x, rfl, hx, by simp [Re.findFrom, hx]⟩
  | cons c cs ih =>
    cases hm : re.matchAt g n (c :: cs) with
    | some x => exact ⟨[], c :: cs, x, rfl, hm, by simp [Re.findFrom, hm]⟩
    | none =>
      obtain ⟨t, ht, hmt⟩ := h
      have ht' : t <:+ cs := by
        rcases List.suffix_cons_iff.1 ht with rfl | h'
        · rw [hm] at hmt; simp at hmt
        · exact h'
      obtain ⟨P, t', x, hs, hx, hf⟩ := ih ⟨t, ht', hmt⟩
      exact ⟨c :: P, t', x, by simp [hs], hx, by simp [Re.findFrom, hm, hf]⟩

theorem not_isSuffixText_nil : ¬ isSuffixText [] := by
  rintro ⟨S, hS, w₁, w₂, _, _, ht⟩
  have hne := (attachedSuffix_head S hS).1
  have := congrArg List.length ht
  simp at this
  exact hne (List.length_eq_zero.1 (by omega))

/-- `attachedRe.ReplaceAllString(s, "")` when no end of the text is an
attachment suffix: the text itself. -/
theorem replaceAll_attachedRe_none (s : Str) (h : ∀ t, t <:+ s → ¬ isSuffixText t) :
    attachedRe.ReplaceAllString s [] = s := by
  unfold Re.ReplaceAllString
  simp only [Re.replaceLoop]
  rw [findFrom_none _ _ _ _ (fun t ht => matchAt_attachedRe_none _ t (h t ht))]
  rfl

/-- `attachedRe.ReplaceAllString(s, "")` when an end of the text is an
attachment suffix: the text before the longest such end. -/
theorem replaceAll_attachedRe_some (s : Str) (h : ∃ t, t <:+ s ∧ isSuffixText t) :
    ∃ P t, s = P ++ t ∧ isSuffixText t ∧ attachedRe.ReplaceAllString s [] = P := by
  obtain ⟨t₀, ht₀, hs₀⟩ := h
  obtain ⟨P, t, x, hs, hx, hf⟩ := findFrom_some attachedRe 0 s.length s
    ⟨t₀, ht₀, by rw [matchAt_attachedRe _ _ hs₀]; rfl⟩
  have hst : isSuffixText t := matchAt_attachedRe_inv _ _ _ hx
  rw [matchAt_attachedRe _ _ hst] at hx
  have hx' := (Option.some.inj hx).symm
  subst hx'
  refine ⟨P, t, hs, hst, ?_⟩
  have htne : t ≠ [] := fun e => not_isSuffixText_nil (e ▸ hst)
  have htne' : t.isEmpty = false := by
    cases t with
    | nil => exact absurd rfl htne
    | cons _ _ => rfl
  have hlen : ∃ k, s.length = k + 1 := by
    cases s with
    | nil =>
      have := congrArg List.length hs
      simp at this
      exact absurd (List.length_eq_zero.1 (by omega)) htne
    | cons _ _ => exact ⟨_, rfl⟩
  obtain ⟨k, hk⟩ := hlen
  unfold Re.ReplaceAllString
  simp only [Re.replaceLoop, hf, htne', List.nil_append, Bool.not_false, Bool.true_or, if_true,
    List.append_nil]
  rw [hk]
  simp only [Re.replaceLoop]
  rw [findFrom_none _ _ _ _ (fun t ht => by
    have : t = [] := List.suffix_nil.1 ht
    subst this
    exact matchAt_attachedRe_none _ _ not_isSuffixText_nil)]
  simp

/-! ## The cases of `classifyContent` -/

theorem reSpace_isSpace (c : Char) (h : reSpace c = true) : isSpace c = true := by
  simp only [reSpace, Bool.or_eq_true, beq_iff_eq] at h
  rcases h with (((rfl | rfl) | rfl) | rfl) | rfl <;> decide

theorem count_dropWhile (p : Char → Bool) (c : Char) (l : Str) (hc : p c = false) :
    (l.dropWhile p).count c = l.count c := by
  induction l with
  | nil => rfl
  | cons x l ih =>
    rw [List.dropWhile_cons]
    by_cases hx : p x = true
    · rw [if_pos hx, ih]
      have hne : x ≠ c := by
        intro e; rw [e, hc] at hx; exact absurd hx (by decide)
      rw [List.count_cons_of_ne hne.symm]
    · rw [if_neg hx]

/-- `TrimSpace` removes white space only. -/
theorem count_TrimSpace (c : Char) (l : Str) (hc : isSpace c = false) :
    (TrimSpace l).count c = l.count c := by
  unfold TrimSpace
  rw [List.count_reverse, count_dropWhile _ _ _ hc, List.count_reverse,
    count_dropWhile _ _ _ hc]

theorem dropWhile_append_all (p : Char → Bool) (a w : Str) (hw : ∀ c ∈ w, p c = true) :
    (w ++ a).dropWhile p = a.dropWhile p :=
  List.dropWhile_append_of_pos hw

/-- White space at the end does not change the result of `TrimSpace`. -/
theorem TrimSpace_append_spaces (a w : Str) (hw : ∀ c ∈ w, isSpace c = true) :
    TrimSpace (a ++ w) = TrimSpace a := by
  unfold TrimSpace
  congr 1
  by_cases ha : ∀ c ∈ a, isSpace c = true
  · have h1 : (a ++ w).dropWhile isSpace = [] := by
      rw [List.dropWhile_eq_nil_iff]
      intro x hx
      rcases List.mem_append.1 hx with h | h
      · exact ha x h
      · exact hw x h
    have h2 : a.dropWhile isSpace = [] := List.dropWhile_eq_nil_iff.2 ha
    rw [h1, h2]
  · have h2 : ¬ (a.dropWhile isSpace).isEmpty = true := by
      rw [List.isEmpty_iff, List.dropWhile_eq_nil_iff]
      exact ha
    rw [List.dropWhile_append, if_neg h2, List.reverse_append]
    exact List.dropWhile_append_of_pos (fun c hc => hw c (List.mem_reverse.1 hc))

/-- The text before an attachment suffix is determined. -/
theorem suffix_unique (a a' S S' w w' : Str) (hS : S ∈ attachedSuffixes)
    (hS' : S' ∈ attachedSuffixes) (hw : ∀ c ∈ w, reSpace c = true)
    (hw' : ∀ c ∈ w', reSpace c = true) (h : a ++ S ++ w = a' ++ S' ++ w') : a = a' := by
  have hr := congrArg (fun l => (List.reverse l).dropWhile reSpace) h
  simp only [List.reverse_append, List.append_assoc] at hr
  rw [List.dropWhile_append_of_pos (fun c hc => hw c (List.mem_reverse.1 hc)),
    List.dropWhile_append_of_pos (fun c hc => hw' c (List.mem_reverse.1 hc))] at hr
  simp only [attachedSuffixes, List.mem_cons, List.mem_singleton, List.not_mem_nil,
    or_false] at hS hS'
  rcases hS with rfl | rfl <;> rcases hS' with rfl | rfl <;>
    simp [List.dropWhile, reSpace] at hr
  · exact hr
  · exact hr

theorem classifyMediaFile_fst (F : Str) : (classifyMediaFile F).1 = F := by
  unfold classifyMediaFile
  split_ifs <;> rfl

theorem classifyMediaFile_ref (F : Str) : (classifyMediaFile F).2.2 = F := by
  unfold classifyMediaFile
  split_ifs <;> rfl

theorem count_paren_isSuffixText (t : Str) (h : isSuffixText t) : 0 < t.count ')' := by
  obtain ⟨S, hS, w₁, w₂, _, _, ht⟩ := h
  subst ht
  have hS1 : 0 < S.count ')' := by
    simp only [attachedSuffixes, List.mem_cons, List.mem_singleton, List.not_mem_nil,
      or_false] at hS
    rcases hS with rfl | rfl <;> decide
  simp only [List.count_append]
  omega

theorem anhangRe_none (text : Str)
    (h : ¬ ∃ F, isAnhangRef text F ∧ '\n' ∉ F) : anhangRe.FindStringSubmatch 1 text = none := by
  cases hm : anhangRe.FindStringSubmatch 1 text with
  | none => rfl
  | some m =>
    obtain ⟨W, F, hW, hF, hdot, hs, _⟩ := anhangRe_find_inv text m hm
    exact absurd ⟨F, ⟨hF, W, hW, hs⟩, fun hc => hdot _ hc rfl⟩ h

theorem classifyContent_anhang (text F : Str) (h : isAnhangRef text F) (hnl : '\n' ∉ F) :
    classifyContent text = classifyMediaFile F := by
  obtain ⟨hF, W, hW, rfl⟩ := h
  unfold classifyContent
  rw [anhangRe_find W F hW hF (fun c hc e => hnl (e ▸ hc))]
  rfl

theorem classifyContent_attached (text p : Str) (h1 : ¬ ∃ F, isAnhangRef text F ∧ '\n' ∉ F)
    (h2 : endsAttached text p) :
    classifyContent text = classifyMediaFile (TrimSpace p) := by
  obtain ⟨t', hp, hst'⟩ := h2
  obtain ⟨P, t, hs, hst, hrep⟩ := replaceAll_attachedRe_some text
    ⟨t', by rw [hp]; exact List.suffix_append _ _, hst'⟩
  have hne : TrimSpace P ≠ TrimSpace text := by
    intro e
    have hc := congrArg (List.count ')') e
    rw [count_TrimSpace _ _ (by decide), count_TrimSpace _ _ (by decide), hs,
      List.count_append] at hc
    have := count_paren_isSuffixText t hst
    omega
  have hPp : TrimSpace P = TrimSpace p := by
    obtain ⟨S, hS, w₁, w₂, h₁, h₂, ht⟩ := hst
    obtain ⟨S', hS', w₁', w₂', h₁', h₂', ht'⟩ := hst'
    have heq : (P ++ w₁) ++ S ++ w₂ = (p ++ w₁') ++ S' ++ w₂' := by
      rw [hs, ht, ht'] at hp
      simpa [List.append_assoc] using hp
    have hu := suffix_unique _ _ S S' w₂ w₂' hS hS' h₂ h₂' heq
    rw [← TrimSpace_append_spaces P w₁ (fun c hc => reSpace_isSpace c (h₁ c hc)), hu,
      TrimSpace_append_spaces p w₁' (fun c hc => reSpace_isSpace c (h₁' c hc))]
  unfold classifyContent
  rw [anhangRe_none text h1]
  simp only [hrep, hPp] at hne ⊢
  rw [if_pos hne]

theorem classifyContent_text (text : Str) (h1 : ¬ ∃ F, isAnhangRef text F ∧ '\n' ∉ F)
    (h2 : ¬ ∃ p, endsAttached text p) :
    classifyContent text = (text, TextMessage, []) := by
  have hrep : attachedRe.ReplaceAllString text [] = text := by
    apply replaceAll_attachedRe_none
    intro t ht hst
    obtain ⟨p, hp⟩ := ht
    exact h2 ⟨p, t, hp.symm, hst⟩
  unfold classifyContent
  rw [anhangRe_none text h1]
  simp [hrep]

/-! ## `time.Parse` on the layouts of the parser -/

theorem reDigit_digitChar (k : Nat) (h : k < 10) : reDigit (Nat.digitChar k) = true := by
  interval_cases k <;> decide

theorem digitVal_digitChar (k : Nat) (h : k < 10) : digitVal (Nat.digitChar k) = k := by
  interval_cases k <;> decide

theorem digitChar_ne_blank (k : Nat) (h : k < 10) : (Nat.digitChar k == ' ') = false := by
  interval_cases k <;> decide

theorem getnum_pad2 (n : Nat) (h : n < 100) (rest : Str) (fixed : Bool) :
    getnum (pad2 n ++ rest) fixed = some (n, rest) := by
  have h1 : n / 10 < 10 := by omega
  have h2 : n % 10 < 10 := by omega
  simp only [pad2, List.cons_append, List.nil_append, getnum, isDigit0,
    reDigit_digitChar _ h1, reDigit_digitChar _ h2, digitVal_digitChar _ h1,
    digitVal_digitChar _ h2, Bool.not_true, Bool.false_eq_true, if_false]
  congr 2
  omega

theorem atoi_pad2 (n : Nat) (h : n < 100) : atoi (pad2 n) = some (n : Int) := by
  have h1 : n / 10 < 10 := by omega
  have h2 : n % 10 < 10 := by omega
  have hd : ∀ k, k < 10 → (Nat.digitChar k == '-') = false ∧ (Nat.digitChar k == '+') = false := by
    intro k hk; interval_cases k <;> decide
  have hh : (pad2 n).head? = some (Nat.digitChar (n / 10)) := rfl
  unfold atoi
  simp only [hh, Option.some_beq_some, (hd _ h1).1, (hd _ h1).2, Bool.or_self,
    Bool.false_eq_true, if_false]
  simp only [pad2, leadingInt, reDigit_digitChar _ h1, reDigit_digitChar _ h2,
    digitVal_digitChar _ h1, digitVal_digitChar _ h2, if_true]
  congr 1
  push_cast
  omega

theorem atoi_pad4 (n : Nat) (h : n < 10000) : atoi (pad4 n) = some (n : Int) := by
  have h1 : n / 1000 < 10 := by omega
  have h2 : n / 100 % 10 < 10 := by omega
  have h3 : n / 10 % 10 < 10 := by omega
  have h4 : n % 10 < 10 := by omega
  have hd : ∀ k, k < 10 → (Nat.digitChar k == '-') = false ∧ (Nat.digitChar k == '+') = false := by
    intro k hk; interval_cases k <;> decide
  have hh : (pad4 n).head? = some (Nat.digitChar (n / 1000)) := rfl
  unfold atoi
  simp only [hh, Option.some_beq_some, (hd _ h1).1, (hd _ h1).2, Bool.or_self,
    Bool.false_eq_true, if_false]
  simp only [pad4, leadingInt, reDigit_digitChar _ h1, reDigit_digitChar _ h2,
    reDigit_digitChar _ h3, reDigit_digitChar _ h4,
    digitVal_digitChar _ h1, digitVal_digitChar _ h2, digitVal_digitChar _ h3,
    digitVal_digitChar _ h4, if_true]
  congr 1
  push_cast
  omega

theorem parseStd_ZeroDay (n : Nat) (h : n < 100) (rest : Str) (f : Fields) :
    parseStd .ZeroDay (pad2 n ++ rest) f = some ({ f with day := some n }, rest) := by
  simp only [parseStd, getnum_pad2 n h]

theorem parseStd_ZeroMonth (n : Nat) (h1 : 1 ≤ n) (h2 : n ≤ 12) (rest : Str) (f : Fields) :
    parseStd .ZeroMonth (pad2 n ++ rest) f = some ({ f with month := some n }, rest) := by
  simp only [parseStd, getnum_pad2 n (by omega)]
  rw [if_neg (by omega)]

theorem parseStd_Year (n : Nat) (h : n < 100) (rest : Str) (f : Fields) :
    parseStd .Year (pad2 n ++ rest) f = some ({ f with year := expandYear n }, rest) := by
  have hl : ¬ (pad2 n ++ rest).length < 2 := by simp [pad2]
  have ht : (pad2 n ++ rest).take 2 = pad2 n := by simp [pad2]
  have hd : (pad2 n ++ rest).drop 2 = rest := by simp [pad2]
  simp only [parseStd, hl, if_false, ht, hd, atoi_pad2 n h, expandYear]

theorem parseStd_LongYear (n : Nat) (h : n < 10000) (rest : Str) (f : Fields) :
    parseStd .LongYear (pad4 n ++ rest) f = some ({ f with year := (n : Int) }, rest) := by
  have hl : ¬ (pad4 n ++ rest).length < 4 := by simp [pad4]
  have ht : (pad4 n ++ rest).take 4 = pad4 n := by simp [pad4]
  have hd : (pad4 n ++ rest).drop 4 = rest := by simp [pad4]
  have h0 : isDigit0 (pad4 n ++ rest) = true := by
    simp only [pad4, List.cons_append, isDigit0]
    exact reDigit_digitChar _ (by omega)
  simp only [parseStd, hl, h0, decide_False, Bool.not_true, Bool.or_self, Bool.false_eq_true,
    if_false, ht, hd, atoi_pad4 n h]

theorem parseStd_Hour (n : Nat) (h : n < 24) (rest : Str) (f : Fields) :
    parseStd .Hour (pad2 n ++ rest) f = some ({ f with hour := n }, rest) := by
  simp only [parseStd, getnum_pad2 n (by omega)]
  rw [if_neg (by omega)]

theorem parseStd_ZeroMinute (n : Nat) (h : n < 60) (rest : Str) (f : Fields) :
    parseStd .ZeroMinute (pad2 n ++ rest) f = some ({ f with min := n }, rest) := by
  simp only [parseStd, getnum_pad2 n (by omega)]
  rw [if_neg (by omega)]

theorem parseStd_ZeroSecond_end (n : Nat) (h : n < 60) (f : Fields) :
    parseStd .ZeroSecond (pad2 n) f = some ({ f with sec := n }, []) := by
  have := getnum_pad2 n (by omega) [] true
  rw [List.append_nil] at this
  simp only [parseStd, this]
  rw [if_neg (by omega)]

theorem parseStd_Lit_char (c : Char) (hc : c ≠ ' ') (rest : Str) (f : Fields) :
    parseStd (.Lit [c]) (c :: rest) f = some (f, rest) := by
  simp [parseStd, skip, hc]

theorem parseStd_Lit_commaBlank (n : Nat) (h : n < 100) (rest : Str) (f : Fields) :
    parseStd (.Lit ", ".toList) (',' :: ' ' :: (pad2 n ++ rest)) f = some (f, pad2 n ++ rest) := by
  have hb := digitChar_ne_blank (n / 10) (by omega)
  have h1 : (", ".toList : Str) = [',', ' '] := rfl
  rw [h1]
  simp [parseStd, skip, cutspace, pad2, hb]

/-- `time.Parse("02.01.06, 15:04:05", …)` on a valid date and time of
day. -/
theorem timeParse_shortSec (yy m d h mi s : Nat) (hyy : yy < 100) (hm1 : 1 ≤ m) (hm2 : m ≤ 12)
    (hd1 : 1 ≤ d) (hd2 : d ≤ daysIn m (expandYear yy)) (hh : h < 24) (hmi : mi < 60)
    (hs : s < 60) :
    timeParse layoutShortSec
        ((pad2 d ++ '.' :: (pad2 m ++ '.' :: pad2 yy)) ++ ", ".toList
          ++ (pad2 h ++ ':' :: (pad2 mi ++ ':' :: pad2 s)))
      = some (Date (expandYear yy) m d h mi s 0) := by
  have hd100 : d < 100 := by
    have : daysIn m (expandYear yy) ≤ 31 := by unfold daysIn; split_ifs <;> omega
    omega
  have hshape : (pad2 d ++ '.' :: (pad2 m ++ '.' :: pad2 yy)) ++ ", ".toList
      ++ (pad2 h ++ ':' :: (pad2 mi ++ ':' :: pad2 s))
      = pad2 d ++ ('.' :: (pad2 m ++ ('.' :: (pad2 yy ++ (',' :: ' ' :: (pad2 h ++
          (':' :: (pad2 mi ++ (':' :: pad2 s))))))))) := by
    simp [pad2]
  rw [hshape]
  unfold timeParse layoutShortSec
  have hdot : (".".toList : Str) = ['.'] := rfl
  have hcol : (":".toList : Str) = [':'] := rfl
  simp only [parseLoop, parseStd_ZeroDay d hd100, hdot, hcol,
    parseStd_Lit_char '.' (by decide), parseStd_ZeroMonth m hm1 hm2, parseStd_Year yy hyy,
    parseStd_Lit_commaBlank h (by omega), parseStd_Hour h hh,
    parseStd_Lit_char ':' (by decide), parseStd_ZeroMinute mi hmi, parseStd_ZeroSecond_end s hs]
  simp only [List.isEmpty_nil, Bool.not_true, Bool.false_eq_true, if_false, Option.getD_some]
  rw [if_neg]
  simp only [Bool.or_eq_true, decide_eq_true_eq, not_or]
  omega

theorem timeParse_shortMin (yy m d h mi : Nat) (hyy : yy < 100) (hm1 : 1 ≤ m) (hm2 : m ≤ 12)
    (hd1 : 1 ≤ d) (hd2 : d ≤ daysIn m (expandYear yy)) (hh : h < 24) (hmi : mi < 60) :
    timeParse layoutShortMin
        ((pad2 d ++ '.' :: (pad2 m ++ '.' :: pad2 yy)) ++ ", ".toList
          ++ (pad2 h ++ ':' :: pad2 mi))
      = some (Date (expandYear yy) m d h mi 0 0) := by
  have hd100 : d < 100 := by
    have : daysIn m (expandYear yy) ≤ 31 := by unfold daysIn; split_ifs <;> omega
    omega
  have hshape : (pad2 d ++ '.' :: (pad2 m ++ '.' :: pad2 yy)) ++ ", ".toList
      ++ (pad2 h ++ ':' :: pad2 mi)
      = pad2 d ++ ('.' :: (pad2 m ++ ('.' :: (pad2 yy ++ (',' :: ' ' :: (pad2 h ++
          (':' :: (pad2 mi ++ [])))))))) := by
    simp [pad2]
  rw [hshape]
  unfold timeParse layoutShortMin
  have hdot : (".".toList : Str) = ['.'] := rfl
  have hcol : (":".toList : Str) = [':'] := rfl
  simp only [parseLoop, parseStd_ZeroDay d hd100, hdot, hcol,
    parseStd_Lit_char '.' (by decide), parseStd_ZeroMonth m hm1 hm2, parseStd_Year yy hyy,
    parseStd_Lit_commaBlank h (by omega), parseStd_Hour h hh,
    parseStd_Lit_char ':' (by decide), parseStd_ZeroMinute mi hmi]
  simp only [List.isEmpty_nil, Bool.not_true, Bool.false_eq_true, if_false, Option.getD_some]
  rw [if_neg]
  simp only [Bool.or_eq_true, decide_eq_true_eq, not_or]
  omega

theorem pad4_eq (y : Nat) : pad4 y = pad2 (y / 100) ++ pad2 (y % 100) := by
  have e1 : y / 100 / 10 = y / 1000 := by omega
  have e2 : y % 100 / 10 = y / 10 % 10 := by omega
  have e3 : y % 100 % 10 = y % 10 := by omega
  simp [pad4, pad2, e1, e2, e3]

theorem parseStd_Lit_commaBlank_digit (n : Nat) (h : n < 100) (rest : Str) (f : Fields) :
    parseStd (.Lit ", ".toList) (pad2 n ++ rest) f = none := by
  have hc : ∀ k, k < 10 → Nat.digitChar k ≠ ',' := by
    intro k hk; interval_cases k <;> decide
  have h1 : (", ".toList : Str) = [',', ' '] := rfl
  rw [h1]
  simp [parseStd, skip, pad2, hc (n / 10) (by omega)]

/-- `time.Parse("02.01.06, 15:04:05", …)` fails on a four-digit year. -/
theorem timeParse_shortSec_long (y m d : Nat) (rest : Str) (hy : y < 10000) (hm1 : 1 ≤ m)
    (hm2 : m ≤ 12) (hd : d < 100) :
    timeParse layoutShortSec ((pad2 d ++ '.' :: (pad2 m ++ '.' :: pad4 y)) ++ rest) = none := by
  have hshape : (pad2 d ++ '.' :: (pad2 m ++ '.' :: pad4 y)) ++ rest
      = pad2 d ++ ('.' :: (pad2 m ++ ('.' :: (pad2 (y / 100) ++ (pad2 (y % 100) ++ rest))))) := by
    rw [pad4_eq]
    simp [pad2]
  rw [hshape]
  unfold timeParse layoutShortSec
  have hdot : (".".toList : Str) = ['.'] := rfl
  simp only [parseLoop, parseStd_ZeroDay d hd, hdot,
    parseStd_Lit_char '.' (by decide), parseStd_ZeroMonth m hm1 hm2,
    parseStd_Year (y / 100) (by omega),
    parseStd_Lit_commaBlank_digit (y % 100) (by omega)]

/-- `time.Parse("02.01.2006, 15:04:05", …)` on a valid date and time of
day. -/
theorem timeParse_longSec (y m d h mi s : Nat) (hy : y < 10000) (hm1 : 1 ≤ m) (hm2 : m ≤ 12)
    (hd1 : 1 ≤ d) (hd2 : d ≤ daysIn m (y : Int)) (hh : h < 24) (hmi : mi < 60)
    (hs : s < 60) :
    timeParse layoutLongSec
        ((pad2 d ++ '.' :: (pad2 m ++ '.' :: pad4 y)) ++ ", ".toList
          ++ (pad2 h ++ ':' :: (pad2 mi ++ ':' :: pad2 s)))
      = some (Date (y : Int) m d h mi s 0) := by
  have hd100 : d < 100 := by
    have : daysIn m (y : Int) ≤ 31 := by unfold daysIn; split_ifs <;> omega
    omega
  have hshape : (pad2 d ++ '.' :: (pad2 m ++ '.' :: pad4 y)) ++ ", ".toList
      ++ (pad2 h ++ ':' :: (pad2 mi ++ ':' :: pad2 s))
      = pad2 d ++ ('.' :: (pad2 m ++ ('.' :: (pad4 y ++ (',' :: ' ' :: (pad2 h ++
          (':' :: (pad2 mi ++ (':' :: pad2 s))))))))) := by
    simp [pad2, pad4]
  rw [hshape]
  unfold timeParse layoutLongSec
  have hdot : (".".toList : Str) = ['.'] := rfl
  have hcol : (":".toList : Str) = [':'] := rfl
  simp only [parseLoop, parseStd_ZeroDay d hd100, hdot, hcol,
    parseStd_Lit_char '.' (by decide), parseStd_ZeroMonth m hm1 hm2, parseStd_LongYear y hy,
    parseStd_Lit_commaBlank h (by omega), parseStd_Hour h hh,
    parseStd_Lit_char ':' (by decide), parseStd_ZeroMinute mi hmi, parseStd_ZeroSecond_end s hs]
  simp only [List.isEmpty_nil, Bool.not_true, Bool.false_eq_true, if_false, Option.getD_some]
  rw [if_neg]
  simp only [Bool.or_eq_true, decide_eq_true_eq, not_or]
  omega

/-- `parseIOSTimestamp` on a date with a two-digit year. -/
theorem parseIOSTimestamp_short (yy m d h mi s : Nat) (hyy : yy < 100) (hm1 : 1 ≤ m)
    (hm2 : m ≤ 12) (hd1 : 1 ≤ d) (hd2 : d ≤ daysIn m (expandYear yy)) (hh : h < 24)
    (hmi : mi < 60) (hs : s < 60) :
    parseIOSTimestamp (pad2 d ++ '.' :: (pad2 m ++ '.' :: pad2 yy))
        (pad2 h ++ ':' :: (pad2 mi ++ ':' :: pad2 s))
      = some (Date (expandYear yy) m d h mi s 0) := by
  unfold parseIOSTimestamp
  rw [timeParse_shortSec yy m d h mi s hyy hm1 hm2 hd1 hd2 hh hmi hs]

/-- `parseIOSTimestamp` on a date with a four-digit year: the first
layout fails, the second gives the date. -/
theorem parseIOSTimestamp_long (y m d h mi s : Nat) (hy : y < 10000) (hm1 : 1 ≤ m)
    (hm2 : m ≤ 12) (hd1 : 1 ≤ d) (hd2 : d ≤ daysIn m (y : Int)) (hh : h < 24)
    (hmi : mi < 60) (hs : s < 60) :
    parseIOSTimestamp (pad2 d ++ '.' :: (pad2 m ++ '.' :: pad4 y))
        (pad2 h ++ ':' :: (pad2 mi ++ ':' :: pad2 s))
      = some (Date (y : Int) m d h mi s 0) := by
  have hd100 : d < 100 := by
    have : daysIn m (y : Int) ≤ 31 := by unfold daysIn; split_ifs <;> omega
    omega
  unfold parseIOSTimestamp
  rw [List.append_assoc, timeParse_shortSec_long y m d _ hy hm1 hm2 hd100, ← List.append_assoc,
    timeParse_longSec y m d h mi s hy hm1 hm2 hd1 hd2 hh hmi hs]

/-! ## The message patterns `iosRe` and `androidRe` -/

theorem iosRe_eq : iosRe = Re.cat .bot iosBody := rfl

theorem androidRe_eq : androidRe = Re.cat .bot androidBody := rfl

theorem run_reD2 {α : Type} (n : Nat) (a b : Char) (s : Str) (caps : Caps)
    (k : Str → Str → Caps → Option α) (ha : reDigit a = true) (hb : reDigit b = true) :
    reD2.run n (a :: b :: s) caps k = k [a, b] s caps := by
  simp [reD2, run_cat, run_cls_cons, ha, hb]

/-- `\d{2}\.\d{2}\.\d{2}` on a date with a two-digit year. -/
theorem run_reDateAndroid {α : Type} (n : Nat) (d₁ d₂ m₁ m₂ y₁ y₂ : Char) (s : Str) (caps : Caps)
    (k : Str → Str → Caps → Option α) (hd₁ : reDigit d₁ = true) (hd₂ : reDigit d₂ = true)
    (hm₁ : reDigit m₁ = true) (hm₂ : reDigit m₂ = true) (hy₁ : reDigit y₁ = true)
    (hy₂ : reDigit y₂ = true) :
    reDateAndroid.run n (d₁ :: d₂ :: '.' :: m₁ :: m₂ :: '.' :: y₁ :: y₂ :: s) caps k
      = k [d₁, d₂, '.', m₁, m₂, '.', y₁, y₂] s caps := by
  simp [reDateAndroid, Re.seq, run_cat, run_reD2, run_chr_cons, hd₁, hd₂, hm₁, hm₂, hy₁, hy₂]

/-- `\d{2}\.\d{2}\.\d{2,4}` on a date with a two-digit year, before a
character that is no digit. -/
theorem run_reDateIOS_two {α : Type} (n : Nat) (d₁ d₂ m₁ m₂ y₁ y₂ c : Char) (s : Str)
    (caps : Caps) (k : Str → Str → Caps → Option α) (hd₁ : reDigit d₁ = true)
    (hd₂ : reDigit d₂ = true) (hm₁ : reDigit m₁ = true) (hm₂ : reDigit m₂ = true)
    (hy₁ : reDigit y₁ = true) (hy₂ : reDigit y₂ = true) (hc : reDigit c = false) :
    reDateIOS.run n (d₁ :: d₂ :: '.' :: m₁ :: m₂ :: '.' :: y₁ :: y₂ :: c :: s) caps k
      = k [d₁, d₂, '.', m₁, m₂, '.', y₁, y₂] (c :: s) caps := by
  simp [reDateIOS, reD2to4, Re.opt, Re.seq, run_cat, run_reD2, run_chr_cons, run_cls_cons,
    run_alt, run_eps, hd₁, hd₂, hm₁, hm₂, hy₁, hy₂, hc]

/-- `\d{2}\.\d{2}\.\d{2,4}` on a date with a four-digit year: the longest
year is tried first. -/
theorem run_reDateIOS_four {α : Type} (n : Nat) (d₁ d₂ m₁ m₂ y₁ y₂ y₃ y₄ : Char) (s : Str)
    (caps : Caps) (k : Str → Str → Caps → Option α) (x : α) (hd₁ : reDigit d₁ = true)
    (hd₂ : reDigit d₂ = true) (hm₁ : reDigit m₁ = true) (hm₂ : reDigit m₂ = true)
    (hy₁ : reDigit y₁ = true) (hy₂ : reDigit y₂ = true) (hy₃ : reDigit y₃ = true)
    (hy₄ : reDigit y₄ = true)
    (hk : k [d₁, d₂, '.', m₁, m₂, '.', y₁, y₂, y₃, y₄] s caps = some x) :
    reDateIOS.run n (d₁ :: d₂ :: '.' :: m₁ :: m₂ :: '.' :: y₁ :: y₂ :: y₃ :: y₄ :: s) caps k
      = some x := by
  simp [reDateIOS, reD2to4, Re.opt, Re.seq, run_cat, run_reD2, run_chr_cons, run_cls_cons,
    run_alt, run_eps, hd₁, hd₂, hm₁, hm₂, hy₁, hy₂, hy₃, hy₄, hk]

/-- `\d{2}:\d{2}:\d{2}`. -/
theorem run_reTimeIOS {α : Type} (n : Nat) (h₁ h₂ i₁ i₂ s₁ s₂ : Char) (s : Str) (caps : Caps)
    (k : Str → Str → Caps → Option α) (hh₁ : reDigit h₁ = true) (hh₂ : reDigit h₂ = true)
    (hi₁ : reDigit i₁ = true) (hi₂ : reDigit i₂ = true) (hs₁ : reDigit s₁ = true)
    (hs₂ : reDigit s₂ = true) :
    reTimeIOS.run n (h₁ :: h₂ :: ':' :: i₁ :: i₂ :: ':' :: s₁ :: s₂ :: s) caps k
      = k [h₁, h₂, ':', i₁, i₂, ':', s₁, s₂] s caps := by
  simp [reTimeIOS, Re.seq, run_cat, run_reD2, run_chr_cons, hh₁, hh₂, hi₁, hi₂, hs₁, hs₂]

/-- `\d{2}:\d{2}`. -/
theorem run_reTimeAndroid {α : Type} (n : Nat) (h₁ h₂ i₁ i₂ : Char) (s : Str) (caps : Caps)
    (k : Str → Str → Caps → Option α) (hh₁ : reDigit h₁ = true) (hh₂ : reDigit h₂ = true)
    (hi₁ : reDigit i₁ = true) (hi₂ : reDigit i₂ = true) :
    reTimeAndroid.run n (h₁ :: h₂ :: ':' :: i₁ :: i₂ :: s) caps k
      = k [h₁, h₂, ':', i₁, i₂] s caps := by
  simp [reTimeAndroid, Re.seq, run_cat, run_reD2, run_chr_cons, hh₁, hh₂, hi₁, hi₂]

/-- `([^:]+): (.*)$` on a sender without colon and a text without line
break: the sender is all up to the first colon, the text all the rest. -/
theorem run_reSenderText {α : Type} (n : Nat) (sender text : Str) (caps : Caps)
    (k : Str → Str → Caps → Option α) (x : α) (hne : sender ≠ []) (hcolon : ':' ∉ sender)
    (hline : '\n' ∉ text)
    (hk : k (sender ++ ':' :: ' ' :: text) [] ((caps.set 3 sender).set 4 text) = some x) :
    reSenderText.run n (sender ++ ':' :: ' ' :: text) caps k = some x := by
  cases sender with
  | nil => exact absurd rfl hne
  | cons c sender =>
    have hc : reNotColon c = true := by
      simp only [reNotColon, bne_iff_ne, ne_eq]
      intro e; exact hcolon (by simp [e])
    have hs : ∀ y ∈ sender, reNotColon y = true := by
      intro y hy
      simp only [reNotColon, bne_iff_ne, ne_eq]
      intro e; exact hcolon (List.mem_cons_of_mem _ (e ▸ hy))
    have ht : ∀ y ∈ text, reDot y = true := by
      intro y hy
      simp only [reDot, bne_iff_ne, ne_eq]
      intro e; exact hline (e ▸ hy)
    have hcs : (": ".toList : Str) = [':', ' '] := rfl
    simp only [reSenderText, Re.seq, Re.plus, run_cat, run_cap, List.cons_append, run_cls_cons,
      hc, if_true, run_many, hcs, Re.str, run_chr_cons, run_eps]
    apply manyRun_stop reNotColon sender (':' :: ' ' :: text) _ x hs
    · intro y hy
      simp only [List.head?_cons, Option.some.injEq] at hy
      subst hy
      rfl
    · have hw : text = text ++ [] := by simp
      rw [hw]
      apply manyRun_stop reDot text [] _ x ht
      · intro y hy; simp at hy
      · rw [run_eot]
        simpa using hk

theorem iosRe_find_short (d m yy h mi sc : Nat) (sender text : Str) (hd : d < 100) (hm : m < 100)
    (hyy : yy < 100) (hh : h < 100) (hmi : mi < 100) (hsc : sc < 100) (hne : sender ≠ [])
    (hcolon : ':' ∉ sender) (hline : '\n' ∉ text) :
    iosRe.FindStringSubmatch 4 (iosLine (dateShort d m yy) (timeSec h mi sc) sender text)
      = some [iosLine (dateShort d m yy) (timeSec h mi sc) sender text, dateShort d m yy,
          timeSec h mi sc, sender, text] := by
  have hshape : iosLine (dateShort d m yy) (timeSec h mi sc) sender text
      = '[' :: Nat.digitChar (d / 10) :: Nat.digitChar (d % 10) :: '.'
        :: Nat.digitChar (m / 10) :: Nat.digitChar (m % 10) :: '.'
        :: Nat.digitChar (yy / 10) :: Nat.digitChar (yy % 10) :: ',' :: ' '
        :: Nat.digitChar (h / 10) :: Nat.digitChar (h % 10) :: ':'
        :: Nat.digitChar (mi / 10) :: Nat.digitChar (mi % 10) :: ':'
        :: Nat.digitChar (sc / 10) :: Nat.digitChar (sc % 10) :: ']' :: ' '
        :: (sender ++ ':' :: ' ' :: text) := by
    simp [iosLine, dateShort, timeSec, pad2]
  have h1 : (", ".toList : Str) = [',', ' '] := rfl
  have h2 : ("] ".toList : Str) = [']', ' '] := rfl
  have hcomma : reDigit ',' = false := by decide
  rw [iosRe_eq, FindStringSubmatch_bot, hshape]
  simp only [iosBody, Re.seq, run_cat, run_chr_cons, if_true, run_cap, h1, h2, Re.str, run_eps,
    run_reDateIOS_two _ _ _ _ _ _ _ _ _ _ _ (reDigit_digitChar (d / 10) (by omega))
      (reDigit_digitChar (d % 10) (by omega)) (reDigit_digitChar (m / 10) (by omega))
      (reDigit_digitChar (m % 10) (by omega)) (reDigit_digitChar (yy / 10) (by omega))
      (reDigit_digitChar (yy % 10) (by omega)) hcomma,
    run_reTimeIOS _ _ _ _ _ _ _ _ _ _ (reDigit_digitChar (h / 10) (by omega))
      (reDigit_digitChar (h % 10) (by omega)) (reDigit_digitChar (mi / 10) (by omega))
      (reDigit_digitChar (mi % 10) (by omega)) (reDigit_digitChar (sc / 10) (by omega))
      (reDigit_digitChar (sc % 10) (by omega))]
  apply run_reSenderText _ sender text _ _ _ hne hcolon hline
  simp [List.replicate, dateShort, timeSec, pad2]

theorem iosRe_find_long (d m y h mi sc : Nat) (sender text : Str) (hd : d < 100) (hm : m < 100)
    (hy : y < 10000) (hh : h < 100) (hmi : mi < 100) (hsc : sc < 100) (hne : sender ≠ [])
    (hcolon : ':' ∉ sender) (hline : '\n' ∉ text) :
    iosRe.FindStringSubmatch 4 (iosLine (dateLong d m y) (timeSec h mi sc) sender text)
      = some [iosLine (dateLong d m y) (timeSec h mi sc) sender text, dateLong d m y,
          timeSec h mi sc, sender, text] := by
  have hshape : iosLine (dateLong d m y) (timeSec h mi sc) sender text
      = '[' :: Nat.digitChar (d / 10) :: Nat.digitChar (d % 10) :: '.'
        :: Nat.digitChar (m / 10) :: Nat.digitChar (m % 10) :: '.'
        :: Nat.digitChar (y / 1000) :: Nat.digitChar (y / 100 % 10)
        :: Nat.digitChar (y / 10 % 10) :: Nat.digitChar (y % 10) :: ',' :: ' '
        :: Nat.digitChar (h / 10) :: Nat.digitChar (h % 10) :: ':'
        :: Nat.digitChar (mi / 10) :: Nat.digitChar (mi % 10) :: ':'
        :: Nat.digitChar (sc / 10) :: Nat.digitChar (sc % 10) :: ']' :: ' '
        :: (sender ++ ':' :: ' ' :: text) := by
    simp [iosLine, dateLong, timeSec, pad2, pad4]
  have h1 : (", ".toList : Str) = [',', ' '] := rfl
  have h2 : ("] ".toList : Str) = [']', ' '] := rfl
  rw [iosRe_eq, FindStringSubmatch_bot, hshape]
  simp only [iosBody, Re.seq, run_cat, run_chr_cons, if_true, run_cap]
  apply run_reDateIOS_four _ _ _ _ _ _ _ _ _ _ _ _ _ (reDigit_digitChar (d / 10) (by omega))
      (reDigit_digitChar (d % 10) (by omega)) (reDigit_digitChar (m / 10) (by omega))
      (reDigit_digitChar (m % 10) (by omega)) (reDigit_digitChar (y / 1000) (by omega))
      (reDigit_digitChar (y / 100 % 10) (by omega)) (reDigit_digitChar (y / 10 % 10) (by omega))
      (reDigit_digitChar (y % 10) (by omega))
  simp only [h1, h2, Re.str, run_cat, run_chr_cons, if_true, run_eps, run_cap,
    run_reTimeIOS _ _ _ _ _ _ _ _ _ _ (reDigit_digitChar (h / 10) (by omega))
      (reDigit_digitChar (h % 10) (by omega)) (reDigit_digitChar (mi / 10) (by omega))
      (reDigit_digitChar (mi % 10) (by omega)) (reDigit_digitChar (sc / 10) (by omega))
      (reDigit_digitChar (sc % 10) (by omega))]
  apply run_reSenderText _ sender text _ _ _ hne hcolon hline
  simp [List.replicate, dateLong, timeSec, pad2, pad4]

theorem androidLine_shape (d m yy h mi : Nat) (sender text : Str) :
    androidLine (dateShort d m yy) (timeMin h mi) sender text
      = Nat.digitChar (d / 10) :: Nat.digitChar (d % 10) :: '.'
        :: Nat.digitChar (m / 10) :: Nat.digitChar (m % 10) :: '.'
        :: Nat.digitChar (yy / 10) :: Nat.digitChar (yy % 10) :: ',' :: ' '
        :: Nat.digitChar (h / 10) :: Nat.digitChar (h % 10) :: ':'
        :: Nat.digitChar (mi / 10) :: Nat.digitChar (mi % 10) :: ' ' :: '-' :: ' '
        :: (sender ++ ':' :: ' ' :: text) := by
  simp [androidLine, dateShort, timeMin, pad2]

theorem androidRe_find (d m yy h mi : Nat) (sender text : Str) (hd : d < 100) (hm : m < 100)
    (hyy : yy < 100) (hh : h < 100) (hmi : mi < 100) (hne : sender ≠ [])
    (hcolon : ':' ∉ sender) (hline : '\n' ∉ text) :
    androidRe.FindStringSubmatch 4 (androidLine (dateShort d m yy) (timeMin h mi) sender text)
      = some [androidLine (dateShort d m yy) (timeMin h mi) sender text, dateShort d m yy,
          timeMin h mi, sender, text] := by
  have h1 : (", ".toList : Str) = [',', ' '] := rfl
  have h2 : (" - ".toList : Str) = [' ', '-', ' '] := rfl
  rw [androidRe_eq, FindStringSubmatch_bot, androidLine_shape]
  simp only [androidBody, Re.seq, run_cat, run_chr_cons, if_true, run_cap, h1, h2, Re.str,
    run_eps,
    run_reDateAndroid _ _ _ _ _ _ _ _ _ _ (reDigit_digitChar (d / 10) (by omega))
      (reDigit_digitChar (d % 10) (by omega)) (reDigit_digitChar (m / 10) (by omega))
      (reDigit_digitChar (m % 10) (by omega)) (reDigit_digitChar (yy / 10) (by omega))
      (reDigit_digitChar (yy % 10) (by omega)),
    run_reTimeAndroid _ _ _ _ _ _ _ _ (reDigit_digitChar (h / 10) (by omega))
      (reDigit_digitChar (h % 10) (by omega)) (reDigit_digitChar (mi / 10) (by omega))
      (reDigit_digitChar (mi % 10) (by omega))]
  apply run_reSenderText _ sender text _ _ _ hne hcolon hline
  simp [List.replicate, dateShort, timeMin, pad2]

/-- The iOS pattern does not match an Android line: it does not begin
with `[`. -/
theorem iosRe_androidLine (d m yy h mi : Nat) (sender text : Str) (hd : d < 100) :
    iosRe.FindStringSubmatch 4 (androidLine (dateShort d m yy) (timeMin h mi) sender text)
      = none := by
  have hb : ∀ k, k < 10 → Nat.digitChar k ≠ '[' := by
    intro k hk; interval_cases k <;> decide
  rw [iosRe_eq, FindStringSubmatch_bot, androidLine_shape]
  simp only [iosBody, Re.seq, run_cat, run_chr_cons, if_neg (hb (d / 10) (by omega))]

theorem classifyContent_plain (text : Str) (h : ¬ attachmentRef text) :
    classifyContent text = (text, TextMessage, []) := by
  apply classifyContent_text
  · rintro ⟨F, hF, _⟩
    exact h (Or.inl ⟨F, hF⟩)
  · intro hp
    exact h (Or.inr hp)

theorem daysIn_le (m : Nat) (y : Int) : daysIn m y ≤ 31 := by
  unfold daysIn
  split_ifs <;> omega

theorem parseMessageLine_iosShort (yy m d h mi sc : Nat) (sender text : Str) (hyy : yy < 100)
    (hm1 : 1 ≤ m) (hm2 : m ≤ 12) (hd1 : 1 ≤ d) (hd2 : d ≤ daysIn m (expandYear yy))
    (hh : h < 24) (hmi : mi < 60) (hsc : sc < 60) (hne : sender ≠ []) (hcolon : ':' ∉ sender)
    (hline : '\n' ∉ text) (htext : ¬ attachmentRef text) :
    parseMessageLine (iosLine (dateShort d m yy) (timeSec h mi sc) sender text)
      = some { Timestamp := Date (expandYear yy) m d h mi sc 0, Sender := sender,
               Content := text, Typ := TextMessage, MediaRef := [] } := by
  have hd100 : d < 100 := by have := daysIn_le m (expandYear yy); omega
  have hts := parseIOSTimestamp_short yy m d h mi sc hyy hm1 hm2 hd1 hd2 hh hmi hsc
  have hdate : dateShort d m yy = pad2 d ++ '.' :: (pad2 m ++ '.' :: pad2 yy) := by
    simp [dateShort, pad2]
  have htime : timeSec h mi sc = pad2 h ++ ':' :: (pad2 mi ++ ':' :: pad2 sc) := by
    simp [timeSec, pad2]
  rw [← hdate, ← htime] at hts
  unfold parseMessageLine
  rw [iosRe_find_short d m yy h mi sc sender text hd100 (by omega) hyy (by omega) (by omega)
    (by omega) hne hcolon hline]
  simp only [sub, List.getD_cons_succ, List.getD_cons_zero, hts, classifyContent_plain text htext]

theorem parseMessageLine_iosLong (y m d h mi sc : Nat) (sender text : Str) (hy : y < 10000)
    (hm1 : 1 ≤ m) (hm2 : m ≤ 12) (hd1 : 1 ≤ d) (hd2 : d ≤ daysIn m (y : Int))
    (hh : h < 24) (hmi : mi < 60) (hsc : sc < 60) (hne : sender ≠ []) (hcolon : ':' ∉ sender)
    (hline : '\n' ∉ text) (htext : ¬ attachmentRef text) :
    parseMessageLine (iosLine (dateLong d m y) (timeSec h mi sc) sender text)
      = some { Timestamp := Date (y : Int) m d h mi sc 0, Sender := sender,
               Content := text, Typ := TextMessage, MediaRef := [] } := by
  have hd100 : d < 100 := by have := daysIn_le m (y : Int); omega
  have hts := parseIOSTimestamp_long y m d h mi sc hy hm1 hm2 hd1 hd2 hh hmi hsc
  have hdate : dateLong d m y = pad2 d ++ '.' :: (pad2 m ++ '.' :: pad4 y) := by
    simp [dateLong, pad2]
  have htime : timeSec h mi sc = pad2 h ++ ':' :: (pad2 mi ++ ':' :: pad2 sc) := by
    simp [timeSec, pad2]
  rw [← hdate, ← htime] at hts
  unfold parseMessageLine
  rw [iosRe_find_long d m y h mi sc sender text hd100 (by omega) hy (by omega) (by omega)
    (by omega) hne hcolon hline]
  simp only [sub, List.getD_cons_succ, List.getD_cons_zero, hts, classifyContent_plain text htext]

theorem parseMessageLine_android (yy m d h mi : Nat) (sender text : Str) (hyy : yy < 100)
    (hm1 : 1 ≤ m) (hm2 : m ≤ 12) (hd1 : 1 ≤ d) (hd2 : d ≤ daysIn m (expandYear yy))
    (hh : h < 24) (hmi : mi < 60) (hne : sender ≠ []) (hcolon : ':' ∉ sender)
    (hline : '\n' ∉ text) (htext : ¬ attachmentRef text) :
    parseMessageLine (androidLine (dateShort d m yy) (timeMin h mi) sender text)
      = some { Timestamp := Date (expandYear yy) m d h mi 0 0, Sender := sender,
               Content := text, Typ := TextMessage, MediaRef := [] } := by
  have hd100 : d < 100 := by have := daysIn_le m (expandYear yy); omega
  have hts := timeParse_shortMin yy m d h mi hyy hm1 hm2 hd1 hd2 hh hmi
  have hdate : dateShort d m yy = pad2 d ++ '.' :: (pad2 m ++ '.' :: pad2 yy) := by
    simp [dateShort, pad2]
  have htime : timeMin h mi = pad2 h ++ ':' :: pad2 mi := by
    simp [timeMin, pad2]
  rw [← hdate, ← htime] at hts
  unfold parseMessageLine
  rw [iosRe_androidLine d m yy h mi sender text hd100,
    androidRe_find d m yy h mi sender text hd100 (by omega) hyy (by omega) (by omega)
    hne hcolon hline]
  simp only [sub, List.getD_cons_succ, List.getD_cons_zero, hts, classifyContent_plain text htext]

/-- A text that does not begin with `<` and has no closing parenthesis is
no attachment reference. -/
theorem not_attachmentRef (text : Str) (h1 : text.head? ≠ some '<')
    (h2 : text.count ')' = 0) : ¬ attachmentRef text := by
  rintro (⟨F, _, W, _, h⟩ | ⟨p, t, hp, hst⟩)
  · rw [h] at h1
    exact h1 rfl
  · have hc := count_paren_isSuffixText t hst
    rw [hp, List.count_append] at h2
    omega

/-! ## The calendar: `Date` and the fields of a time agree -/

set_option maxHeartbeats 0 in
set_option maxRecDepth 100000 in
/-- The year of a day within its 400-year era is recovered from the day
number. -/
theorem yoe_of_doe (yoe doy : Int) (h0 : 0 ≤ yoe) (h1 : yoe < 400) (hd0 : 0 ≤ doy)
    (hd1 : doy ≤ 365)
    (hleap : doy = 365 → (yoe + 1) % 4 = 0 ∧ ((yoe + 1) % 100 ≠ 0 ∨ yoe = 399)) :
    ((yoe * 365 + yoe / 4 - yoe / 100 + doy)
        - (yoe * 365 + yoe / 4 - yoe / 100 + doy) / 1460
        + (yoe * 365 + yoe / 4 - yoe / 100 + doy) / 36524
        - (yoe * 365 + yoe / 4 - yoe / 100 + doy) / 146096) / 365 = yoe := by
  interval_cases yoe <;> omega

theorem isLeap_iff (y : Int) :
    isLeap y = true ↔ (y % 4 = 0 ∧ (y % 100 ≠ 0 ∨ y % 400 = 0)) := by
  simp [isLeap]

/-- The day of the year that begins on 1 March, and its month and day. -/
theorem doy_facts (y : Int) (m d : Nat) (hm1 : 1 ≤ m) (hm2 : m ≤ 12) (hd1 : 1 ≤ d)
    (hd2 : d ≤ daysIn m y) :
    ∃ mp doy : Int, mp = (if m > 2 then (m : Int) - 3 else (m : Int) + 9)
      ∧ doy = (153 * mp + 2) / 5 + (d : Int) - 1
      ∧ 0 ≤ doy ∧ doy ≤ 365 ∧ (doy = 365 → isLeap y = true ∧ m = 2)
      ∧ (5 * doy + 2) / 153 = mp
      ∧ doy - (153 * mp + 2) / 5 + 1 = (d : Int) := by
  refine ⟨_, _, rfl, rfl, ?_⟩
  have hl : isLeap y = true ∨ isLeap y = false := by cases isLeap y <;> simp
  interval_cases m <;> rcases hl with hl | hl <;> simp [daysIn, hl] at hd2 ⊢ <;> omega

theorem civil_roundtrip (y : Int) (m d : Nat) (hm1 : 1 ≤ m) (hm2 : m ≤ 12) (hd1 : 1 ≤ d)
    (hd2 : d ≤ daysIn m y) :
    civilFromDays (daysFromCivil y m d) = (y, m, d) := by
  obtain ⟨mp, doy, hmp, hdoy, hdoy0, hdoy1, hleap, hmp', hd'⟩ := doy_facts y m d hm1 hm2 hd1 hd2
  unfold civilFromDays daysFromCivil
  simp only []
  rw [← hmp, ← hdoy]
  generalize hy' : (if m ≤ 2 then y - 1 else y) = y'
  generalize hera : y' / 400 = era
  generalize hyoe : y' - era * 400 = yoe
  have hyoe0 : 0 ≤ yoe := by omega
  have hyoe1 : yoe < 400 := by omega
  have hleap' : doy = 365 → (yoe + 1) % 4 = 0 ∧ ((yoe + 1) % 100 ≠ 0 ∨ yoe = 399) := by
    intro h365
    obtain ⟨hl, hm⟩ := hleap h365
    rw [isLeap_iff] at hl
    subst hm
    simp only [le_refl, if_true] at hy'
    omega
  have hkey := yoe_of_doe yoe doy hyoe0 hyoe1 hdoy0 hdoy1 hleap'
  generalize hdoe : yoe * 365 + yoe / 4 - yoe / 100 + doy = doe at hkey ⊢
  have hdoe0 : 0 ≤ doe := by omega
  have hdoe1 : doe ≤ 146096 := by
    by_cases h365 : doy = 365
    · obtain ⟨_, _⟩ := hleap' h365
      omega
    · omega
  have hz : (era * 146097 + doe - 719468 + 719468) / 146097 = era := by omega
  rw [hz]
  have hdoe' : era * 146097 + doe - 719468 + 719468 - era * 146097 = doe := by omega
  rw [hdoe', hkey]
  have hdoy' : doe - (365 * yoe + yoe / 4 - yoe / 100) = doy := by omega
  rw [hdoy', hmp', hd']
  have hm' : (if mp < 10 then mp + 3 else mp - 9) = (m : Int) := by
    rw [hmp]; split_ifs <;> omega
  rw [hm']
  have hy : (if (m : Int) ≤ 2 then yoe + era * 400 + 1 else yoe + era * 400) = y := by
    split_ifs at hy' ⊢ <;> omega
  rw [hy]
  simp

theorem Date_unix (y : Int) (m d h mi sc ns : Nat) (hh : h < 24) (hmi : mi < 60) (hsc : sc < 60)
    (hns : ns < 1000000000) :
    (Date y m d h mi sc ns).unix / 86400 = daysFromCivil y m d
    ∧ (Date y m d h mi sc ns).unix % 86400 = (h : Int) * 3600 + (mi : Int) * 60 + (sc : Int) := by
  unfold Time.unix Date
  simp only []
  generalize daysFromCivil y m d = days
  constructor <;> omega

/-- The fields of `time.Date(y, m, d, h, mi, sc, ns, UTC)` for a valid
date and time of day are the arguments. -/
theorem Date_fields (y : Int) (m d h mi sc ns : Nat) (hm1 : 1 ≤ m) (hm2 : m ≤ 12) (hd1 : 1 ≤ d)
    (hd2 : d ≤ daysIn m y) (hh : h < 24) (hmi : mi < 60) (hsc : sc < 60)
    (hns : ns < 1000000000) :
    (Date y m d h mi sc ns).Year = y ∧ (Date y m d h mi sc ns).Month = m
    ∧ (Date y m d h mi sc ns).Day = d ∧ (Date y m d h mi sc ns).Hour = h
    ∧ (Date y m d h mi sc ns).Minute = mi ∧ (Date y m d h mi sc ns).Second = sc := by
  obtain ⟨h1, h2⟩ := Date_unix y m d h mi sc ns hh hmi hsc hns
  unfold Time.Year Time.Month Time.Day Time.Hour Time.Minute Time.Second
  rw [h1, h2, civil_roundtrip y m d hm1 hm2 hd1 hd2]
  refine ⟨rfl, rfl, rfl, ?_, ?_, ?_⟩ <;> omega

theorem toDigitsCore_append (fuel n : Nat) (ds : List Char) (h : n < fuel) :
    Nat.toDigitsCore 10 fuel n ds = Nat.toDigits 10 n ++ ds := by
  induction fuel using Nat.strong_induction_on generalizing n ds with
  | _ fuel ih =>
    cases fuel with
    | zero => omega
    | succ f =>
      unfold Nat.toDigits
      simp only [Nat.toDigitsCore]
      by_cases h0 : n / 10 = 0
      · simp [h0]
      · rw [if_neg h0, if_neg h0, ih f (by omega) (n / 10) _ (by omega),
          ih n (by omega) (n / 10) _ (by omega)]
        simp

theorem toDigits_small (n : Nat) (h : n < 10) : Nat.toDigits 10 n = [Nat.digitChar n] := by
  interval_cases n <;> rfl

theorem toDigits_step (n : Nat) (h : 10 ≤ n) :
    Nat.toDigits 10 n = Nat.toDigits 10 (n / 10) ++ [Nat.digitChar (n % 10)] := by
  have h0 : ¬ n / 10 = 0 := by omega
  conv => lhs; unfold Nat.toDigits
  simp only [Nat.toDigitsCore]
  rw [if_neg h0, toDigitsCore_append n (n / 10) _ (by omega)]

/-- Four-digit padding: a year from 0 to 9999 is written with exactly
four digits. -/
theorem appendInt_four (n : Nat) (h : n < 10000) : appendInt (n : Int) 4 = pad4 n := by
  have hneg : ¬ ((n : Int) < 0) := by omega
  unfold appendInt pad4
  simp only [hneg, if_false, List.nil_append, Int.natAbs_ofNat]
  by_cases h1 : n < 10
  · rw [toDigits_small n h1]
    have e1 : n / 1000 = 0 := by omega
    have e2 : n / 100 % 10 = 0 := by omega
    have e3 : n / 10 % 10 = 0 := by omega
    have e4 : n % 10 = n := by omega
    rw [e1, e2, e3, e4]
    rfl
  · by_cases h2 : n < 100
    · rw [toDigits_step n (by omega), toDigits_small (n / 10) (by omega)]
      have e1 : n / 1000 = 0 := by omega
      have e2 : n / 100 % 10 = 0 := by omega
      have e3 : n / 10 % 10 = n / 10 := by omega
      rw [e1, e2, e3]
      rfl
    · by_cases h3 : n < 1000
      · rw [toDigits_step n (by omega), toDigits_step (n / 10) (by omega),
          toDigits_small (n / 10 / 10) (by omega)]
        have e1 : n / 1000 = 0 := by omega
        have e2 : n / 100 % 10 = n / 10 / 10 := by omega
        rw [e1, e2]
        rfl
      · rw [toDigits_step n (by omega), toDigits_step (n / 10) (by omega),
          toDigits_step (n / 10 / 10) (by omega), toDigits_small (n / 10 / 10 / 10) (by omega)]
        have e1 : n / 1000 = n / 10 / 10 / 10 := by omega
        have e2 : n / 100 % 10 = n / 10 / 10 % 10 := by omega
        rw [e1, e2]
        rfl

/-- The time stamp of a valid date and time of day with a year from 0 to
9999 is `DD.MM.YYYY HH:MM`; the seconds do not show. -/
theorem stamp_Date (y m d h mi sc : Nat) (hy : y < 10000) (hm1 : 1 ≤ m) (hm2 : m ≤ 12)
    (hd1 : 1 ≤ d) (hd2 : d ≤ daysIn m (y : Int)) (hh : h < 24) (hmi : mi < 60) (hsc : sc < 60) :
    stamp (Date (y : Int) m d h mi sc 0)
      = dateLong d m y ++ " ".toList ++ timeMin h mi := by
  obtain ⟨f1, f2, f3, f4, f5, _⟩ :=
    Date_fields (y : Int) m d h mi sc 0 hm1 hm2 hd1 hd2 hh hmi hsc (by omega)
  have hd100 : d < 100 := by have := daysIn_le m (y : Int); omega
  unfold stamp dateLong timeMin
  rw [f1, f2, f3, f4, f5, appendInt_four y hy, appendInt_two d hd100, appendInt_two m (by omega),
    appendInt_two h (by omega), appendInt_two mi (by omega)]
  rfl

/-! ## Names written in upper case are names without regard to case -/

theorem HasPrefix_ToUpper (name p : Str) (hp : ToUpper p = p)
    (h : HasPrefix name p = true) : HasPrefix (ToUpper name) p = true := by
  unfold HasPrefix at *
  rw [List.isPrefixOf_iff_prefix] at *
  obtain ⟨t, rfl⟩ := h
  refine ⟨ToUpper t, ?_⟩
  conv_rhs => rw [ToUpper, List.map_append, ← ToUpper, ← ToUpper, hp]

theorem Contains_ToUpper (name p : Str) (hp : ToUpper p = p)
    (h : Contains name p = true) : Contains (ToUpper name) p = true := by
  rw [Contains_iff] at *
  obtain ⟨a, c, rfl⟩ := h
  refine ⟨ToUpper a, ToUpper c, ?_⟩
  conv_lhs => rw [ToUpper, List.map_append, List.map_append, ← ToUpper, ← ToUpper, ← ToUpper, hp]

theorem imageName_of_exact (name : Str) (h : imageNameExact name = true) : imageName name := by
  rw [← isImageMessage_iff]
  unfold imageNameExact at h
  unfold isImageMessage
  simp only [Bool.or_eq_true] at h ⊢
  rcases h with (h | h) | h
  · exact Or.inl (Or.inl (HasPrefix_ToUpper _ _ (by decide) h))
  · exact Or.inl (Or.inr (HasPrefix_ToUpper _ _ (by decide) h))
  · exact Or.inr (Contains_ToUpper _ _ (by decide) h)

theorem videoName_of_exact (name : Str) (h : videoNameExact name = true) : videoName name := by
  rw [← isVideoMessage_iff]
  unfold videoNameExact at h
  unfold isVideoMessage
  simp only [Bool.or_eq_true] at h ⊢
  rcases h with (h | h) | h
  · exact Or.inl (Or.inl (HasPrefix_ToUpper _ _ (by decide) h))
  · exact Or.inl (Or.inr (HasPrefix_ToUpper _ _ (by decide) h))
  · exact Or.inr (Contains_ToUpper _ _ (by decide) h)

/-! ## The masked hint of `runInit` -/

theorem maskedHint_short (key : Str) (h : (utf8 key).length < 7) :
    maskedHint key = .error (shortKeyPanic (utf8 key).length) := by
  unfold maskedHint sliceTo
  rw [if_neg (by omega)]
  rfl

theorem maskedHint_long (key : Str) (h : 7 ≤ (utf8 key).length) :
    maskedHint key = .ok ((utf8 key).take 7 ++ utf8 "***".toList
      ++ (utf8 key).drop ((utf8 key).length - 3)) := by
  unfold maskedHint sliceTo sliceFrom
  rw [if_pos h]
  simp only []
  rw [if_neg (by omega), if_neg (by omega)]
  have e : (((utf8 key).length : Int) - 3).toNat = (utf8 key).length - 3 := by omega
  rw [e]

theorem maskedHint_ascii (key : Str) (h : 7 ≤ key.length) (ha : ∀ c ∈ key, c.toNat < 128) :
    maskedHint key = .ok (utf8 (key.take 7 ++ "***".toList ++ key.drop (key.length - 3))) := by
  have hlen : (utf8 key).length = key.length := by rw [utf8_ascii key ha, List.length_map]
  rw [maskedHint_long key (by omega), hlen, utf8_append, utf8_append,
    utf8_ascii key ha, utf8_ascii (key.take 7) (fun c hc => ha c (List.mem_of_mem_take hc)),
    utf8_ascii (key.drop _) (fun c hc => ha c (List.mem_of_mem_drop hc)),
    List.map_take, List.map_drop]

theorem runInit_short (w : InitWorld) (key answer : Str) (rest : List Str)
    (hstat : w.stat (Join [w.dir, "config.json".toList]) = true)
    (hkey : (readExistingKey w (Join [w.dir, "config.json".toList])).1 = key)
    (hin : w.stdin = answer :: rest) (hyes : EqualFold answer "y".toList = true)
    (hne : key ≠ []) (h : (utf8 key).length < 7) :
    runInit w = (utf8 ("Config already exists at ".toList
        ++ Join [w.dir, "config.json".toList] ++ "\n".toList) ++ utf8 "Overwrite? [y/N]: ".toList,
      .panicked (shortKeyPanic (utf8 key).length)) := by
  unfold runInit
  simp only [hstat, if_true, hin, Scanln, hyes, Bool.not_true, hkey]
  unfold runInitKey keyPrompt
  rw [if_pos hne, maskedHint_short key h]
  simp

/-! # The claims -/

/-! ## Claim C1 -/

/-- C1: `Chat.Filter` keeps exactly the messages whose timestamp lies in the
window (each bound inclusive, an absent bound unrestricted), in their
original order and unchanged: the result is the sublist of the input
selected by the window; in particular a message whose timestamp equals a
bound is kept. -/
theorem Filter_spec (c : Chat) (frm til : Option Time) :
    (c.Filter frm til).Messages = c.Messages.filter (fun m => decide (inWindow frm til m))
    ∧ (∀ m, m ∈ (c.Filter frm til).Messages ↔
        m ∈ c.Messages ∧
          (frm = none ∨ ∃ f, frm = some f ∧ f.nanos ≤ m.Timestamp.nanos) ∧
          (til = none ∨ ∃ t, til = some t ∧ m.Timestamp.nanos ≤ t.nanos))
    ∧ (∀ m, m ∈ c.Messages → frm = some m.Timestamp → til = none →
        m ∈ (c.Filter frm til).Messages)
    ∧ (∀ m, m ∈ c.Messages → frm = none → til = some m.Timestamp →
        m ∈ (c.Filter frm til).Messages) := by
  have hF : (c.Filter frm til).Messages
      = c.Messages.filter (fun m => decide (inWindow frm til m)) := by
    unfold Chat.Filter
    rw [Chat.foldl_filterStep]
    simp
  refine ⟨hF, ?_, ?_, ?_⟩
  · intro m
    rw [hF, List.mem_filter]
    unfold inWindow
    cases frm <;> cases til <;> simp
  · intro m hm hf ht
    rw [hF, List.mem_filter]
    refine ⟨hm, ?_⟩
    subst hf ht
    simp [inWindow]
  · intro m hm hf ht
    rw [hF, List.mem_filter]
    refine ⟨hm, ?_⟩
    subst hf ht
    simp [inWindow]

/-- C1, at the example of the specification: of five messages with
increasing timestamps, a lower bound equal to the third timestamp keeps
the third, fourth and fifth, and an upper bound equal to it keeps the
first, second and third. -/
theorem Filter_spec_witness :
    (Chat.Filter ⟨[sampleMessage 1, sampleMessage 2, sampleMessage 3, sampleMessage 4,
        sampleMessage 5]⟩ (some (Date 2024 1 15 9 3 0 0)) none).Messages
      = [sampleMessage 3, sampleMessage 4, sampleMessage 5]
    ∧ (Chat.Filter ⟨[sampleMessage 1, sampleMessage 2, sampleMessage 3, sampleMessage 4,
        sampleMessage 5]⟩ none (some (Date 2024 1 15 9 3 0 0))).Messages
      = [sampleMessage 1, sampleMessage 2, sampleMessage 3] := by
  rw [(Filter_spec _ _ _).1, (Filter_spec _ _ _).1]
  decide!

/-! ## Claim C2 -/

/-- C2: for every valid calendar date and time of day, every non-empty
sender without colon and every text that is not an attachment reference
(and, being part of a line, has no line break), `parseMessageLine` accepts
the iOS line `[DD.MM.YY, HH:MM:SS] Sender: Text`, the iOS line with a
four-digit year, and the Android line `DD.MM.YY, HH:MM - Sender: Text`,
and returns the Text message with that sender, that content, an empty
media reference and that date and time as timestamp (seconds 0 for the
Android line); a two-digit year below 69 stands for 2000+YY (69 to 99 for
1900+YY). -/
theorem parseMessageLine_spec (m d h mi sc : Nat) (sender text : Str)
    (hm1 : 1 ≤ m) (hm2 : m ≤ 12) (hd1 : 1 ≤ d) (hh : h < 24) (hmi : mi < 60) (hsc : sc < 60)
    (hne : sender ≠ []) (hcolon : ':' ∉ sender) (hline : '\n' ∉ text)
    (htext : ¬ attachmentRef text) :
    (∀ yy : Nat, yy < 100 → d ≤ daysIn m (expandYear yy) →
      parseMessageLine (iosLine (dateShort d m yy) (timeSec h mi sc) sender text)
        = some { Timestamp := Date (expandYear yy) m d h mi sc 0, Sender := sender,
                 Content := text, Typ := TextMessage, MediaRef := [] })
    ∧ (∀ y : Nat, y < 10000 → d ≤ daysIn m (y : Int) →
      parseMessageLine (iosLine (dateLong d m y) (timeSec h mi sc) sender text)
        = some { Timestamp := Date (y : Int) m d h mi sc 0, Sender := sender,
                 Content := text, Typ := TextMessage, MediaRef := [] })
    ∧ (∀ yy : Nat, yy < 100 → d ≤ daysIn m (expandYear yy) →
      parseMessageLine (androidLine (dateShort d m yy) (timeMin h mi) sender text)
        = some { Timestamp := Date (expandYear yy) m d h mi 0 0, Sender := sender,
                 Content := text, Typ := TextMessage, MediaRef := [] })
    ∧ (∀ yy : Nat, yy < 69 → expandYear yy = 2000 + (yy : Int))
    ∧ (∀ yy : Nat, 69 ≤ yy → expandYear yy = 1900 + (yy : Int)) := by
  refine ⟨?_, ?_, ?_, ?_, ?_⟩
  · intro yy hyy hd2
    exact parseMessageLine_iosShort yy m d h mi sc sender text hyy hm1 hm2 hd1 hd2 hh hmi hsc
      hne hcolon hline htext
  · intro y hy hd2
    exact parseMessageLine_iosLong y m d h mi sc sender text hy hm1 hm2 hd1 hd2 hh hmi hsc
      hne hcolon hline htext
  · intro yy hyy hd2
    exact parseMessageLine_android yy m d h mi sender text hyy hm1 hm2 hd1 hd2 hh hmi
      hne hcolon hline htext
  · intro yy hyy
    unfold expandYear
    rw [if_neg (by omega)]
    omega
  · intro yy hyy
    unfold expandYear
    rw [if_pos (by omega)]
    omega

/-- C2, at the two lines of the specification: 15 January 2024, 09:30:05
from Alice, and 09:30 from Bob. -/
theorem parseMessageLine_spec_witness :
    parseMessageLine "[15.01.24, 09:30:05] Alice: Hello".toList
      = some { Timestamp := Date 2024 1 15 9 30 5 0, Sender := "Alice".toList,
               Content := "Hello".toList, Typ := TextMessage, MediaRef := [] }
    ∧ parseMessageLine "15.01.24, 09:30 - Bob: Hi".toList
      = some { Timestamp := Date 2024 1 15 9 30 0 0, Sender := "Bob".toList,
               Content := "Hi".toList, Typ := TextMessage, MediaRef := [] } :=
  ⟨(parseMessageLine_spec 1 15 9 30 5 "Alice".toList "Hello".toList (by decide) (by decide)
      (by decide) (by decide) (by decide) (by decide) (by decide) (by decide) (by decide)
      (not_attachmentRef _ (by decide) (by decide))).1 24 (by decide) (by decide),
   (parseMessageLine_spec 1 15 9 30 0 "Bob".toList "Hi".toList (by decide) (by decide)
      (by decide) (by decide) (by decide) (by decide) (by decide) (by decide) (by decide)
      (not_attachmentRef _ (by decide) (by decide))).2.2.1 24 (by decide) (by decide)⟩

/-! ## Claim C3 -/

/-- C3 as stated fails for a transcript with a line of 1 MiB
(`maxTokenSize` bytes) or more: the scanner of `parseTextFile` stops with
`bufio.Scanner: token too long`, and `parseTextFile` returns that error
and no message at all, although the first line is one that
`parseMessageLine` accepts; `Parse` returns the error as
`parsing chat file: bufio.Scanner: token too long`. -/
theorem parseTextFile_counterexample :
    accepted "[15.01.24, 09:30:05] Alice: Hello".toList = true
    ∧ (utf8 (List.replicate maxTokenSize 'a')).length = 1048576
    ∧ parseTextFile
        ["[15.01.24, 09:30:05] Alice: Hello".toList, List.replicate maxTokenSize 'a']
      = .error ErrTooLong
    ∧ Parse "/tmp/wachat-1".toList
        ["[15.01.24, 09:30:05] Alice: Hello".toList, List.replicate maxTokenSize 'a']
      = .error ("parsing chat file: ".toList ++ ErrTooLong)
    ∧ ErrTooLong = "bufio.Scanner: token too long".toList := by
  have hlong : maxTokenSize ≤ (utf8 (List.replicate maxTokenSize 'a')).length := by
    rw [utf8_replicate_ascii _ _ (by decide)]
  have h : parseTextFile
      ["[15.01.24, 09:30:05] Alice: Hello".toList, List.replicate maxTokenSize 'a']
      = .error ErrTooLong :=
    parseTextFile_tooLong _
      ⟨_, List.mem_cons_of_mem _ (List.mem_cons_self _ _), hlong⟩
  have h2 : (utf8 (List.replicate maxTokenSize 'a')).length = 1048576 := by
    rw [utf8_replicate_ascii _ _ (by decide)]
    rfl
  exact ⟨by decide!, h2, h, Parse_error _ _ _ h, rfl⟩

/-- C3, amended: for every sequence of lines that are each shorter than
1 MiB (`maxTokenSize` bytes), `parseTextFile` returns the messages of the
specification for the lines without their carriage returns: one message
per accepted line, in line order, each with the rejected lines that follow
it appended to its content after a line break, and nothing for rejected
lines before the first message; the number of messages is the number of
accepted lines; one message line followed by two rejected lines gives one
message with content `text ++ "\n" ++ line2 ++ "\n" ++ line3`, all other
fields unchanged.  A line of `maxTokenSize` bytes or more after these
lines makes `parseTextFile` fail. -/
theorem parseTextFile_spec (lines : List Str)
    (hlen : ∀ l ∈ lines, (utf8 l).length < maxTokenSize) :
    parseTextFile lines = .ok (foldedMessages (lines.map dropCR))
    ∧ (foldedMessages (lines.map dropCR)).length
        = ((lines.map dropCR).filter accepted).length
    ∧ ((∀ l ∈ lines, '\r' ∉ l) → parseTextFile lines = .ok (foldedMessages lines))
    ∧ (∀ l₁ l₂ l₃ m, lines = [l₁, l₂, l₃] →
        parseMessageLine (stripInvisible (dropCR l₁)) = some m →
        parseMessageLine (stripInvisible (dropCR l₂)) = none →
        parseMessageLine (stripInvisible (dropCR l₃)) = none →
        parseTextFile lines
          = .ok [{ m with Content := m.Content ++ "\n".toList ++ stripInvisible (dropCR l₂)
                    ++ "\n".toList ++ stripInvisible (dropCR l₃) }])
    ∧ (∀ pre, (∀ l ∈ pre, (utf8 l).length < maxTokenSize ∧ accepted (dropCR l) = false) →
        parseTextFile (pre ++ lines) = parseTextFile lines)
    ∧ (∀ long rest, maxTokenSize ≤ (utf8 long).length →
        parseTextFile (lines ++ long :: rest) = .error ErrTooLong) := by
  have h0 := parseTextFile_ok lines hlen
  refine ⟨h0, foldedMessages_length _, ?_, ?_, ?_, ?_⟩
  · intro hcr
    have e : lines.map dropCR = lines := by
      conv_rhs => rw [← List.map_id lines]
      exact List.map_congr_left (fun l hl => dropCR_of_no_CR l (hcr l hl))
    rw [h0, e]
  · intro l₁ l₂ l₃ m hl h₁ h₂ h₃
    rw [h0, hl]
    simp [foldedMessages, continuation, accepted, h₁, h₂, h₃]
  · intro pre hpre
    have hall : ∀ l ∈ pre ++ lines, (utf8 l).length < maxTokenSize := by
      intro l hl
      rcases List.mem_append.1 hl with h | h
      · exact (hpre l h).1
      · exact hlen l h
    rw [h0, parseTextFile_ok _ hall, List.map_append]
    congr 1
    induction pre with
    | nil => rfl
    | cons p ps ih =>
      have hp : parseMessageLine (stripInvisible (dropCR p)) = none := by
        have := (hpre p (List.mem_cons_self _ _)).2
        simpa [accepted] using this
      simp only [List.map_cons, List.cons_append, foldedMessages, hp]
      exact ih (fun l hl => hpre l (List.mem_cons_of_mem _ hl))
        (fun l hl => hall l (List.mem_cons_of_mem _ hl))
  · intro long rest hlong
    exact parseTextFile_tooLong _
      ⟨long, List.mem_append_right _ (List.mem_cons_self _ _), hlong⟩

/-- C3, amended, at a concrete transcript with the line ends of an iOS
export (carriage return and line feed): a message line followed by two
plain lines is one message. -/
theorem parseTextFile_spec_witness :
    parseTextFile
        ["[15.01.24, 09:30:05] Alice: Hello\r".toList, "second\r".toList, "third".toList]
      = .ok [{ Timestamp := Date 2024 1 15 9 30 5 0, Sender := "Alice".toList,
               Content := "Hello\nsecond\nthird".toList, Typ := TextMessage,
               MediaRef := [] }] := by
  have h := (parseTextFile_spec
      ["[15.01.24, 09:30:05] Alice: Hello\r".toList, "second\r".toList, "third".toList]
      (by decide!)).2.2.2.1
    "[15.01.24, 09:30:05] Alice: Hello\r".toList "second\r".toList "third".toList
    { Timestamp := Date 2024 1 15 9 30 5 0, Sender := "Alice".toList,
      Content := "Hello".toList, Typ := TextMessage, MediaRef := [] }
    rfl (by decide!) (by decide!) (by decide!)
  rw [h]
  rfl

/-! ## Claim C4 -/

/-- C4 as stated fails for white space after the suffix that is not white
space of the pattern: the one-line text `doc.pdf (file attached)` followed
by a no-break space (U+00A0) is no attachment reference `<WORD: F>` and
ends with the suffix `(file attached)` surrounded by white space, yet
`classifyContent` returns it as a Text message, not as the classification
of `doc.pdf`; `parseMessageLine` passes this text to `classifyContent` for
the line `[15.01.24, 09:30:05] Alice: doc.pdf (file attached)` with the
no-break space at its end. -/
theorem classifyContent_counterexample :
    '\n' ∉ "doc.pdf (file attached)".toList ++ [Char.ofNat 0xA0]
    ∧ (¬ ∃ F, isAnhangRef ("doc.pdf (file attached)".toList ++ [Char.ofNat 0xA0]) F)
    ∧ endsAttachedUnicode ("doc.pdf (file attached)".toList ++ [Char.ofNat 0xA0])
        "doc.pdf".toList
    ∧ classifyContent ("doc.pdf (file attached)".toList ++ [Char.ofNat 0xA0])
        = ("doc.pdf (file attached)".toList ++ [Char.ofNat 0xA0], TextMessage, [])
    ∧ classifyMediaFile (TrimSpace "doc.pdf".toList)
        = ("doc.pdf".toList, DocumentMessage, "doc.pdf".toList)
    ∧ parseMessageLine
        ("[15.01.24, 09:30:05] Alice: doc.pdf (file attached)".toList ++ [Char.ofNat 0xA0])
      = some { Timestamp := Date 2024 1 15 9 30 5 0, Sender := "Alice".toList,
               Content := "doc.pdf (file attached)".toList ++ [Char.ofNat 0xA0],
               Typ := TextMessage, MediaRef := [] } := by
  refine ⟨by decide, ?_, ?_, by decide!, by decide!, by decide!⟩
  · rintro ⟨F, _, W, _, hW⟩
    simp [anhangText] at hW
  · exact ⟨"(file attached)".toList, by simp [attachedSuffixes], " ".toList,
      [Char.ofNat 0xA0], by decide, by decide, by decide⟩

/-- C4, amended: for every text of one line (a text without line break),
`classifyContent` equals the definition of the claim, with the white space
after the suffix read as the white space of the pattern (`\s`: space, tab,
form feed, carriage return): if the text is exactly `<Anhang: F>`,
`<attached: F>` or `<Media omitted: F>` for a non-empty `F`, the result is
`classifyMediaFile F`, with content and media reference `F`; else if the
text ends with `(Datei angehängt)` or `(file attached)`, optionally
preceded by white space (of the pattern or of Unicode) and optionally
followed by white space of the pattern, the result is `classifyMediaFile`
of the trimmed text before the suffix, with content and media reference
that trimmed text; otherwise the result is Text with the text as content
and an empty media reference. -/
theorem classifyContent_spec (text : Str) (hline : '\n' ∉ text) :
    (∀ F, isAnhangRef text F →
      classifyContent text = classifyMediaFile F
        ∧ (classifyContent text).1 = F ∧ (classifyContent text).2.2 = F)
    ∧ (∀ p, (¬ ∃ F, isAnhangRef text F) → endsAttached text p →
      classifyContent text = classifyMediaFile (TrimSpace p)
        ∧ (classifyContent text).1 = TrimSpace p ∧ (classifyContent text).2.2 = TrimSpace p)
    ∧ (∀ p u S w, (¬ ∃ F, isAnhangRef text F) → S ∈ attachedSuffixes →
      (∀ c ∈ u, isSpace c = true) → (∀ c ∈ w, reSpace c = true) →
      text = p ++ u ++ S ++ w →
      classifyContent text = classifyMediaFile (TrimSpace p)
        ∧ (classifyContent text).1 = TrimSpace p ∧ (classifyContent text).2.2 = TrimSpace p)
    ∧ ((¬ ∃ F, isAnhangRef text F) → (¬ ∃ p, endsAttached text p) →
      classifyContent text = (text, TextMessage, [])) := by
  have hF : ∀ F, isAnhangRef text F → '\n' ∉ F := by
    rintro F ⟨_, W, _, hW⟩ hn
    apply hline
    rw [hW]
    simp [anhangText, hn]
  have hnot : (¬ ∃ F, isAnhangRef text F) → ¬ ∃ F, isAnhangRef text F ∧ '\n' ∉ F :=
    fun h ⟨F, hF', _⟩ => h ⟨F, hF'⟩
  refine ⟨?_, ?_, ?_, ?_⟩
  · intro F h
    rw [classifyContent_anhang text F h (hF F h)]
    exact ⟨rfl, classifyMediaFile_fst F, classifyMediaFile_ref F⟩
  · intro p h1 h2
    rw [classifyContent_attached text p (hnot h1) h2]
    exact ⟨rfl, classifyMediaFile_fst _, classifyMediaFile_ref _⟩
  · intro p u S w h1 hS hu hw ht
    have h2 : endsAttached text (p ++ u) :=
      ⟨S ++ w, by rw [ht]; simp, S, hS, [], w, by simp, hw, by simp⟩
    rw [classifyContent_attached text (p ++ u) (hnot h1) h2, TrimSpace_append_spaces p u hu]
    exact ⟨rfl, classifyMediaFile_fst _, classifyMediaFile_ref _⟩
  · intro h1 h2
    exact classifyContent_text text (hnot h1) h2

/-- C4, amended, at the two examples of the specification, and at a text
with a no-break space before the suffix and a blank after it. -/
theorem classifyContent_spec_witness :
    classifyContent "<Anhang: PTT-20240101-WA0001.opus>".toList
      = ("PTT-20240101-WA0001.opus".toList, VoiceMessage, "PTT-20240101-WA0001.opus".toList)
    ∧ classifyContent "IMG-20240101-WA0002.jpg (Datei angehängt)".toList
      = ("IMG-20240101-WA0002.jpg".toList, ImageMessage, "IMG-20240101-WA0002.jpg".toList)
    ∧ classifyContent ("doc.pdf".toList ++ [Char.ofNat 0xA0] ++ "(file attached) ".toList)
      = ("doc.pdf".toList, DocumentMessage, "doc.pdf".toList) := by
  have h1 := (classifyContent_spec "<Anhang: PTT-20240101-WA0001.opus>".toList (by decide)).1
    "PTT-20240101-WA0001.opus".toList
    ⟨by decide, "Anhang".toList, by simp [anhangWords], by decide⟩
  have h2 := (classifyContent_spec "IMG-20240101-WA0002.jpg (Datei angehängt)".toList
      (by decide)).2.1
    "IMG-20240101-WA0002.jpg".toList
    (by
      rintro ⟨F, _, W, _, hW⟩
      simp [anhangText] at hW)
    ⟨" (Datei angehängt)".toList, by decide,
      "(Datei angehängt)".toList, by simp [attachedSuffixes], " ".toList, [], by decide,
      by simp, by decide⟩
  have h3 := (classifyContent_spec
      ("doc.pdf".toList ++ [Char.ofNat 0xA0] ++ "(file attached) ".toList) (by decide)).2.2.1
    "doc.pdf".toList [Char.ofNat 0xA0] "(file attached)".toList " ".toList
    (by
      rintro ⟨F, _, W, _, hW⟩
      simp [anhangText] at hW)
    (by simp [attachedSuffixes]) (by decide) (by decide) (by decide)
  refine ⟨?_, ?_, ?_⟩
  · rw [h1.1]; decide!
  · rw [h2.1]; decide!
  · rw [h3.1]; decide!

/-! ## Claim C5 -/

/-- C5: `classifyMediaFile` returns the file name unchanged as content and
as media reference, and decides the kind in priority order, without regard
to case: Voice for a voice-note name, otherwise Image for an image name,
otherwise Video for a video name, otherwise Document. -/
theorem classifyMediaFile_spec (filename : Str) :
    (classifyMediaFile filename).1 = filename
    ∧ (classifyMediaFile filename).2.2 = filename
    ∧ ((classifyMediaFile filename).2.1 = VoiceMessage ↔ voiceName filename)
    ∧ ((classifyMediaFile filename).2.1 = ImageMessage ↔
        ¬ voiceName filename ∧ imageName filename)
    ∧ ((classifyMediaFile filename).2.1 = VideoMessage ↔
        ¬ voiceName filename ∧ ¬ imageName filename ∧ videoName filename)
    ∧ ((classifyMediaFile filename).2.1 = DocumentMessage ↔
        ¬ voiceName filename ∧ ¬ imageName filename ∧ ¬ videoName filename) := by
  rw [← isVoiceMessage_iff, ← isImageMessage_iff, ← isVideoMessage_iff]
  unfold classifyMediaFile
  cases isVoiceMessage filename <;> cases isImageMessage filename <;>
    cases isVideoMessage filename <;> simp

/-! ## Claim C6 -/

/-- C6: `formatMessage` returns the line of the specification for every
message and both values of the markdown option: the time stamp is
`DD.MM.YYYY HH:MM` without seconds; System is `*[ts] content*` or
`*** [ts] content`; Voice is `[ts] sender: [Sprachnachricht] X` with `X`
the media reference when the content is empty or equal to it and the
content otherwise; Image, Video and Document show the media reference
after `[Bild]`, `[Video]`, `[Dokument]`; Text is `[ts] sender: content`. -/
theorem formatMessage_spec (markdown : Bool) (msg : Message) :
    formatMessage markdown msg = specLine markdown msg
    ∧ (∀ y m d h mi sc : Nat, y < 10000 → 1 ≤ m → m ≤ 12 → 1 ≤ d → d ≤ daysIn m (y : Int) →
        h < 24 → mi < 60 → sc < 60 →
        stamp (Date (y : Int) m d h mi sc 0) = dateLong d m y ++ " ".toList ++ timeMin h mi)
    ∧ stamp (Date 2024 1 15 9 30 5 0) = "15.01.2024 09:30".toList
    ∧ formatMessage markdown
        { Timestamp := Date 2024 1 15 9 30 5 0, Sender := "Alice".toList,
          Content := "PTT-1.opus".toList, Typ := VoiceMessage, MediaRef := "PTT-1.opus".toList }
        = "[15.01.2024 09:30] Alice: [Sprachnachricht] PTT-1.opus".toList
    ∧ formatMessage markdown
        { Timestamp := Date 2024 1 15 9 30 5 0, Sender := "Alice".toList,
          Content := "Guten Morgen".toList, Typ := VoiceMessage,
          MediaRef := "PTT-1.opus".toList }
        = "[15.01.2024 09:30] Alice: [Sprachnachricht] Guten Morgen".toList := by
  exact ⟨formatMessage_eq_specLine markdown msg,
    fun y m d h mi sc hy hm1 hm2 hd1 hd2 hh hmi hsc =>
      stamp_Date y m d h mi sc hy hm1 hm2 hd1 hd2 hh hmi hsc,
    by decide!, by cases markdown <;> decide!, by cases markdown <;> decide!⟩

/-! ## Claim C7 -/

/-- C7: for a chat the parser returned, `Process` hands the renderer the
(optionally filtered) chat with `transcribed` applied to every message,
in the same order, and returns exactly what the renderer returns, whatever
the transcriber answers.  `transcribed` changes nothing but the content,
sets the content of a voice message to the text of a successful
transcription, and leaves a voice message whose transcription failed and
every other message as it is. -/
theorem Process_spec {ρ : Type} (chat : Chat) (transcribe : Str → Except Str Str)
    (render : Writer → Chat → ρ × Option Str) (frm til : Option Time) (w : Writer) :
    (∃ warnings,
      Process (.ok chat) transcribe render frm til w
        = (warnings,
           some (render w ⟨(filteredChat chat frm til).Messages.map (transcribed transcribe)⟩).1,
           (render w ⟨(filteredChat chat frm til).Messages.map (transcribed transcribe)⟩).2))
    ∧ ((filteredChat chat frm til).Messages.map (transcribed transcribe)).length
        = (filteredChat chat frm til).Messages.length
    ∧ (∀ m : Message,
        (transcribed transcribe m).Timestamp = m.Timestamp
        ∧ (transcribed transcribe m).Sender = m.Sender
        ∧ (transcribed transcribe m).Typ = m.Typ
        ∧ (transcribed transcribe m).MediaRef = m.MediaRef
        ∧ (∀ text, m.Typ = VoiceMessage → transcribe m.MediaRef = .ok text →
            (transcribed transcribe m).Content = text)
        ∧ (∀ err, m.Typ = VoiceMessage → transcribe m.MediaRef = .error err →
            transcribed transcribe m = m)
        ∧ (m.Typ ≠ VoiceMessage → transcribed transcribe m = m)) := by
  refine ⟨?_, by simp, ?_⟩
  · refine ⟨(forRange (filteredChat chat frm til).Messages.length (transcribeStep transcribe)
      ((filteredChat chat frm til).Messages, [])).2, ?_⟩
    simp only [Process]
    rw [← forRange_transcribeStep]
    rfl
  · intro m
    unfold transcribed
    by_cases hv : m.Typ = VoiceMessage
    · cases ht : transcribe m.MediaRef <;> simp [hv]
    · simp [hv]

/-- C7, at the example of the specification: of three voice messages the
transcription of the second fails; the renderer gets the first and the
third with the transcribed text and the second unchanged, and `Process`
returns the result of the renderer, which is success. -/
theorem Process_spec_witness :
    (Process (.ok ⟨[sampleVoice "/t/a.opus".toList, sampleVoice "/t/b.opus".toList,
        sampleVoice "/t/c.opus".toList]⟩) sampleTranscriber (Render false) none none
        ⟨[], none, []⟩).2
      = (some ⟨("[15.01.2024 09:30] Alice: [Sprachnachricht] text\n"
            ++ "[15.01.2024 09:30] Alice: [Sprachnachricht] /t/b.opus\n"
            ++ "[15.01.2024 09:30] Alice: [Sprachnachricht] text\n").toList, none, []⟩, none) := by
  obtain ⟨ws, h⟩ := (Process_spec ⟨[sampleVoice "/t/a.opus".toList, sampleVoice "/t/b.opus".toList,
    sampleVoice "/t/c.opus".toList]⟩ sampleTranscriber (Render false) none none ⟨[], none, []⟩).1
  rw [h]
  dsimp only
  decide!

/-! ## Claim C8 -/

/-- C8 fails on the code: for the message text `<Anhang: ../../x.opus>`
and the extraction directory `/tmp/wachat-1`, `Parse` yields a voice
message whose media reference is `/x.opus`, which is not rooted at the
extraction directory, and `Process` hands that path to the transcriber
(here a transcriber that answers `heard` and the path it is given). -/
theorem Parse_mediaRef_escapes :
    Parse "/tmp/wachat-1".toList
        ["[15.01.24, 09:30:05] Alice: <Anhang: ../../x.opus>".toList]
      = .ok ⟨[{ Timestamp := Date 2024 1 15 9 30 5 0, Sender := "Alice".toList,
                Content := "../../x.opus".toList, Typ := VoiceMessage,
                MediaRef := "/x.opus".toList }]⟩
    ∧ rootedAt "/tmp/wachat-1".toList "/x.opus".toList = false
    ∧ (Process (Parse "/tmp/wachat-1".toList
          ["[15.01.24, 09:30:05] Alice: <Anhang: ../../x.opus>".toList])
        (fun path => .ok ("heard ".toList ++ path)) (Render false) none none ⟨[], none, []⟩).2.1
      = some ⟨"[15.01.2024 09:30] Alice: [Sprachnachricht] heard /x.opus\n".toList, none, []⟩ := by
  refine ⟨rfl, by decide!, by decide!⟩

/-! ## Claim C9 -/

/-- C9 as stated fails on both witnesses: the entry `a/../b.txt`, whose
name has a parent-directory segment, is written (as `b.txt` in the
destination), and the entry `notes..txt`, whose name has none, is not
extracted. -/
theorem extractZip_counterexample :
    hasParentSegment "a/../b.txt".toList
    ∧ ¬ hasParentSegment "notes..txt".toList
    ∧ extractZip (fun _ => true) "/tmp/wachat-1".toList
        [⟨"a/../b.txt".toList, false, [1]⟩, ⟨"notes..txt".toList, false, [2]⟩]
      = ([.MkdirAll "/tmp/wachat-1".toList, .WriteFile "/tmp/wachat-1/b.txt".toList [1]],
         true) := by
  decide!

/-- C9, amended: when the file-system operations succeed, `extractZip`
carries out, in the order of the archive, exactly the operations of the
entries whose cleaned name does not contain the text `..`, each at the
destination joined with its cleaned name; an entry whose cleaned name has
a parent-directory segment is among the skipped ones, so nothing is
written for it; and the result is the same as for the archive without the
skipped entries. -/
theorem extractZip_spec (fs : FsOp → Bool) (hfs : ∀ op, fs op = true) (destDir : Str)
    (files : List ZipFile) :
    extractZip fs destDir files = ((files.filter extracted).flatMap (entryOps destDir), true)
    ∧ (∀ f ∈ files, hasParentSegment (Clean f.Name) → extracted f = false)
    ∧ extractZip fs destDir files = extractZip fs destDir (files.filter extracted) := by
  refine ⟨extractZip_ok fs hfs destDir files, ?_, ?_⟩
  · intro f _ hseg
    unfold extracted
    rw [Contains_of_parentSegment _ hseg]
    rfl
  · rw [extractZip_ok fs hfs, extractZip_ok fs hfs, List.filter_filter]
    simp

/-- C9, amended, at a concrete archive. -/
theorem extractZip_spec_witness :
    extractZip (fun _ => true) "/tmp/wachat-1".toList
        [⟨"_chat.txt".toList, false, [104, 105]⟩, ⟨"../evil.txt".toList, false, [1]⟩,
         ⟨"media/".toList, true, []⟩]
      = ([.MkdirAll "/tmp/wachat-1".toList,
          .WriteFile "/tmp/wachat-1/_chat.txt".toList [104, 105],
          .MkdirAll "/tmp/wachat-1/media".toList], true) := by
  rw [(extractZip_spec (fun _ => true) (fun _ => rfl) "/tmp/wachat-1".toList _).1]
  decide!

/-! ## Claim C10 -/

/-- C10 as stated fails: the chat the parser produces from a message line
and a continuation line has one message, and `Render` writes two line
terminators for it. -/
theorem Render_one_line_per_message_counterexample :
    Parse "/tmp/wachat-1".toList
        ["[15.01.24, 09:30:05] Alice: Hello".toList, "world".toList]
      = .ok ⟨[{ Timestamp := Date 2024 1 15 9 30 5 0, Sender := "Alice".toList,
                Content := "Hello\nworld".toList, Typ := TextMessage, MediaRef := [] }]⟩
    ∧ (∀ chat, Parse "/tmp/wachat-1".toList
          ["[15.01.24, 09:30:05] Alice: Hello".toList, "world".toList] = .ok chat →
        chat.Messages.length = 1
        ∧ (Render false ⟨[], none, []⟩ chat).1.buf
            = "[15.01.2024 09:30] Alice: Hello\nworld\n".toList
        ∧ (Render false ⟨[], none, []⟩ chat).1.buf.count '\n' = 2) := by
  have h : Parse "/tmp/wachat-1".toList
        ["[15.01.24, 09:30:05] Alice: Hello".toList, "world".toList]
      = .ok ⟨[{ Timestamp := Date 2024 1 15 9 30 5 0, Sender := "Alice".toList,
                Content := "Hello\nworld".toList, Typ := TextMessage, MediaRef := [] }]⟩ := rfl
  refine ⟨h, ?_⟩
  intro chat hc
  rw [h] at hc
  cases hc
  decide!

/-- C10, amended: on a writer that accepts all writes `Render` succeeds
and appends, for every message in order, its formatted line and one line
terminator; when no sender, content or media reference contains a line
break, no formatted line contains one, so the output has exactly as many
line terminators as the chat has messages. -/
theorem Render_spec (markdown : Bool) (chat : Chat) (buf err : Str) :
    Render markdown ⟨buf, none, err⟩ chat
      = (⟨buf ++ renderedText markdown chat.Messages, none, err⟩, none)
    ∧ ((∀ m ∈ chat.Messages, singleLine m) →
        (∀ m ∈ chat.Messages, '\n' ∉ formatMessage markdown m)
        ∧ (renderedText markdown chat.Messages).count '\n' = chat.Messages.length) := by
  refine ⟨renderLoop_all markdown buf err chat.Messages, fun h => ⟨?_, ?_⟩⟩
  · intro m hm
    rw [formatMessage_eq_specLine markdown m]
    exact specLine_no_newline markdown m (h m hm)
  · exact count_renderedText markdown chat.Messages h

/-- C10, amended, at a concrete chat of two single-line messages. -/
theorem Render_spec_witness :
    (renderedText true
      [{ Timestamp := Date 2024 1 15 9 30 5 0, Sender := "Alice".toList,
         Content := "Hello".toList, Typ := TextMessage, MediaRef := [] },
       { Timestamp := Date 2024 1 15 9 31 0 0, Sender := [],
         Content := "Bob joined".toList, Typ := SystemMessage, MediaRef := [] }]).count '\n' = 2 :=
  ((Render_spec true
    ⟨[{ Timestamp := Date 2024 1 15 9 30 5 0, Sender := "Alice".toList,
        Content := "Hello".toList, Typ := TextMessage, MediaRef := [] },
      { Timestamp := Date 2024 1 15 9 31 0 0, Sender := [],
        Content := "Bob joined".toList, Typ := SystemMessage, MediaRef := [] }]⟩ [] []).2
    (by decide)).2

/-! ## Claim C11 -/

/-- C11 as stated fails: the kind is decided in priority order, so a name
of an image or a video convention that is also a voice-note name is a
Voice message, and a name of a video convention that is also an image name
is an Image.  `IMG-20240115-WA0001.opus` begins with `IMG-` and is Voice
(it ends with `.opus`); `VID-PHOTO-1.mp4` begins with `VID-` and is Image
(it contains `-PHOTO-`); `VIDEO-1.m4a` begins with `VIDEO-` and is Voice. -/
theorem classifyMediaFile_image_video_counterexample :
    HasPrefix "IMG-20240115-WA0001.opus".toList "IMG-".toList = true
    ∧ (classifyMediaFile "IMG-20240115-WA0001.opus".toList).2.1 = VoiceMessage
    ∧ HasPrefix "VID-PHOTO-1.mp4".toList "VID-".toList = true
    ∧ (classifyMediaFile "VID-PHOTO-1.mp4".toList).2.1 = ImageMessage
    ∧ HasPrefix "VIDEO-1.m4a".toList "VIDEO-".toList = true
    ∧ (classifyMediaFile "VIDEO-1.m4a".toList).2.1 = VoiceMessage := by
  decide

/-- C11, amended: for every file name that is not a voice-note name, an
image name (it begins with `IMG-` or `PHOTO-` or contains `-PHOTO-`, as
written or in any other case) is classified as Image, and a video name
(`VID-`, `VIDEO-`, `-VIDEO-`) that is not an image name is classified as
Video.  Without the restriction, an image name is Voice or Image and a
video name is Voice, Image or Video. -/
theorem classifyMediaFile_image_video_spec (filename : Str) :
    (¬ voiceName filename → imageName filename →
      (classifyMediaFile filename).2.1 = ImageMessage)
    ∧ (¬ voiceName filename → ¬ imageName filename → videoName filename →
      (classifyMediaFile filename).2.1 = VideoMessage)
    ∧ (¬ voiceName filename → imageNameExact filename = true →
      (classifyMediaFile filename).2.1 = ImageMessage)
    ∧ (¬ voiceName filename → ¬ imageName filename → videoNameExact filename = true →
      (classifyMediaFile filename).2.1 = VideoMessage)
    ∧ (imageName filename → (classifyMediaFile filename).2.1 = VoiceMessage
        ∨ (classifyMediaFile filename).2.1 = ImageMessage)
    ∧ (videoName filename → (classifyMediaFile filename).2.1 = VoiceMessage
        ∨ (classifyMediaFile filename).2.1 = ImageMessage
        ∨ (classifyMediaFile filename).2.1 = VideoMessage) := by
  have key : (¬ voiceName filename → imageName filename →
      (classifyMediaFile filename).2.1 = ImageMessage)
    ∧ (¬ voiceName filename → ¬ imageName filename → videoName filename →
      (classifyMediaFile filename).2.1 = VideoMessage)
    ∧ (imageName filename → (classifyMediaFile filename).2.1 = VoiceMessage
        ∨ (classifyMediaFile filename).2.1 = ImageMessage)
    ∧ (videoName filename → (classifyMediaFile filename).2.1 = VoiceMessage
        ∨ (classifyMediaFile filename).2.1 = ImageMessage
        ∨ (classifyMediaFile filename).2.1 = VideoMessage) := by
    rw [← isVoiceMessage_iff, ← isImageMessage_iff, ← isVideoMessage_iff]
    unfold classifyMediaFile
    cases isVoiceMessage filename <;> cases isImageMessage filename <;>
      cases isVideoMessage filename <;> simp
  obtain ⟨h1, h2, h3, h4⟩ := key
  exact ⟨h1, h2, fun hv he => h1 hv (imageName_of_exact _ he),
    fun hv hi he => h2 hv hi (videoName_of_exact _ he), h3, h4⟩

/-- C11, an instance: `IMG-20240115-WA0002.jpg` and `photo-1.jpg` are
Image, `VID-20240115-WA0003.mp4` and `clip-video-1.mp4` are Video. -/
theorem classifyMediaFile_image_video_spec_witness :
    (classifyMediaFile "IMG-20240115-WA0002.jpg".toList).2.1 = ImageMessage
    ∧ (classifyMediaFile "photo-1.jpg".toList).2.1 = ImageMessage
    ∧ (classifyMediaFile "VID-20240115-WA0003.mp4".toList).2.1 = VideoMessage
    ∧ (classifyMediaFile "clip-video-1.mp4".toList).2.1 = VideoMessage :=
  ⟨(classifyMediaFile_image_video_spec "IMG-20240115-WA0002.jpg".toList).2.2.1
      (fun h => absurd ((isVoiceMessage_iff _).2 h) (by decide)) (by decide),
   (classifyMediaFile_image_video_spec "photo-1.jpg".toList).1
      (fun h => absurd ((isVoiceMessage_iff _).2 h) (by decide))
      ((isImageMessage_iff _).1 (by decide)),
   (classifyMediaFile_image_video_spec "VID-20240115-WA0003.mp4".toList).2.2.2.1
      (fun h => absurd ((isVoiceMessage_iff _).2 h) (by decide))
      (fun h => absurd ((isImageMessage_iff _).2 h) (by decide)) (by decide),
   (classifyMediaFile_image_video_spec "clip-video-1.mp4".toList).2.1
      (fun h => absurd ((isVoiceMessage_iff _).2 h) (by decide))
      (fun h => absurd ((isImageMessage_iff _).2 h) (by decide))
      ((isVideoMessage_iff _).1 (by decide))⟩

/-! ## Claim C12 -/

/-- C12 fails on the code: for a stored API key that is not empty and has
fewer than 7 bytes, the masked hint is not computed; the slice
`existingKey[:7]` is out of range and `runInit` panics, whenever the
configuration file exists, stores that key, and the user agrees to
overwrite it (for the key `sk-abc` the panic is
`slice bounds out of range [:7] with length 6`).  For a key of at least 7
bytes the hint is computed and is the first 7 bytes of the key, `***`, and
its last 3 bytes; for an ASCII key these are its first 7 and its last 3
characters. -/
theorem runInit_maskedHint (key : Str) :
    (key ≠ [] → (utf8 key).length < 7 →
      maskedHint key = .error (shortKeyPanic (utf8 key).length)
      ∧ ∀ (w : InitWorld) (answer : Str) (rest : List Str),
          w.stat (Join [w.dir, "config.json".toList]) = true →
          (readExistingKey w (Join [w.dir, "config.json".toList])).1 = key →
          w.stdin = answer :: rest → EqualFold answer "y".toList = true →
          (runInit w).2 = .panicked (shortKeyPanic (utf8 key).length))
    ∧ (7 ≤ (utf8 key).length →
      maskedHint key = .ok ((utf8 key).take 7 ++ utf8 "***".toList
        ++ (utf8 key).drop ((utf8 key).length - 3)))
    ∧ (7 ≤ key.length → (∀ c ∈ key, c.toNat < 128) →
      maskedHint key
        = .ok (utf8 (key.take 7 ++ "***".toList ++ key.drop (key.length - 3))))
    ∧ (runInit (storedKeyWorld "sk-abc".toList ["y".toList])).2
        = .panicked "runtime error: slice bounds out of range [:7] with length 6".toList := by
  refine ⟨fun hne h => ⟨maskedHint_short key h, ?_⟩, maskedHint_long key,
    maskedHint_ascii key, by decide!⟩
  intro w answer rest hstat hkey hin hyes
  rw [runInit_short w key answer rest hstat hkey hin hyes hne h]

/-- C12, instances: with the stored key `sk-1` and the answer `y`,
`runInit` panics after the question; with the stored key
`sk-proj-1234567890` the hint is `sk-proj***890`. -/
theorem runInit_maskedHint_witness :
    runInit (storedKeyWorld "sk-1".toList ["y".toList, "sk-new".toList])
      = (utf8 ("Config already exists at /home/u/.config/wachat/config.json\n".toList
          ++ "Overwrite? [y/N]: ".toList),
        .panicked "runtime error: slice bounds out of range [:7] with length 4".toList)
    ∧ maskedHint "sk-proj-1234567890".toList = .ok (utf8 "sk-proj***890".toList) := by
  refine ⟨?_, ?_⟩
  · have h := ((runInit_maskedHint "sk-1".toList).1 (by decide) (by decide)).2
      (storedKeyWorld "sk-1".toList ["y".toList, "sk-new".toList]) "y".toList
      ["sk-new".toList] (by decide) (by decide) rfl (by decide)
    refine Prod.ext (by decide!) ?_
    rw [h]
    decide!
  · rw [(runInit_maskedHint "sk-proj-1234567890".toList).2.2.1 (by decide) (by decide)]
    rfl

end Wachat
